import Mathlib

/-!
Verification of the arazzo workflow executor against its specification.

The Rust sources are shallowly embedded: `&str` becomes `Str := List Char`,
`std::time::Duration` becomes nanoseconds as `Nat`, `BTreeMap`/`BTreeSet`
iteration becomes key-ordered lists, fallible functions return
`Option`/`Except`, and behavior of external crates (serde parsers, the
`httpdate` date parser, the jsonpath engine) is abstracted as oracle
parameters.  `f64` arithmetic in the retry backoff is modelled over `ℚ`;
no theorem below depends on float rounding.
-/

/-- Rust `&str` / `String`, embedded as a list of characters. -/
abbrev Str := List Char

namespace StrOps

/-- `pat` is a prefix of `s` (Rust `str::starts_with`). -/
def strStarts : Str → Str → Bool
  | [], _ => true
  | _ :: _, [] => false
  | p :: ps, c :: cs => p == c && strStarts ps cs

theorem strStarts_iff (pat s : Str) :
    strStarts pat s = true ↔ ∃ t, s = pat ++ t := by
  induction pat generalizing s with
  | nil => simp [strStarts]
  | cons p ps ih =>
    cases s with
    | nil => simp [strStarts]
    | cons c cs =>
      simp only [strStarts, Bool.and_eq_true, beq_iff_eq, ih]
      constructor
      · rintro ⟨rfl, t, rfl⟩
        exact ⟨t, rfl⟩
      · rintro ⟨t, h⟩
        cases h
        exact ⟨rfl, t, rfl⟩

theorem strStarts_self_append (pat t : Str) :
    strStarts pat (pat ++ t) = true :=
  (strStarts_iff pat (pat ++ t)).mpr ⟨t, rfl⟩

/-- Rust `str::split_once`: split at the first occurrence of `sep`. -/
def splitOnce : Str → Str → Option (Str × Str)
  | [], sep => if strStarts sep [] then some ([], []) else none
  | c :: rest, sep =>
    if strStarts sep (c :: rest) then some ([], (c :: rest).drop sep.length)
    else (splitOnce rest sep).map fun p => (c :: p.1, p.2)

theorem splitOnce_eq_some {s sep a b : Str}
    (h : splitOnce s sep = some (a, b)) : s = a ++ sep ++ b := by
  induction s generalizing a b with
  | nil =>
    rw [splitOnce] at h
    split at h
    · rename_i hp
      obtain ⟨t, ht⟩ := (strStarts_iff sep []).mp hp
      simp only [Option.some.injEq, Prod.mk.injEq] at h
      obtain ⟨rfl, rfl⟩ := h
      have hsep : sep = [] := by
        cases sep with
        | nil => rfl
        | cons x xs => simp at ht
      simp [hsep]
    · exact absurd h (by simp)
  | cons c rest ih =>
    rw [splitOnce] at h
    split at h
    · rename_i hp
      obtain ⟨t, ht⟩ := (strStarts_iff sep (c :: rest)).mp hp
      simp only [Option.some.injEq, Prod.mk.injEq] at h
      obtain ⟨rfl, rfl⟩ := h
      rw [ht, List.drop_left, List.nil_append]
    · rename_i hnp
      cases hrec : splitOnce rest sep with
      | none => simp [hrec] at h
      | some p =>
        obtain ⟨a', b'⟩ := p
        rw [hrec] at h
        have h' : (c :: a', b') = (a, b) := by simpa using h
        cases h'
        simp [ih hrec]

theorem splitOnce_isSome_of_occurs {s sep : Str}
    (h : ∃ a b, s = a ++ sep ++ b) : (splitOnce s sep).isSome = true := by
  obtain ⟨a, b, rfl⟩ := h
  induction a with
  | nil =>
    rw [List.nil_append]
    have h1 : strStarts sep (sep ++ b) = true := strStarts_self_append sep b
    cases hsb : sep ++ b with
    | nil =>
      rw [hsb] at h1
      rw [splitOnce, h1]
      simp
    | cons c rest =>
      rw [hsb] at h1
      rw [splitOnce, h1]
      simp
  | cons c a' ih =>
    simp only [List.cons_append]
    rw [splitOnce]
    split
    · simp
    · cases hrec : splitOnce (a' ++ sep ++ b) sep with
      | none => rw [hrec] at ih; simp at ih
      | some p => simp

/-- No occurrence of `sep` inside `s` means `split_once` fails. -/
theorem splitOnce_eq_none_of_not_occurs {s sep : Str}
    (h : ¬ ∃ a b, s = a ++ sep ++ b) : splitOnce s sep = none := by
  cases hs : splitOnce s sep with
  | none => rfl
  | some p =>
    obtain ⟨a, b⟩ := p
    exact absurd ⟨a, b, splitOnce_eq_some hs⟩ h

/-- Rust `str::trim_start` (ASCII whitespace; Unicode whitespace beyond
ASCII does not occur in any statement below). -/
def trimL (s : Str) : Str := s.dropWhile Char.isWhitespace

/-- Rust `str::trim_end`. -/
def trimR (s : Str) : Str := (s.reverse.dropWhile Char.isWhitespace).reverse

/-- Rust `str::trim`. -/
def trim (s : Str) : Str := trimL (trimR s)

/-- Rust `char::is_ascii_alphabetic`. -/
def isAsciiAlphabetic (c : Char) : Bool :=
  ('A' ≤ c && c ≤ 'Z') || ('a' ≤ c && c ≤ 'z')

/-- Rust `char::is_ascii_digit`. -/
def isAsciiDigit (c : Char) : Bool := '0' ≤ c && c ≤ '9'

/-- Rust `char::is_ascii_alphanumeric`. -/
def isAsciiAlphanumeric (c : Char) : Bool :=
  isAsciiAlphabetic c || isAsciiDigit c

end StrOps

open StrOps

/-! ## Secret references (src/arazzo-exec/src/secrets/ref.rs) -/

namespace Secrets

/-- `SecretRef` from src/arazzo-exec/src/secrets/ref.rs. -/
structure SecretRef where
  scheme : Str
  id : Str
  query : Option Str
  deriving DecidableEq, Repr

inductive SecretRefParseError where
  | MissingScheme
  | EmptyScheme
  | InvalidScheme (s : Str)
  | EmptyId
  deriving DecidableEq, Repr

/-- `is_valid_scheme`: ALPHA followed by ALPHA / DIGIT / `+` / `-` / `.`. -/
def is_valid_scheme (s : Str) : Bool :=
  match s with
  | [] => false
  | c :: rest =>
    isAsciiAlphabetic c &&
      rest.all fun d => isAsciiAlphanumeric d || d == '+' || d == '-' || d == '.'

/-- `SecretRef::parse`.  The Rust code computes the `(id, query)` pair and
then performs one emptiness check on `id`; that check is inlined into the
two `split_once('?')` branches here. -/
def SecretRef.parse (input : Str) : Except SecretRefParseError SecretRef :=
  match splitOnce (trim input) "://".data with
  | none => .error .MissingScheme
  | some (scheme, rest) =>
    if scheme = [] then .error .EmptyScheme
    else if ¬ is_valid_scheme scheme then .error (.InvalidScheme scheme)
    else
      match splitOnce rest ['?'] with
      | some (idPart, q) =>
        if idPart = [] then .error .EmptyId
        else .ok { scheme := scheme, id := idPart, query := some q }
      | none =>
        if rest = [] then .error .EmptyId
        else .ok { scheme := scheme, id := rest, query := none }

/-- `SecretRef::as_uri_string`. -/
def SecretRef.as_uri_string (r : SecretRef) : Str :=
  match r.query with
  | some q => r.scheme ++ "://".data ++ r.id ++ ['?'] ++ q
  | none => r.scheme ++ "://".data ++ r.id

end Secrets

/-- C9: on every input string accepted by `SecretRef::parse`, serializing the
parsed reference with `as_uri_string` reproduces the trimmed input character
for character (`scheme://id` and, when a `?` was present, the verbatim query
suffix). -/
theorem secretRef_parse_as_uri_string_roundtrip (input : Str) (r : Secrets.SecretRef)
    (h : Secrets.SecretRef.parse input = .ok r) :
    r.as_uri_string = trim input := by
  unfold Secrets.SecretRef.parse at h
  cases hsp : splitOnce (trim input) "://".data with
  | none => rw [hsp] at h; exact absurd h (by simp)
  | some p =>
    obtain ⟨scheme, rest⟩ := p
    rw [hsp] at h
    have ht : trim input = scheme ++ "://".data ++ rest := splitOnce_eq_some hsp
    simp only at h
    split at h
    · exact absurd h (by simp)
    · split at h
      · exact absurd h (by simp)
      · cases hq : splitOnce rest ['?'] with
        | none =>
          rw [hq] at h
          simp only at h
          split at h
          · exact absurd h (by simp)
          · simp only [Except.ok.injEq] at h
            subst h
            simp [Secrets.SecretRef.as_uri_string, ht]
        | some q =>
          obtain ⟨idPart, qs⟩ := q
          rw [hq] at h
          have hr : rest = idPart ++ ['?'] ++ qs := splitOnce_eq_some hq
          simp only at h
          split at h
          · exact absurd h (by simp)
          · simp only [Except.ok.injEq] at h
            subst h
            simp [Secrets.SecretRef.as_uri_string, ht, hr]


/-- Witness: `secrets://NAME?version=2` parses and round-trips. -/
theorem secretRef_parse_as_uri_string_roundtrip_witness :
    Secrets.SecretRef.parse "secrets://NAME?version=2".data =
      .ok ⟨"secrets".data, "NAME".data, some "version=2".data⟩ ∧
    Secrets.SecretRef.as_uri_string
        ⟨"secrets".data, "NAME".data, some "version=2".data⟩ =
      trim "secrets://NAME?version=2".data :=
  ⟨rfl, secretRef_parse_as_uri_string_roundtrip _ _ rfl⟩

/-! ## Document parser with auto-detection (src/arazzo-core/src/parser/mod.rs)

The serde JSON and YAML parsers are external crates; they are abstracted as
oracle parameters `jsonParse` / `yamlParse` over an abstract document type. -/

namespace Parser

inductive DocumentFormat where
  | Json
  | Yaml
  | Auto
  deriving DecidableEq, Repr

structure ParsedDocument (Doc : Type) where
  document : Doc
  format : DocumentFormat

inductive ParseError (JErr YErr : Type) where
  | Json (e : JErr)
  | Yaml (e : YErr)

/-- The heuristic from `parse_document_auto`: after `trim_start`, does the
input start with a brace (`\x7b`) or a bracket? -/
def json_looking (input : Str) : Bool :=
  match trimL input with
  | [] => false
  | c :: _ => c == Char.ofNat 123 || c == '['

/-- `parse_document_auto`. -/
def parse_document_auto {Doc JErr YErr : Type}
    (jsonParse : Str → Except JErr Doc) (yamlParse : Str → Except YErr Doc)
    (input : Str) : Except (ParseError JErr YErr) (ParsedDocument Doc) :=
  if json_looking input then
    match jsonParse input with
    | .ok doc => .ok ⟨doc, .Json⟩
    | .error e =>
      match yamlParse input with
      | .ok doc => .ok ⟨doc, .Yaml⟩
      | .error _ => .error (.Json e)
  else
    match yamlParse input with
    | .ok doc => .ok ⟨doc, .Yaml⟩
    | .error e =>
      match jsonParse input with
      | .ok doc => .ok ⟨doc, .Json⟩
      | .error _ => .error (.Yaml e)

end Parser

/-- C7: auto-detection parses JSON first when the first non-whitespace
character is a brace or bracket and YAML first otherwise; on failure of the
primary the other format is tried; when both fail, the primary format's
error is surfaced. -/
theorem parse_document_auto_primary_fallback {Doc JErr YErr : Type}
    (jsonParse : Str → Except JErr Doc) (yamlParse : Str → Except YErr Doc)
    (input : Str) :
    (Parser.json_looking input = true →
      (∀ doc, jsonParse input = .ok doc →
        Parser.parse_document_auto jsonParse yamlParse input =
          .ok ⟨doc, .Json⟩) ∧
      (∀ e doc, jsonParse input = .error e → yamlParse input = .ok doc →
        Parser.parse_document_auto jsonParse yamlParse input =
          .ok ⟨doc, .Yaml⟩) ∧
      (∀ e e2, jsonParse input = .error e → yamlParse input = .error e2 →
        Parser.parse_document_auto jsonParse yamlParse input =
          .error (.Json e))) ∧
    (Parser.json_looking input = false →
      (∀ doc, yamlParse input = .ok doc →
        Parser.parse_document_auto jsonParse yamlParse input =
          .ok ⟨doc, .Yaml⟩) ∧
      (∀ e doc, yamlParse input = .error e → jsonParse input = .ok doc →
        Parser.parse_document_auto jsonParse yamlParse input =
          .ok ⟨doc, .Json⟩) ∧
      (∀ e e2, yamlParse input = .error e → jsonParse input = .error e2 →
        Parser.parse_document_auto jsonParse yamlParse input =
          .error (.Yaml e))) := by
  constructor
  · intro hj
    refine ⟨fun doc hd => ?_, fun e doc he hd => ?_, fun e e2 he he2 => ?_⟩
    · simp [Parser.parse_document_auto, hj, hd]
    · simp [Parser.parse_document_auto, hj, hd, he]
    · simp [Parser.parse_document_auto, hj, he, he2]
  · intro hj
    refine ⟨fun doc hd => ?_, fun e doc he hd => ?_, fun e e2 he he2 => ?_⟩
    · simp [Parser.parse_document_auto, hj, hd]
    · simp [Parser.parse_document_auto, hj, hd, he]
    · simp [Parser.parse_document_auto, hj, he, he2]

/-- Witness: a brace-led input with both parsers failing surfaces the JSON
error. -/
theorem parse_document_auto_primary_fallback_witness :
    Parser.json_looking "  \x7b bad".data = true ∧
    Parser.parse_document_auto
        (fun _ => (.error "jerr".data : Except Str Unit))
        (fun _ => (.error "yerr".data : Except Str Unit))
        "  \x7b bad".data =
      .error (.Json "jerr".data) :=
  ⟨rfl,
    ((parse_document_auto_primary_fallback
        (fun _ => (.error "jerr".data : Except Str Unit))
        (fun _ => (.error "yerr".data : Except Str Unit))
        "  \x7b bad".data).1 rfl).2.2 "jerr".data "yerr".data rfl rfl⟩

/-! ## Retry decider (src/arazzo-exec/src/retry/{config,headers,decision}.rs)

`std::time::Duration` is embedded as nanoseconds (`Nat`), `SystemTime` as
nanoseconds since the epoch, the `httpdate` crate's `parse_http_date` as an
oracle `Str → Option Nat` returning the absolute time, and the `f64`
arithmetic of the backoff branch over `ℚ` (no theorem depends on float
rounding there). -/

namespace Retry

/-- `std::time::Duration` in nanoseconds. -/
abbrev Duration := Nat

def durationFromSecs (s : Nat) : Duration := s * 1000000000

def durationFromMillis (ms : Nat) : Duration := ms * 1000000

def durationAsMillis (d : Duration) : Nat := d / 1000000

inductive VendorHeaderKind where
  | DeltaSeconds
  | UnixSeconds
  | HttpDate
  deriving DecidableEq, Repr

structure RetryVendorHeader where
  name : Str
  kind : VendorHeaderKind

structure RetryHeadersConfig where
  vendor_headers : List RetryVendorHeader

/-- `RetryConfig`; the `BTreeSet<u16>` of retryable statuses is its sorted
iteration as a list. -/
structure RetryConfig where
  retry_statuses : List Nat
  base_delay : Duration
  factor : ℚ
  max_delay : Duration
  headers : RetryHeadersConfig
  max_attempts : Nat

/-- `RetryConfig::default()`. -/
def defaultRetryConfig : RetryConfig where
  retry_statuses := [408, 429, 502, 503, 504]
  base_delay := durationFromMillis 1000
  factor := 2
  max_delay := durationFromSecs 60
  headers := ⟨[]⟩
  max_attempts := 5

inductive RetryReason where
  | NotRetryable
  | AttemptsExhausted
  | PolicyFailure
  | NetworkFailure
  | HttpStatus (s : Nat)
  | RetryAfterHeader
  | Backoff
  deriving DecidableEq, Repr

inductive RetryDecision where
  | RetryAfter (delay : Duration) (reason : RetryReason)
  | Stop (reason : RetryReason)
  deriving DecidableEq, Repr

/-- Rust `u8::to_ascii_lowercase` on a char (ASCII only). -/
def asciiLower (c : Char) : Char :=
  if 'A' ≤ c && c ≤ 'Z' then Char.ofNat (c.toNat + 32) else c

/-- Rust `str::eq_ignore_ascii_case`. -/
def eqIgnoreAsciiCase (a b : Str) : Bool :=
  a.map asciiLower == b.map asciiLower

/-- `get_header_ci`: first header whose key matches case-insensitively
(`BTreeMap` iteration = key order of the embedded list). -/
def get_header_ci (headers : List (Str × Str)) (name : Str) : Option Str :=
  (headers.find? fun kv => eqIgnoreAsciiCase kv.1 name).map Prod.snd

/-- Rust `str::parse::<u64>()`: optional leading `+`, ASCII digits,
rejecting overflow past `2^64 - 1`. -/
def parseU64 (s : Str) : Option Nat :=
  let digits := match s with
    | '+' :: rest => rest
    | _ => s
  if digits ≠ [] ∧ digits.all isAsciiDigit then
    let v := digits.foldl (fun acc c => acc * 10 + (c.toNat - '0'.toNat)) 0
    if v < 2 ^ 64 then some v else none
  else none

/-- `parse_retry_after_value`: delta-seconds, else HTTP-date (via the
`httpDate` oracle) with `duration_since(now)` failing for past dates. -/
def parse_retry_after_value (v : Str) (now : Nat) (httpDate : Str → Option Nat) :
    Option Duration :=
  let v := trim v
  match parseU64 v with
  | some secs => some (durationFromSecs secs)
  | none =>
    match httpDate v with
    | none => none
    | some dt => if now ≤ dt then some (dt - now) else none

/-- `parse_vendor_value`. -/
def parse_vendor_value (v : Str) (kind : VendorHeaderKind) (now : Nat)
    (httpDate : Str → Option Nat) : Option Duration :=
  let v := trim v
  match kind with
  | .DeltaSeconds => (parseU64 v).map durationFromSecs
  | .UnixSeconds =>
    match parseU64 v with
    | none => none
    | some ts =>
      let dt := durationFromSecs ts
      if now ≤ dt then some (dt - now) else none
  | .HttpDate =>
    match httpDate v with
    | none => none
    | some dt => if now ≤ dt then some (dt - now) else none

/-- The vendor-header loop from `parse_retry_after`. -/
def tryVendorHeaders (vhs : List RetryVendorHeader) (headers : List (Str × Str))
    (now : Nat) (httpDate : Str → Option Nat) : Option Duration :=
  match vhs with
  | [] => none
  | vh :: rest =>
    match get_header_ci headers vh.name with
    | some v =>
      match parse_vendor_value v vh.kind now httpDate with
      | some d => some d
      | none => tryVendorHeaders rest headers now httpDate
    | none => tryVendorHeaders rest headers now httpDate

/-- `parse_retry_after`: the standard header wins, then vendor headers. -/
def parse_retry_after (headers : List (Str × Str)) (cfg : RetryHeadersConfig)
    (now : Nat) (httpDate : Str → Option Nat) : Option Duration :=
  match get_header_ci headers "retry-after".data with
  | some v =>
    match parse_retry_after_value v now httpDate with
    | some d => some d
    | none => tryVendorHeaders cfg.vendor_headers headers now httpDate
  | none => tryVendorHeaders cfg.vendor_headers headers now httpDate

/-- `clamp` from decision.rs. -/
def clamp (delay max : Duration) : Duration :=
  if max < delay then max else delay

/-- `decide_retry`.  `rand_u64` is the one value the RNG closure returns
(the code calls it at most once). -/
def decide_retry (cfg : RetryConfig) (attempt_no : Nat)
    (arazzo_retry_limit : Option Nat) (arazzo_retry_after_seconds : Option Nat)
    (policy_failed : Bool) (http_status : Option Nat)
    (response_headers : Option (List (Str × Str))) (network_failed : Bool)
    (now : Nat) (httpDate : Str → Option Nat) (rand_u64 : Nat) : RetryDecision :=
  if policy_failed then .Stop .PolicyFailure
  else
    let arazzo_limit := arazzo_retry_limit.getD 1
    let max_attempts := min cfg.max_attempts (max arazzo_limit 1 + 1)
    if max_attempts ≤ attempt_no then .Stop .AttemptsExhausted
    else
      match http_status with
      | some status =>
        if !(cfg.retry_statuses.contains status) then .Stop (.HttpStatus status)
        else decide_retry_tail cfg attempt_no arazzo_retry_after_seconds
          http_status response_headers now httpDate rand_u64
      | none =>
        if !network_failed then .Stop .NotRetryable
        else decide_retry_tail cfg attempt_no arazzo_retry_after_seconds
          http_status response_headers now httpDate rand_u64
where
  /-- The straight-line tail of `decide_retry` after the early returns:
  Retry-After header, then the Arazzo `retryAfter` seconds, then
  exponential backoff with full jitter. -/
  decide_retry_tail (cfg : RetryConfig) (attempt_no : Nat)
      (arazzo_retry_after_seconds : Option Nat) (http_status : Option Nat)
      (response_headers : Option (List (Str × Str))) (now : Nat)
      (httpDate : Str → Option Nat) (rand_u64 : Nat) : RetryDecision :=
    match response_headers.bind
        (fun h => parse_retry_after h cfg.headers now httpDate) with
    | some delay => .RetryAfter (clamp delay cfg.max_delay) .RetryAfterHeader
    | none =>
      match arazzo_retry_after_seconds with
      | some secs => .RetryAfter (clamp (durationFromSecs secs) cfg.max_delay) .Backoff
      | none =>
        let exp : Nat := attempt_no - 1
        let raw : ℚ := (durationAsMillis cfg.base_delay : ℚ) * cfg.factor ^ exp
        let raw_ms : Nat :=
          (Rat.floor (max (min raw (durationAsMillis cfg.max_delay : ℚ)) 0)).toNat
        let jitter_ms := if raw_ms = 0 then 0 else rand_u64 % (raw_ms + 1)
        .RetryAfter (durationFromMillis jitter_ms)
          (match http_status with
            | some s => .HttpStatus s
            | none => .NetworkFailure)

end Retry

/-- The tail of `decide_retry` (header / retryAfter / backoff) always
schedules a retry; it never stops. -/
theorem decide_retry_tail_ne_stop (cfg : Retry.RetryConfig) (attempt_no : Nat)
    (aft : Option Nat) (status : Option Nat)
    (headers : Option (List (Str × Str))) (now : Nat)
    (httpDate : Str → Option Nat) (rand : Nat) (r : Retry.RetryReason) :
    Retry.decide_retry.decide_retry_tail cfg attempt_no aft status headers
      now httpDate rand ≠ .Stop r := by
  unfold Retry.decide_retry.decide_retry_tail
  split
  · simp
  · split
    · simp
    · simp

/-- C1 (amended): with `policy_failed = false`, `decide_retry` returns
`Stop AttemptsExhausted` exactly when
`attempt_no ≥ min(global max_attempts, max(arazzo_retry_limit, 1) + 1)`,
where an absent retry limit counts as 1 (the code clamps a declared limit
of 0 up to 1); with `policy_failed = true` the decision is
`Stop PolicyFailure` regardless of attempts. -/
theorem decide_retry_attemptsExhausted_characterization
    (cfg : Retry.RetryConfig) (attempt_no : Nat) (limit aft : Option Nat)
    (status : Option Nat) (headers : Option (List (Str × Str)))
    (network : Bool) (now : Nat) (httpDate : Str → Option Nat) (rand : Nat) :
    (Retry.decide_retry cfg attempt_no limit aft false status headers network
        now httpDate rand = .Stop .AttemptsExhausted ↔
      min cfg.max_attempts (max (limit.getD 1) 1 + 1) ≤ attempt_no) ∧
    Retry.decide_retry cfg attempt_no limit aft true status headers network
        now httpDate rand = .Stop .PolicyFailure := by
  constructor
  · unfold Retry.decide_retry
    simp only [Bool.false_eq_true, if_false]
    by_cases hex : min cfg.max_attempts (max (limit.getD 1) 1 + 1) ≤ attempt_no
    · rw [if_pos hex]
      simp [hex]
    · rw [if_neg hex]
      simp only [iff_false_intro hex, iff_false]
      intro hcon
      split at hcon
      · split at hcon
        · exact absurd hcon (by simp)
        · exact decide_retry_tail_ne_stop _ _ _ _ _ _ _ _ _ hcon
      · split at hcon
        · exact absurd hcon (by simp)
        · exact decide_retry_tail_ne_stop _ _ _ _ _ _ _ _ _ hcon
  · unfold Retry.decide_retry
    simp

set_option maxRecDepth 4096 in
/-- C1 counterexample: default config, first attempt, declared retry limit
0, no policy failure, retryable status 503 with `Retry-After: 5`.  The
claim's bound gives `attempt_no = 1 ≥ min(5, 0 + 1) = 1`, so it demands
`Stop AttemptsExhausted`, but the code (which clamps the limit up to 1)
schedules a retry instead. -/
theorem decide_retry_limit_zero_counterexample :
    min Retry.defaultRetryConfig.max_attempts (0 + 1) ≤ 1 ∧
    Retry.decide_retry Retry.defaultRetryConfig 1 (some 0) none false (some 503)
        (some [("Retry-After".data, "5".data)]) false 0 (fun _ => none) 0 ≠
      .Stop .AttemptsExhausted := by
  constructor
  · decide
  · intro h
    have heval : Retry.decide_retry Retry.defaultRetryConfig 1 (some 0) none false
        (some 503) (some [("Retry-After".data, "5".data)]) false 0
        (fun _ => none) 0 =
        .RetryAfter (Retry.durationFromSecs 5) .RetryAfterHeader := by decide
    rw [heval] at h
    exact absurd h (by simp)

/-- C6: whenever a retry is permitted (no policy failure, attempts remain,
status retryable or network failure) and the standard `Retry-After` header
is present with a value that parses (delta-seconds, or an HTTP-date not in
the past), `decide_retry` returns `RetryAfter` with reason
`RetryAfterHeader` and the server-provided delay clamped to `max_delay`,
taking precedence over the step's declared `retryAfter` seconds and over
exponential backoff. -/
theorem decide_retry_retryAfterHeader_precedence
    (cfg : Retry.RetryConfig) (attempt_no : Nat) (limit aft : Option Nat)
    (status : Option Nat) (h : List (Str × Str)) (network : Bool)
    (now : Nat) (httpDate : Str → Option Nat) (rand : Nat) (v : Str)
    (d : Retry.Duration)
    (hatt : attempt_no < min cfg.max_attempts (max (limit.getD 1) 1 + 1))
    (hstat : ∀ s, status = some s → cfg.retry_statuses.contains s = true)
    (hnet : status = none → network = true)
    (hv : Retry.get_header_ci h "retry-after".data = some v)
    (hd : Retry.parse_retry_after_value v now httpDate = some d) :
    Retry.decide_retry cfg attempt_no limit aft false status (some h) network
        now httpDate rand =
      .RetryAfter (Retry.clamp d cfg.max_delay) .RetryAfterHeader := by
  have htail : Retry.decide_retry.decide_retry_tail cfg attempt_no aft status
      (some h) now httpDate rand =
      .RetryAfter (Retry.clamp d cfg.max_delay) .RetryAfterHeader := by
    unfold Retry.decide_retry.decide_retry_tail
    have hpr : Retry.parse_retry_after h cfg.headers now httpDate = some d := by
      unfold Retry.parse_retry_after
      simp [hv, hd]
    simp [hpr]
  unfold Retry.decide_retry
  simp only [Bool.false_eq_true, if_false]
  rw [if_neg (by omega)]
  cases status with
  | none =>
    simp only [hnet rfl, Bool.not_true, Bool.false_eq_true, if_false]
    exact htail
  | some s =>
    simp only [hstat s rfl, Bool.not_true, Bool.false_eq_true, if_false]
    exact htail

set_option maxRecDepth 4096 in
/-- Witness (scenario S4): attempt 1 with retry limit 3, a 503 response
carrying `Retry-After: 5`, default config: the decision is a 5-second
retry with reason `RetryAfterHeader`. -/
theorem decide_retry_retryAfterHeader_precedence_witness :
    Retry.decide_retry Retry.defaultRetryConfig 1 (some 3) none false (some 503)
        (some [("Retry-After".data, "5".data)]) false 0 (fun _ => none) 7 =
      .RetryAfter (Retry.durationFromSecs 5) .RetryAfterHeader := by
  have h := decide_retry_retryAfterHeader_precedence Retry.defaultRetryConfig 1
    (some 3) none (some 503) [("Retry-After".data, "5".data)] false 0
    (fun _ => none) 7 "5".data (Retry.durationFromSecs 5)
    (by decide)
    (by intro s hs; cases hs; decide)
    (by intro hs; cases hs)
    (by decide)
    (by decide)
  rwa [show Retry.clamp (Retry.durationFromSecs 5)
      Retry.defaultRetryConfig.max_delay = Retry.durationFromSecs 5 by decide] at h

/-! ## Expression grammar (src/arazzo-core/src/expressions/) -/

namespace Expressions

/-- Left brace character, written via its code point. -/
def lbrace : Char := Char.ofNat 123

/-- Right brace character. -/
def rbrace : Char := Char.ofNat 125

/-- Backtick character. -/
def backtickChar : Char := Char.ofNat 96

/-- Apostrophe character. -/
def aposChar : Char := Char.ofNat 39

/-- Membership in the anchored `NAME_RE` class `[a-zA-Z0-9\.\-_]`. -/
def isNameChar (c : Char) : Bool :=
  isAsciiAlphanumeric c || c == '.' || c == '-' || c == '_'

/-- The anchored regex `^[a-zA-Z0-9\.\-_]+$`: nonempty and all chars in
the class. -/
def nameReMatch (s : Str) : Bool :=
  !s.isEmpty && s.all isNameChar

/-- Membership in the `TCHAR_RE` class (RFC 7230 tchar). -/
def isTcharChar (c : Char) : Bool :=
  c == '!' || c == '#' || c == '$' || c == '%' || c == '&' || c == aposChar ||
  c == '*' || c == '+' || c == '-' || c == '.' || c == '^' || c == '_' ||
  c == backtickChar || c == '|' || c == '~' || isAsciiDigit c ||
  isAsciiAlphabetic c

/-- The anchored regex `^[!#$%&'*+\-.^_|~0-9A-Za-z]+$` (with backtick in
the class). -/
def tcharReMatch (s : Str) : Bool :=
  !s.isEmpty && s.all isTcharChar

inductive JsonPointerError where
  | InvalidPrefix
  | InvalidEscape
  deriving DecidableEq, Repr

/-- RFC 6901 escape validation from `JsonPointer::parse`: every `~` must
be followed by `0` or `1`. -/
def validEscapes : Str → Bool
  | [] => true
  | '~' :: rest =>
    match rest with
    | '0' :: r => validEscapes r
    | '1' :: r => validEscapes r
    | _ => false
  | _ :: rest => validEscapes rest

structure JsonPointer where
  raw : Str
  deriving DecidableEq, Repr

/-- `JsonPointer::parse`. -/
def JsonPointer.parse (fragment : Str) : Except JsonPointerError JsonPointer :=
  match fragment with
  | [] => .ok ⟨[]⟩
  | c :: _ =>
    if c ≠ '/' then .error .InvalidPrefix
    else if validEscapes fragment then .ok ⟨fragment⟩
    else .error .InvalidEscape

inductive Source where
  | Header (h : Str)
  | Query (q : Str)
  | Path (p : Str)
  | Body (pointer : Option JsonPointer)
  deriving DecidableEq, Repr

structure NamePath where
  root : Str
  rest : List Str
  pointer : Option JsonPointer
  deriving DecidableEq, Repr

inductive RuntimeExpr where
  | Url
  | Method
  | StatusCode
  | Request (s : Source)
  | Response (s : Source)
  | Inputs (np : NamePath)
  | Outputs (np : NamePath)
  | Steps (np : NamePath)
  | Workflows (np : NamePath)
  | SourceDescriptions (np : NamePath)
  | Components (np : NamePath)
  | ComponentsParameters (name : Str)
  deriving DecidableEq, Repr

inductive RuntimeExprError where
  | MissingDollarPrefix
  | UnknownExpression (s : Str)
  | InvalidSource (s : Str)
  | EmptyName
  | InvalidName (s : Str)
  | InvalidHeaderToken (s : Str)
  | InvalidJsonPointer (e : JsonPointerError)
  | PointerNotAllowed
  deriving DecidableEq, Repr

/-- Rust `str::strip_prefix`. -/
def stripPrefixStr (pat s : Str) : Option Str :=
  if strStarts pat s then some (s.drop pat.length) else none

/-- Rust `str::split` on a single char (keeps empty parts). -/
def splitChar : Str → Char → List Str
  | [], _ => [[]]
  | c :: rest, sep =>
    if c = sep then [] :: splitChar rest sep
    else
      match splitChar rest sep with
      | p :: ps => (c :: p) :: ps
      | [] => [[c]]

/-- `split_pointer_suffix`. -/
def split_pointer_suffix (s : Str) :
    Except RuntimeExprError (Str × Option JsonPointer) :=
  match splitOnce s ['#'] with
  | some (head, frag) =>
    match JsonPointer.parse frag with
    | .ok ptr => .ok (head, some ptr)
    | .error e => .error (.InvalidJsonPointer e)
  | none => .ok (s, none)

/-- `validate_name`. -/
def validate_name (name : Str) : Except RuntimeExprError Unit :=
  if name = [] then .error .EmptyName
  else if ¬ nameReMatch name then .error (.InvalidName name)
  else .ok ()

/-- `parse_source`. -/
def parse_source (rest : Str) : Except RuntimeExprError Source :=
  match stripPrefixStr "header.".data rest with
  | some token =>
    if token = [] then .error .EmptyName
    else if ¬ tcharReMatch token then .error (.InvalidHeaderToken token)
    else .ok (.Header token)
  | none =>
  match stripPrefixStr "query.".data rest with
  | some name => (validate_name name).map fun _ => .Query name
  | none =>
  match stripPrefixStr "path.".data rest with
  | some name => (validate_name name).map fun _ => .Path name
  | none =>
  if rest = "body".data then .ok (.Body none)
  else
    match stripPrefixStr "body#".data rest with
    | some ptr =>
      match JsonPointer.parse ptr with
      | .ok pointer => .ok (.Body (some pointer))
      | .error e => .error (.InvalidJsonPointer e)
    | none => .error (.InvalidSource rest)

/-- `parse_name_path`. -/
def parse_name_path (rest : Str) (pointer : Option JsonPointer) :
    Except RuntimeExprError NamePath :=
  let parts := splitChar rest '.'
  if parts.isEmpty then .error .EmptyName
  else if parts.any List.isEmpty then .error .EmptyName
  else
    let root := parts.headD []
    match validate_name root with
    | .error e => .error e
    | .ok _ =>
      match (parts.drop 1).findSome? fun p =>
          match validate_name p with
          | .error e => some e
          | .ok _ => none with
      | some e => .error e
      | none => .ok ⟨root, parts.drop 1, pointer⟩

/-- `parse_runtime_expr`. -/
def parse_runtime_expr (input : Str) : Except RuntimeExprError RuntimeExpr :=
  let s := trim input
  match s with
  | '$' :: rest1 =>
    match split_pointer_suffix rest1 with
    | .error e => .error e
    | .ok (head, pointer) =>
      if head = "url".data then .ok .Url
      else if head = "method".data then .ok .Method
      else if head = "statusCode".data then .ok .StatusCode
      else
        match stripPrefixStr "request.".data head with
        | some rest => (parse_source rest).map .Request
        | none =>
        match stripPrefixStr "response.".data head with
        | some rest => (parse_source rest).map .Response
        | none =>
        match stripPrefixStr "inputs.".data head with
        | some rest => (parse_name_path rest pointer).map .Inputs
        | none =>
        match stripPrefixStr "outputs.".data head with
        | some rest => (parse_name_path rest pointer).map .Outputs
        | none =>
        match stripPrefixStr "steps.".data head with
        | some rest => (parse_name_path rest pointer).map .Steps
        | none =>
        match stripPrefixStr "workflows.".data head with
        | some rest => (parse_name_path rest pointer).map .Workflows
        | none =>
        match stripPrefixStr "sourceDescriptions.".data head with
        | some rest => (parse_name_path rest pointer).map .SourceDescriptions
        | none =>
        match stripPrefixStr "components.parameters.".data head with
        | some name =>
          if name = [] then .error .EmptyName
          else if ¬ nameReMatch name then .error (.InvalidName name)
          else if pointer.isSome then .error .PointerNotAllowed
          else .ok (.ComponentsParameters name)
        | none =>
        match stripPrefixStr "components.".data head with
        | some rest => (parse_name_path rest pointer).map .Components
        | none => .error (.UnknownExpression head)
  | _ => .error .MissingDollarPrefix

end Expressions

/-! ## Success criteria evaluation (src/arazzo-exec/src/executor/criteria.rs)

`serde_json::Value` is embedded as `Json` with numbers over `ℚ`; the
external serde parser, `f64` parsing, the `serde_json_path` engine, the
`regex` engine, serde's `Value::pointer` and `Value::to_string` are oracle
parameters collected in `EvalOracles`. -/

namespace Criteria

open Expressions

inductive Json where
  | null
  | bool (b : Bool)
  | num (q : ℚ)
  | str (s : Str)
  | arr (xs : List Json)
  | obj (fields : List (Str × Json))
  deriving Repr

/-- serde `Map::get` on the embedded field list. -/
def jLookup (fields : List (Str × Json)) (k : Str) : Option Json :=
  (fields.find? fun kv => kv.1 == k).map Prod.snd

mutual

/-- `json_eq` from criteria.rs (numbers compared via `as_f64`, here `ℚ`). -/
def json_eq : Json → Json → Bool
  | .null, b => match b with | .null => true | _ => false
  | .bool a, b => match b with | .bool b' => a == b' | _ => false
  | .num a, b => match b with | .num b' => a == b' | _ => false
  | .str a, b => match b with | .str b' => a == b' | _ => false
  | .arr a, b =>
    match b with
    | .arr b' => a.length == b'.length && json_eq_list a b'
    | _ => false
  | .obj a, b =>
    match b with
    | .obj b' => a.length == b'.length && json_eq_obj a b'
    | _ => false

/-- Pairwise equality of zipped arrays. -/
def json_eq_list : List Json → List Json → Bool
  | [], _ => true
  | _ :: _, [] => true
  | x :: xs, y :: ys => json_eq x y && json_eq_list xs ys

/-- Every field of the first object matches the second (by lookup). -/
def json_eq_obj : List (Str × Json) → List (Str × Json) → Bool
  | [], _ => true
  | (k, v) :: rest, fb =>
    (match jLookup fb k with
      | some bv => json_eq v bv
      | none => false) && json_eq_obj rest fb

end

/-- serde `Value::as_f64`, over `ℚ`. -/
def asF64 : Json → Option ℚ
  | .num q => some q
  | _ => none

/-- `json_cmp`. -/
def json_cmp (a b : Json) : Option Ordering :=
  match asF64 a, asF64 b with
  | some x, some y => some (compare x y)
  | _, _ => none

/-- `compare_values`. -/
def compare_values (actual expected : Json) (op : Str) : Bool :=
  if op = "==".data then json_eq actual expected
  else if op = "!=".data then !json_eq actual expected
  else if op = "<".data then
    match json_cmp actual expected with
    | some o => o == .lt
    | none => false
  else if op = ">".data then
    match json_cmp actual expected with
    | some o => o == .gt
    | none => false
  else if op = "<=".data then
    match json_cmp actual expected with
    | some o => o ≠ Ordering.gt
    | none => false
  else if op = ">=".data then
    match json_cmp actual expected with
    | some o => o ≠ Ordering.lt
    | none => false
  else false

/-- External-crate behavior abstracted as oracles. -/
structure EvalOracles where
  jsonParse : Str → Option Json
  floatParse : Str → Option ℚ
  jsonPath : Str → Option (Json → List Json)
  regexMatch : Str → Option (Str → Bool)
  pointerGet : Json → Str → Option Json
  jsonDisplay : Json → Str

/-- `ResponseContext` from executor/eval.rs (body bytes as `List Nat`). -/
structure ResponseContext where
  status : Nat
  headers : List (Str × Str)
  body : List Nat
  body_json : Option Json

def quoteChar : Char := Char.ofNat 34

/-- Rust `str::ends_with`. -/
def strEnds (pat s : Str) : Bool := strStarts pat.reverse s.reverse

/-- Rust `str::parse::<i64>()`. -/
def parseI64 (s : Str) : Option Int :=
  let signDigits : Bool × Str :=
    match s with
    | '-' :: rest => (true, rest)
    | '+' :: rest => (false, rest)
    | _ => (false, s)
  if signDigits.2 ≠ [] ∧ signDigits.2.all isAsciiDigit then
    let v : Nat := signDigits.2.foldl
      (fun acc c => acc * 10 + (c.toNat - '0'.toNat)) 0
    if signDigits.1 then
      if v ≤ 2 ^ 63 then some (-(v : Int)) else none
    else
      if v < 2 ^ 63 then some (v : Int) else none
  else none

/-- `parse_literal`. -/
def parse_literal (o : EvalOracles) (s0 : Str) : Json :=
  let s := trim s0
  match o.jsonParse s with
  | some v => v
  | none =>
    if (strStarts [quoteChar] s && strEnds [quoteChar] s) ||
        (strStarts [aposChar] s && strEnds [aposChar] s) then
      .str ((s.drop 1).dropLast)
    else if s = "true".data then .bool true
    else if s = "false".data then .bool false
    else if s = "null".data then .null
    else
      match parseI64 s with
      | some n => .num (n : ℚ)
      | none =>
        match o.floatParse s with
        | some q => .num q
        | none => .str s

/-- `resolve_runtime_expr` (sync resolver used by criteria evaluation). -/
def resolve_runtime_expr (o : EvalOracles) (expr : Str) (resp : ResponseContext) :
    Json :=
  match parse_runtime_expr (trim expr) with
  | .error _ => .null
  | .ok parsed =>
    match parsed with
    | .StatusCode => .num (resp.status : ℚ)
    | .Response source =>
      match source with
      | .Header h =>
        .str (((resp.headers.find? fun kv =>
          Retry.eqIgnoreAsciiCase kv.1 h).map Prod.snd).getD [])
      | .Body pointer =>
        match resp.body_json with
        | none => .null
        | some json =>
          match pointer with
          | some ptr => (o.pointerGet json ptr.raw).getD .null
          | none => json
      | _ => .null
    | _ => .null

/-- The operator list from `evaluate_simple`, in source order. -/
def opsList : List Str :=
  ["==".data, "!=".data, "<=".data, ">=".data, "<".data, ">".data]

/-- The `for op in ops { if let Some(..) = cond.split_once(op) { .. } }`
loop: first operator (in list order) that occurs anywhere in `cond`. -/
def findSplit : List Str → Str → Option (Str × Str × Str)
  | [], _ => none
  | op :: rest, cond =>
    match splitOnce cond op with
    | some (l, r) => some (op, l, r)
    | none => findSplit rest cond

inductive KnownCriterionType where
  | Simple
  | Regex
  | Jsonpath
  | Xpath
  deriving DecidableEq, Repr

inductive CriterionExpressionLanguage where
  | Jsonpath
  | Xpath
  deriving DecidableEq, Repr

structure CriterionExpressionType where
  lang : CriterionExpressionLanguage
  version : Str
  deriving DecidableEq, Repr

inductive CriterionType where
  | Known (k : KnownCriterionType)
  | Custom (c : CriterionExpressionType)
  deriving DecidableEq, Repr

/-- `Criterion` (the free-form extension map is omitted; nothing reads
it). -/
structure Criterion where
  context : Option Str
  condition : Str
  ctype : Option CriterionType
  deriving DecidableEq, Repr

/-- `evaluate_simple`. -/
def evaluate_simple (o : EvalOracles) (c : Criterion) (resp : ResponseContext) :
    Bool :=
  let cond := trim c.condition
  match findSplit opsList cond with
  | some (op, lhs, rhs) =>
    compare_values (resolve_runtime_expr o (trim lhs) resp)
      (parse_literal o (trim rhs)) op
  | none => false

/-- Rust `str::contains` for a plain substring. -/
def containsSub (s pat : Str) : Bool := (splitOnce s pat).isSome

/-- `evaluate_jsonpath` (path parsing/querying via the oracle). -/
def evaluate_jsonpath (o : EvalOracles) (c : Criterion) (resp : ResponseContext) :
    Bool :=
  match c.context with
  | none => false
  | some ctx =>
    let context_json := resolve_runtime_expr o ctx resp
    match context_json with
    | .null => false
    | _ =>
      let condition := trim c.condition
      let isArrCtx := match context_json with | .arr _ => true | _ => false
      let query_target :=
        if containsSub condition "[?".data && !isArrCtx then Json.arr [context_json]
        else context_json
      let is_filter := strStarts "$[?".data condition
      let fallthroughCheck :=
        match o.jsonPath condition with
        | none => false
        | some q => !(q query_target).isEmpty
      if ¬ is_filter then
        match findSplit ["==".data, "!=".data] condition with
        | some (op, path, expected) =>
          match o.jsonPath (trim path) with
          | none => false
          | some q =>
            match q query_target with
            | [] => false
            | actual :: _ =>
              compare_values actual (parse_literal o (trim expected)) op
        | none => fallthroughCheck
      else fallthroughCheck

/-- `evaluate_regex`. -/
def evaluate_regex (o : EvalOracles) (c : Criterion) (resp : ResponseContext) :
    Bool :=
  match c.context with
  | none => false
  | some ctx =>
    let context_json := resolve_runtime_expr o ctx resp
    let context_str :=
      match context_json with
      | .str s => s
      | v => o.jsonDisplay v
    match o.regexMatch (trim c.condition) with
    | some m => m context_str
    | none => false

end Criteria

namespace Criteria

/-- `evaluate_criterion`. -/
def evaluate_criterion (o : EvalOracles) (c : Criterion) (resp : ResponseContext) :
    Bool :=
  let criterion_type : Option KnownCriterionType := c.ctype.map fun t =>
    match t with
    | .Known k => k
    | .Custom custom =>
      match custom.lang with
      | .Jsonpath => .Jsonpath
      | .Xpath => .Xpath
  match criterion_type with
  | none => evaluate_simple o c resp
  | some .Simple => evaluate_simple o c resp
  | some .Jsonpath => evaluate_jsonpath o c resp
  | some .Regex => evaluate_regex o c resp
  | some .Xpath => false

/-- `evaluate_success`. -/
def evaluate_success (o : EvalOracles) (criteria : List Criterion)
    (resp : ResponseContext) : Bool :=
  if criteria.isEmpty then 200 ≤ resp.status && resp.status < 300
  else criteria.all fun c => evaluate_criterion o c resp

end Criteria

/-- `trim s` is an infix of `s`. -/
theorem trim_infix (s : Str) : ∃ pre suf, s = pre ++ trim s ++ suf := by
  refine ⟨(trimR s).takeWhile Char.isWhitespace,
    (s.reverse.takeWhile Char.isWhitespace).reverse, ?_⟩
  have h1 : trimR s ++ (s.reverse.takeWhile Char.isWhitespace).reverse = s := by
    unfold trimR
    rw [← List.reverse_append, List.takeWhile_append_dropWhile, List.reverse_reverse]
  have h2 : (trimR s).takeWhile Char.isWhitespace ++ trim s = trimR s := by
    unfold trim trimL
    rw [List.takeWhile_append_dropWhile]
  calc s = trimR s ++ (s.reverse.takeWhile Char.isWhitespace).reverse := h1.symm
    _ = ((trimR s).takeWhile Char.isWhitespace ++ trim s) ++
        (s.reverse.takeWhile Char.isWhitespace).reverse := by rw [h2]
    _ = _ := by simp [List.append_assoc]

/-- An occurrence inside `trim s` lifts to an occurrence inside `s`. -/
theorem occurs_of_occurs_trim {s op : Str}
    (h : ∃ a b, trim s = a ++ op ++ b) : ∃ a b, s = a ++ op ++ b := by
  obtain ⟨a, b, hab⟩ := h
  obtain ⟨pre, suf, hs⟩ := trim_infix s
  exact ⟨pre ++ a, b ++ suf, by rw [hs, hab]; simp [List.append_assoc]⟩

/-- If no operator occurs, the operator loop finds nothing. -/
theorem findSplit_eq_none {ops : List Str} {cond : Str}
    (h : ∀ op ∈ ops, splitOnce cond op = none) :
    Criteria.findSplit ops cond = none := by
  induction ops with
  | nil => rfl
  | cons op rest ih =>
    unfold Criteria.findSplit
    rw [h op (List.mem_cons_self op rest)]
    exact ih fun o ho => h o (List.mem_cons_of_mem op ho)

/-- C10: a success criterion of type `simple` (or with the type omitted)
whose condition contains none of the six comparison operators `==`, `!=`,
`<=`, `>=`, `<`, `>` evaluates to `false` for every response context and
every oracle instantiation; consequently a criteria list containing it
never reports success. -/
theorem evaluate_simple_no_operator_never_true
    (o : Criteria.EvalOracles) (c : Criteria.Criterion)
    (resp : Criteria.ResponseContext)
    (hty : c.ctype = none ∨ c.ctype = some (.Known .Simple))
    (hno : ∀ op ∈ Criteria.opsList, ¬ ∃ a b, c.condition = a ++ op ++ b) :
    Criteria.evaluate_criterion o c resp = false ∧
    ∀ cs, c ∈ cs → Criteria.evaluate_success o cs resp = false := by
  have hsimple : Criteria.evaluate_simple o c resp = false := by
    have hfs : Criteria.findSplit Criteria.opsList (trim c.condition) = none := by
      apply findSplit_eq_none
      intro op hop
      exact splitOnce_eq_none_of_not_occurs fun hocc =>
        hno op hop (occurs_of_occurs_trim hocc)
    unfold Criteria.evaluate_simple
    simp only [hfs]
  have hcrit : Criteria.evaluate_criterion o c resp = false := by
    unfold Criteria.evaluate_criterion
    rcases hty with hty | hty <;> rw [hty] <;> simpa using hsimple
  refine ⟨hcrit, fun cs hmem => ?_⟩
  unfold Criteria.evaluate_success
  have hne : cs.isEmpty = false := by
    cases cs with
    | nil => cases hmem
    | cons x xs => rfl
  rw [hne]
  simp only [Bool.false_eq_true, if_false]
  cases hall : cs.all fun c2 => Criteria.evaluate_criterion o c2 resp with
  | false => rfl
  | true =>
    have := (List.all_eq_true.mp hall) c hmem
    rw [hcrit] at this
    exact absurd this (by simp)

/-- Witness: the untyped criterion `status is fine` is never satisfied. -/
theorem evaluate_simple_no_operator_never_true_witness :
    Criteria.evaluate_criterion
      ⟨fun _ => none, fun _ => none, fun _ => none, fun _ => none,
        fun _ _ => none, fun _ => []⟩
      ⟨none, "status is fine".data, none⟩
      ⟨200, [], [], none⟩ = false ∧
    Criteria.evaluate_success
      ⟨fun _ => none, fun _ => none, fun _ => none, fun _ => none,
        fun _ _ => none, fun _ => []⟩
      [⟨none, "status is fine".data, none⟩]
      ⟨200, [], [], none⟩ = false := by
  have h := evaluate_simple_no_operator_never_true
    ⟨fun _ => none, fun _ => none, fun _ => none, fun _ => none,
      fun _ _ => none, fun _ => []⟩
    ⟨none, "status is fine".data, none⟩
    ⟨200, [], [], none⟩
    (Or.inl rfl)
    (by
      intro op hop hocc
      have hs := splitOnce_isSome_of_occurs hocc
      simp only [Criteria.opsList, List.mem_cons, List.not_mem_nil, or_false] at hop
      rcases hop with rfl | rfl | rfl | rfl | rfl | rfl <;>
        exact absurd hs (by decide))
  exact ⟨h.1, h.2 _ (List.mem_singleton_self _)⟩

/-! ## Planner scanner (src/arazzo-core/src/planner/scan.rs)

The two `LazyLock<Regex>` patterns are written `r"\\$steps\\.([A-Za-z0-9_\\-]+)"`
and `r"\\$inputs\\.([a-zA-Z0-9\\.\\-_]+)"`: inside a Rust raw string the
doubled backslashes escape the backslash itself, not the `$` and `.`, so
the regex crate parses each pattern as

  literal `\`, end-of-haystack anchor `$`, the literal letters, another
  literal `\`, any-char `.`, and a one-or-more capture class

(in the inputs class, `\\-_` is the range U+005C–U+005F).  The pattern
items are embedded below together with a matcher; the end anchor followed
by required literals makes every match attempt fail. -/

namespace Scan

open Expressions

/-- One parsed regex item (only the constructs these two patterns use). -/
inductive RItem where
  | lit (c : Char)
  | endAnchor
  | anyChar
  | capturePlus (cls : Char → Bool)

/-- Match a pattern prefix-wise against `s`; returns the capture and the
remaining input.  The final one-or-more capture is matched greedily, which
coincides with the regex crate's leftmost-first semantics because nothing
follows the capture group in either pattern. -/
def matchItems : List RItem → Str → Option (Str × Str)
  | [], s => some ([], s)
  | .lit c :: rest, s =>
    match s with
    | x :: xs => if x = c then matchItems rest xs else none
    | [] => none
  | .endAnchor :: rest, s => if s = [] then matchItems rest s else none
  | .anyChar :: rest, s =>
    match s with
    | x :: xs => if x ≠ '\n' then matchItems rest xs else none
    | [] => none
  | .capturePlus cls :: rest, s =>
    let grabbed := s.takeWhile cls
    if grabbed = [] then none
    else (matchItems rest (s.drop grabbed.length)).map fun pr => (grabbed, pr.2)

/-- Scan for successive non-overlapping matches (`captures_iter`), with
fuel; an empty or stalled match advances by one character. -/
def capturesGo (pat : List RItem) : Nat → Str → List Str
  | 0, _ => []
  | fuel + 1, s =>
    match matchItems pat s with
    | some (cap, remaining) =>
      cap :: (if remaining.length < s.length then capturesGo pat fuel remaining
              else capturesGo pat fuel (s.drop 1))
    | none =>
      match s with
      | [] => []
      | _ :: xs => capturesGo pat fuel xs

def capturesIter (pat : List RItem) (s : Str) : List Str :=
  capturesGo pat (s.length + 1) s

/-- The class `[A-Za-z0-9_\\-]` (with a literal backslash). -/
def stepsIdClassChar (c : Char) : Bool :=
  isAsciiAlphabetic c || isAsciiDigit c || c == '_' || c == '\\' || c == '-'

/-- `STEPS_REF_RE` as the regex crate parses the (mis-escaped) pattern. -/
def STEPS_REF_RE : List RItem :=
  [.lit '\\', .endAnchor, .lit 's', .lit 't', .lit 'e', .lit 'p', .lit 's',
   .lit '\\', .anyChar, .capturePlus stepsIdClassChar]

/-- The class `[a-zA-Z0-9\\.\\-_]` (alphanumerics, `.`, and the range
`\\-_` = U+005C–U+005F). -/
def inputsNameClassChar (c : Char) : Bool :=
  isAsciiAlphanumeric c || c == '.' || ('\\' ≤ c && c ≤ '_')

/-- `INPUTS_REF_RE` as the regex crate parses the (mis-escaped) pattern. -/
def INPUTS_REF_RE : List RItem :=
  [.lit '\\', .endAnchor, .lit 'i', .lit 'n', .lit 'p', .lit 'u', .lit 't',
   .lit 's', .lit '\\', .anyChar, .capturePlus inputsNameClassChar]

end Scan

theorem splitOnce_snd_length_lt {s sep a b : Str}
    (h : splitOnce s sep = some (a, b)) (hsep : sep ≠ []) :
    b.length < s.length := by
  have he := splitOnce_eq_some h
  rw [he]
  simp only [List.length_append]
  cases sep with
  | nil => exact absurd rfl hsep
  | cons x xs => simp only [List.length_cons]; omega

namespace Expressions

inductive Segment where
  | Literal (s : Str)
  | Expr (e : Str)
  deriving DecidableEq, Repr

structure Template where
  segments : List Segment
  deriving DecidableEq, Repr

inductive TemplateError where
  | InvalidRuntimeExpr (e : RuntimeExprError)
  | UnclosedExpression
  deriving DecidableEq, Repr

/-- The whitespace-skipping lookahead of `parse_template`: does the text
after a `\x7b` start (after whitespace) with `$`? -/
def isExprStart (rest : Str) : Bool :=
  match trimL rest with
  | c :: _ => c == '$'
  | [] => false

/-- The scanning loop of `parse_template`, accumulating the current
literal run in `buf`; segments come out in source order. -/
def parse_template_segs (s : Str) (buf : Str) :
    Except TemplateError (List Segment) :=
  match s with
  | [] => .ok (if buf.isEmpty then [] else [.Literal buf])
  | c :: rest =>
    if c = lbrace then
      if ¬ isExprStart rest then parse_template_segs rest (buf ++ [lbrace])
      else
        match hsp : splitOnce rest [rbrace] with
        | none => .error .UnclosedExpression
        | some (inner, after) =>
          let innerT := trim inner
          match parse_runtime_expr innerT with
          | .error e => .error (.InvalidRuntimeExpr e)
          | .ok _ =>
            match parse_template_segs after [] with
            | .error e => .error e
            | .ok tailSegs =>
              .ok ((if buf.isEmpty then [] else [Segment.Literal buf]) ++
                Segment.Expr innerT :: tailSegs)
    else parse_template_segs rest (buf ++ [c])
termination_by s.length
decreasing_by
  all_goals first
    | exact Nat.lt_trans (splitOnce_snd_length_lt hsp (by simp)) (by simp)
    | simp

/-- `parse_template`. -/
def parse_template (input : Str) : Except TemplateError Template :=
  (parse_template_segs input []).map Template.mk

end Expressions

namespace Scan

open Expressions

/-- `scan_string`: insertions into the two `BTreeSet`s are modelled as the
lists of names added, in insertion order (membership is what the claims
consume).  A full runtime-expression parse returns early; otherwise the
template path and then the best-effort regex path contribute. -/
def scan_string (s : Str) : List Str × List Str :=
  match parse_runtime_expr (trim s) with
  | .ok expr =>
    match expr with
    | .Steps np => ([np.root], [])
    | .Inputs np => ([], [np.root])
    | _ => ([], [])
  | .error _ =>
    let tplPart : List Str × List Str :=
      match parse_template s with
      | .ok tpl =>
        tpl.segments.foldl
          (fun acc seg =>
            match seg with
            | .Expr e =>
              match parse_runtime_expr e with
              | .ok (.Steps np) => (acc.1 ++ [np.root], acc.2)
              | .ok (.Inputs np) => (acc.1, acc.2 ++ [np.root])
              | _ => acc
            | _ => acc)
          ([], [])
      | .error _ => ([], [])
    (tplPart.1 ++ capturesIter STEPS_REF_RE s,
     tplPart.2 ++ capturesIter INPUTS_REF_RE s)

/-- The steps pattern matches nowhere: after the leading literal backslash
the end anchor demands end of input, yet literal `steps` must follow. -/
theorem stepsRe_matchItems_none (s : Str) :
    matchItems STEPS_REF_RE s = none := by
  cases s with
  | nil => rfl
  | cons x xs =>
    show matchItems (.lit '\\' :: _) (x :: xs) = none
    rw [matchItems]
    by_cases hx : x = '\\'
    · rw [if_pos hx]
      show (if xs = [] then matchItems _ xs else none) = none
      by_cases hxs : xs = []
      · rw [if_pos hxs, hxs]; rfl
      · rw [if_neg hxs]
    · rw [if_neg hx]

/-- Likewise for the inputs pattern. -/
theorem inputsRe_matchItems_none (s : Str) :
    matchItems INPUTS_REF_RE s = none := by
  cases s with
  | nil => rfl
  | cons x xs =>
    show matchItems (.lit '\\' :: _) (x :: xs) = none
    rw [matchItems]
    by_cases hx : x = '\\'
    · rw [if_pos hx]
      show (if xs = [] then matchItems _ xs else none) = none
      by_cases hxs : xs = []
      · rw [if_pos hxs, hxs]; rfl
      · rw [if_neg hxs]
    · rw [if_neg hx]

theorem capturesGo_succ (pat : List RItem) (fuel : Nat) (s : Str) :
    capturesGo pat (fuel + 1) s =
      match matchItems pat s with
      | some (cap, remaining) =>
        cap :: (if remaining.length < s.length then capturesGo pat fuel remaining
                else capturesGo pat fuel (s.drop 1))
      | none =>
        match s with
        | [] => []
        | _ :: xs => capturesGo pat fuel xs := rfl

theorem capturesGo_steps_nil (fuel : Nat) (s : Str) :
    capturesGo STEPS_REF_RE fuel s = [] := by
  induction fuel generalizing s with
  | zero => rfl
  | succ n ih =>
    rw [capturesGo_succ, stepsRe_matchItems_none]
    cases s with
    | nil => rfl
    | cons x xs => exact ih xs

theorem capturesGo_inputs_nil (fuel : Nat) (s : Str) :
    capturesGo INPUTS_REF_RE fuel s = [] := by
  induction fuel generalizing s with
  | zero => rfl
  | succ n ih =>
    rw [capturesGo_succ, inputsRe_matchItems_none]
    cases s with
    | nil => rfl
    | cons x xs => exact ih xs

end Scan

/-- C4 (code evaluation): the best-effort regex extraction is dead code —
`STEPS_REF_RE` and `INPUTS_REF_RE` capture nothing on any string — and on
the opaque condition `$steps.login && $inputs.token` (which parses neither
as a runtime expression nor as a template expression) `scan_string`
records no step dependency and no referenced input, although the string
contains `$steps.login` and `$inputs.token`. -/
theorem scan_string_regex_extraction_dead :
    (∀ s : Str, Scan.capturesIter Scan.STEPS_REF_RE s = []) ∧
    (∀ s : Str, Scan.capturesIter Scan.INPUTS_REF_RE s = []) ∧
    Scan.scan_string "$steps.login && $inputs.token".data = ([], []) ∧
    (∃ a b, "$steps.login && $inputs.token".data =
      a ++ "$steps.login".data ++ b) ∧
    (∃ a b, "$steps.login && $inputs.token".data =
      a ++ "$inputs.token".data ++ b) := by
  refine ⟨fun s => Scan.capturesGo_steps_nil _ s,
    fun s => Scan.capturesGo_inputs_nil _ s, ?_, ?_, ?_⟩
  · rw [Scan.scan_string]
    rw [show Expressions.parse_runtime_expr
        (trim "$steps.login && $inputs.token".data) =
        .error (.InvalidName "login && $inputs".data) from rfl]
    rw [show Expressions.parse_template "$steps.login && $inputs.token".data =
        .ok ⟨[.Literal "$steps.login && $inputs.token".data]⟩ from by
      simp +decide [Expressions.parse_template, Expressions.parse_template_segs,
        Except.map]]
    simp [Scan.capturesIter, Scan.capturesGo_steps_nil, Scan.capturesGo_inputs_nil]
  · exact ⟨[], " && $inputs.token".data, by decide⟩
  · exact ⟨"$steps.login && ".data, [], by decide⟩

/-! ## Planner types and dependency graph
(src/arazzo-core/src/types/, src/arazzo-core/src/planner/{scan,dependency}.rs)

`BTreeSet<String>` is embedded as its sorted, duplicate-free iteration
(`toSet`), `BTreeMap` as an association list, and `Vec::sort` as an
insertion sort.  Fields the planner never reads (descriptions, actions,
extensions) are omitted from the embedded types. -/

namespace Planner

/-- `types::AnyValue` (numbers over `ℚ`). -/
inductive AnyValue where
  | Null
  | Bool (b : Bool)
  | Number (q : ℚ)
  | String (s : Str)
  | Array (xs : List AnyValue)
  | Object (fields : List (Str × AnyValue))
  deriving Repr

structure ReusableObject where
  reference : Str
  value : Option AnyValue

structure Parameter where
  name : Str
  value : AnyValue

inductive ParameterOrReusable where
  | Parameter (p : Planner.Parameter)
  | Reusable (r : ReusableObject)

structure PayloadReplacement where
  target : Str
  value : AnyValue

structure RequestBody where
  payload : Option AnyValue
  replacements : Option (List PayloadReplacement)

structure Step where
  step_id : Str
  operation_id : Option Str
  operation_path : Option Str
  workflow_id : Option Str
  parameters : Option (List ParameterOrReusable)
  request_body : Option RequestBody
  success_criteria : Option (List Criteria.Criterion)
  outputs : Option (List (Str × Str))

structure Workflow where
  workflow_id : Str
  steps : List Step

/-- Combine two `(deps, inputs)` insertion lists. -/
def combine (a b : List Str × List Str) : List Str × List Str :=
  (a.1 ++ b.1, a.2 ++ b.2)

mutual

/-- `scan_value`. -/
def scan_value : AnyValue → List Str × List Str
  | .Null => ([], [])
  | .Bool _ => ([], [])
  | .Number _ => ([], [])
  | .String s => Scan.scan_string s
  | .Array xs => scan_value_list xs
  | .Object fields => scan_value_fields fields

def scan_value_list : List AnyValue → List Str × List Str
  | [] => ([], [])
  | x :: xs => combine (scan_value x) (scan_value_list xs)

def scan_value_fields : List (Str × AnyValue) → List Str × List Str
  | [] => ([], [])
  | kv :: rest => combine (scan_value kv.2) (scan_value_fields rest)

end

/-- `scan_step`: walk parameters, outputs, the operation references, the
request body, and the success criteria, in source order. -/
def scan_step (st : Step) : List Str × List Str :=
  let params :=
    match st.parameters with
    | none => ([], [])
    | some ps =>
      ps.foldl
        (fun acc p =>
          match p with
          | .Parameter p => combine acc (scan_value p.value)
          | .Reusable r =>
            combine acc (combine (Scan.scan_string r.reference)
              (match r.value with
                | some v => scan_value v
                | none => ([], [])))) ([], [])
  let outs :=
    match st.outputs with
    | none => ([], [])
    | some kvs => kvs.foldl (fun acc kv => combine acc (Scan.scan_string kv.2)) ([], [])
  let opids := combine
    (match st.operation_id with
      | some s => Scan.scan_string s
      | none => ([], []))
    (combine
      (match st.workflow_id with
        | some s => Scan.scan_string s
        | none => ([], []))
      (match st.operation_path with
        | some s => Scan.scan_string s
        | none => ([], [])))
  let body :=
    match st.request_body with
    | none => ([], [])
    | some rb =>
      combine
        (match rb.payload with
          | some v => scan_value v
          | none => ([], []))
        (match rb.replacements with
          | none => ([], [])
          | some reps =>
            reps.foldl
              (fun acc r =>
                combine acc (combine (Scan.scan_string r.target)
                  (scan_value r.value))) ([], []))
  let crits :=
    match st.success_criteria with
    | none => ([], [])
    | some cs =>
      cs.foldl
        (fun acc c =>
          combine acc (combine
            (match c.context with
              | some ctx => Scan.scan_string ctx
              | none => ([], []))
            (Scan.scan_string c.condition))) ([], [])
  combine params (combine outs (combine opids (combine body crits)))

/-- Lexicographic strict order on strings (by char code). -/
def strLt : Str → Str → Bool
  | [], [] => false
  | [], _ :: _ => true
  | _ :: _, [] => false
  | a :: as2, b :: bs => if a = b then strLt as2 bs else decide (a < b)

def strLe (a b : Str) : Bool := !(strLt b a)

/-- `BTreeSet::insert` on a sorted duplicate-free list. -/
def insertSorted (x : Str) : List Str → List Str
  | [] => [x]
  | y :: ys =>
    if strLt x y then x :: y :: ys
    else if x = y then y :: ys
    else y :: insertSorted x ys

/-- A `BTreeSet<String>` built from a list, as its sorted iteration. -/
def toSet (xs : List Str) : List Str :=
  xs.foldl (fun acc x => insertSorted x acc) []

/-- Insertion step of `Vec::sort` (stable sort; `≤` comparison). -/
def insSortInsert (x : Str) : List Str → List Str
  | [] => [x]
  | y :: ys => if strLe x y then x :: y :: ys else y :: insSortInsert x ys

/-- `Vec::sort` on strings. -/
def sortStrs (xs : List Str) : List Str := xs.foldr insSortInsert []

/-- Association-list lookup (`BTreeMap::get`). -/
def alookup (l : List (Str × α)) (k : Str) : Option α :=
  (l.find? fun kv => kv.1 = k).map Prod.snd

/-- Pointwise update of the first matching key. -/
def aupdate (l : List (Str × α)) (k : Str) (v : α) : List (Str × α) :=
  l.map fun kv => if kv.1 = k then (kv.1, v) else kv

/-- `outgoing.entry(d).or_default().push(n)`. -/
def outInsert (outgoing : List (Str × List Str)) (d n : Str) :
    List (Str × List Str) :=
  if (alookup outgoing d).isSome then
    aupdate outgoing d ((alookup outgoing d).getD [] ++ [n])
  else outgoing ++ [(d, [n])]

/-- The indegree/outgoing build loop of `topo_sort`. -/
def buildIndegOut (nodes : List Str) :
    List (Str × List Str) → List (Str × Nat) → List (Str × List Str) →
    List (Str × Nat) × List (Str × List Str)
  | [], indeg, outgoing => (indeg, outgoing)
  | (n, ds) :: rest, indeg, outgoing =>
    let step :=
      ds.foldl
        (fun (acc : List (Str × Nat) × List (Str × List Str)) d =>
          if nodes.contains d then
            (aupdate acc.1 n ((alookup acc.1 n).getD 0 + 1),
             outInsert acc.2 d n)
          else acc)
        (indeg, outgoing)
    buildIndegOut nodes rest step.1 step.2

/-- The inner `for m in nexts` loop: decrement each target's indegree and
collect the ones that reach zero, in order. -/
def processNexts : List Str → List (Str × Nat) → List (Str × Nat) × List Str
  | [], indeg => (indeg, [])
  | m :: ms, indeg =>
    let v := (alookup indeg m).getD 0
    let indeg2 := aupdate indeg m (v - 1)
    let rest := processNexts ms indeg2
    (rest.1, (if v - 1 = 0 then [m] else []) ++ rest.2)

/-- The Kahn work loop (`while let Some(n) = q.pop_front()`), with fuel;
`topo_sort` supplies enough fuel for the queue to drain. -/
def kahnLoop (outgoing : List (Str × List Str)) :
    Nat → List (Str × Nat) → List Str → List Str → List Str
  | 0, _, _, out => out
  | fuel + 1, indeg, queue, out =>
    match queue with
    | [] => out
    | n :: qrest =>
      let nexts := (alookup outgoing n).getD []
      let step := processNexts nexts indeg
      kahnLoop outgoing fuel step.1 (qrest ++ step.2) (out ++ [n])

/-- `topo_sort`. -/
def topo_sort (nodes : List Str) (depends_on : List (Str × List Str)) :
    Except Str (List Str) :=
  let indeg0 : List (Str × Nat) := nodes.map fun n => (n, 0)
  let built := buildIndegOut nodes depends_on indeg0 []
  let outgoingSorted := built.2.map fun kv => (kv.1, sortStrs kv.2)
  let queue0 := nodes.filter fun n => (alookup built.1 n).getD 0 = 0
  let fuel := nodes.length + (depends_on.map fun kv => kv.2.length).sum + 1
  let out := kahnLoop outgoingSorted fuel built.1 queue0 []
  if out.length ≠ nodes.length then
    .error "cycle detected in step dependency graph".data
  else .ok out

/-- `compute_levels`: the per-node level map in topo order, then the level
buckets (bucket `i` lists its nodes in topo order, as in the source's
push loop). -/
def compute_levels (topo : List Str) (depends_on : List (Str × List Str)) :
    List (List Str) :=
  let level : List (Str × Nat) :=
    topo.foldl
      (fun lv node =>
        let deps := (alookup depends_on node).getD []
        let vals := deps.filterMap fun d => alookup lv d
        let l := match vals.max? with
          | some m => m + 1
          | none => 0
        lv ++ [(node, l)])
      []
  let max_level := ((level.map Prod.snd).max?).getD 0
  (List.range (max_level + 1)).map fun i =>
    topo.filter fun n => alookup level n = some i

structure DependencyGraph where
  depends_on : List (Str × List Str)
  levels : List (List Str)
  topo_order : List Str
  deriving DecidableEq, Repr

/-- `build_step_dependency_graph`. -/
def build_step_dependency_graph (workflow : Workflow)
    (deps : List (Str × List Str)) : Except Str DependencyGraph :=
  let step_ids := toSet (workflow.steps.map Step.step_id)
  let depends_on : List (Str × List Str) := step_ids.map fun sid =>
    (sid, sortStrs (((alookup deps sid).getD []).filter fun x =>
      step_ids.contains x))
  match topo_sort step_ids depends_on with
  | .error e => .error e
  | .ok topo =>
    .ok ⟨depends_on, compute_levels topo depends_on, topo⟩

/-- The step-dependency map of `scan_workflow` (each step's scanned
`$steps` roots as a `BTreeSet`). -/
def scan_workflow_deps (workflow : Workflow) : List (Str × List Str) :=
  workflow.steps.map fun st => (st.step_id, toSet (scan_step st).1)

end Planner

/-- On a brace-free string the template scanner yields one literal run. -/
theorem parse_template_segs_no_brace {s : Str} (h : Expressions.lbrace ∉ s) :
    ∀ buf, Expressions.parse_template_segs s buf =
      .ok (if buf ++ s = [] then [] else [.Literal (buf ++ s)]) := by
  induction s with
  | nil =>
    intro buf
    rw [Expressions.parse_template_segs]
    simp [List.isEmpty_iff]
  | cons c rest ih =>
    intro buf
    have hc : ¬ (c = Expressions.lbrace) := fun hh => h (hh ▸ List.mem_cons_self c rest)
    have hr : Expressions.lbrace ∉ rest := fun hh => h (List.mem_cons_of_mem c hh)
    rw [Expressions.parse_template_segs]
    rw [if_neg hc, ih hr (buf ++ [c])]
    have : buf ++ [c] ++ rest = buf ++ (c :: rest) := by simp
    rw [this]

/-- `parse_template` of a brace-free string: a single literal segment. -/
theorem parse_template_no_brace {s : Str} (h : Expressions.lbrace ∉ s) :
    Expressions.parse_template s =
      .ok ⟨if s = [] then [] else [.Literal s]⟩ := by
  unfold Expressions.parse_template
  rw [parse_template_segs_no_brace h []]
  simp [Except.map]

/-- `scan_string` on an opaque string (no runtime expression, no braces)
records nothing: the template path sees one literal and the regex path is
dead. -/
theorem scan_string_opaque {s : Str} (e : Expressions.RuntimeExprError)
    (h1 : Expressions.parse_runtime_expr (trim s) = .error e)
    (h2 : Expressions.lbrace ∉ s) :
    Scan.scan_string s = ([], []) := by
  rw [Scan.scan_string, h1, parse_template_no_brace h2]
  by_cases hs : s = []
  · subst hs
    simp [Scan.capturesIter, Scan.capturesGo_steps_nil, Scan.capturesGo_inputs_nil]
  · rw [if_neg hs]
    simp [Scan.capturesIter, Scan.capturesGo_steps_nil, Scan.capturesGo_inputs_nil]

/-- Scenario S3's workflow: `login → createOrder → fetchOrder`, with the
downstream steps referencing `$steps.<id>.outputs...` in parameter
values. -/
def chainWorkflow : Planner.Workflow where
  workflow_id := "w1".data
  steps :=
    [{ step_id := "login".data, operation_id := some "loginUser".data,
       operation_path := none, workflow_id := none, parameters := none,
       request_body := none, success_criteria := none,
       outputs := some [("token".data, "$response.body#/token".data)] },
     { step_id := "createOrder".data, operation_id := some "createOrderOp".data,
       operation_path := none, workflow_id := none,
       parameters := some [.Parameter
         ⟨"Authorization".data, .String "$steps.login.outputs.token".data⟩],
       request_body := none, success_criteria := none,
       outputs := some [("orderId".data, "$response.body#/id".data)] },
     { step_id := "fetchOrder".data, operation_id := some "getOrder".data,
       operation_path := none, workflow_id := none,
       parameters := some [.Parameter
         ⟨"orderId".data, .String "$steps.createOrder.outputs.orderId".data⟩],
       request_body := none, success_criteria := none, outputs := none }]

theorem chainWorkflow_scan :
    Planner.scan_workflow_deps chainWorkflow =
      [("login".data, []), ("createOrder".data, ["login".data]),
       ("fetchOrder".data, ["createOrder".data])] := by
  have hsv1 : Planner.scan_value (.String "$steps.login.outputs.token".data) =
      (["login".data], []) := by
    rw [Planner.scan_value]
    rfl
  have hsv2 : Planner.scan_value
      (.String "$steps.createOrder.outputs.orderId".data) =
      (["createOrder".data], []) := by
    rw [Planner.scan_value]
    rfl
  have hop1 : Scan.scan_string "loginUser".data = ([], []) :=
    scan_string_opaque .MissingDollarPrefix rfl (by decide)
  have hop2 : Scan.scan_string "createOrderOp".data = ([], []) :=
    scan_string_opaque .MissingDollarPrefix rfl (by decide)
  have hop3 : Scan.scan_string "getOrder".data = ([], []) :=
    scan_string_opaque .MissingDollarPrefix rfl (by decide)
  unfold Planner.scan_workflow_deps chainWorkflow Planner.scan_step
  simp only [List.map_cons, List.map_nil, List.foldl_cons, List.foldl_nil,
    hsv1, hsv2, hop1, hop2, hop3]
  rfl

namespace Planner

theorem alookup_cons {α : Type} (kv : Str × α) (rest : List (Str × α)) (k : Str) :
    alookup (kv :: rest) k = if kv.1 = k then some kv.2 else alookup rest k := by
  by_cases hk : kv.1 = k
  · rw [if_pos hk]
    unfold alookup
    rw [List.find?_cons_of_pos (p := fun (q : Str × α) => decide (q.1 = k)) _ (by simp [hk])]
    rfl
  · rw [if_neg hk]
    unfold alookup
    rw [List.find?_cons_of_neg (p := fun (q : Str × α) => decide (q.1 = k)) _ (by simp [hk])]

theorem alookup_eq_none_of_not_mem {α : Type} {l : List (Str × α)} {k : Str}
    (h : k ∉ l.map Prod.fst) : alookup l k = none := by
  induction l with
  | nil => rfl
  | cons kv rest ih =>
    simp only [List.map_cons, List.mem_cons] at h
    push_neg at h
    rw [alookup_cons, if_neg (fun hh => h.1 hh.symm)]
    exact ih h.2

theorem alookup_isSome_of_mem {α : Type} {l : List (Str × α)} {k : Str}
    (h : k ∈ l.map Prod.fst) : (alookup l k).isSome = true := by
  induction l with
  | nil => simp at h
  | cons kv rest ih =>
    rw [alookup_cons]
    by_cases hk : kv.1 = k
    · rw [if_pos hk]; rfl
    · rw [if_neg hk]
      simp only [List.map_cons, List.mem_cons] at h
      rcases h with h | h
      · exact absurd h.symm hk
      · exact ih h

theorem aupdate_map_fst {α : Type} (l : List (Str × α)) (k : Str) (v : α) :
    (aupdate l k v).map Prod.fst = l.map Prod.fst := by
  induction l with
  | nil => rfl
  | cons kv rest ih =>
    unfold aupdate at ih ⊢
    by_cases hk : kv.1 = k <;> simp [hk, ih]

theorem aupdate_cons {α : Type} (kv : Str × α) (rest : List (Str × α))
    (k : Str) (v : α) :
    aupdate (kv :: rest) k v =
      (if kv.1 = k then (kv.1, v) else kv) :: aupdate rest k v := rfl

theorem alookup_aupdate_self {α : Type} {l : List (Str × α)} {k : Str} (v : α)
    (h : k ∈ l.map Prod.fst) : alookup (aupdate l k v) k = some v := by
  induction l with
  | nil => simp at h
  | cons kv rest ih =>
    rw [aupdate_cons]
    by_cases hk : kv.1 = k
    · rw [if_pos hk, alookup_cons, if_pos hk]
    · rw [if_neg hk, alookup_cons, if_neg hk]
      simp only [List.map_cons, List.mem_cons] at h
      rcases h with h | h
      · exact absurd h.symm hk
      · exact ih h

theorem alookup_aupdate_ne {α : Type} {l : List (Str × α)} {k k' : Str} (v : α)
    (h : k' ≠ k) : alookup (aupdate l k v) k' = alookup l k' := by
  induction l with
  | nil => rfl
  | cons kv rest ih =>
    rw [aupdate_cons]
    by_cases hk : kv.1 = k
    · have hne : ¬ (kv.1 = k') := fun hh => h (by rw [← hh, hk])
      rw [if_pos hk, alookup_cons, alookup_cons, if_neg hne]
      simp only [if_neg (show ¬ (kv.1 = k') from hne)] at *
      exact ih
    · rw [if_neg hk, alookup_cons, alookup_cons]
      by_cases hk' : kv.1 = k'
      · rw [if_pos hk', if_pos hk']
      · rw [if_neg hk', if_neg hk']
        exact ih

/-- `deps.get(n).cloned().unwrap_or_default()`. -/
def depsOf (dep : List (Str × List Str)) (n : Str) : List Str :=
  (alookup dep n).getD []

/-- The dependencies of `m` that are graph nodes (with multiplicity). -/
def cdeps (nodes : List Str) (dep : List (Str × List Str)) (m : Str) : List Str :=
  (depsOf dep m).filter fun d => nodes.contains d

/-- Remaining indegree of `m` once the steps in `out` have been emitted. -/
def cnt (nodes : List Str) (dep : List (Str × List Str)) (out : List Str)
    (m : Str) : Nat :=
  ((cdeps nodes dep m).filter fun d => !(out.contains d)).length

def sumVals (l : List (Str × Nat)) : Nat := (l.map Prod.snd).sum

end Planner

namespace Planner

theorem alookup_aupdate {α : Type} (l : List (Str × α)) (k : Str) (v : α) :
    alookup (aupdate l k v) k = (alookup l k).map fun _ => v := by
  induction l with
  | nil => rfl
  | cons kv rest ih =>
    rw [aupdate_cons]
    by_cases hk : kv.1 = k
    · rw [if_pos hk, alookup_cons, alookup_cons, if_pos hk, if_pos hk]
      simp
    · rw [if_neg hk, alookup_cons, alookup_cons, if_neg hk, if_neg hk]
      exact ih

theorem aupdate_not_mem {α : Type} {l : List (Str × α)} {k : Str} (v : α)
    (h : k ∉ l.map Prod.fst) : aupdate l k v = l := by
  induction l with
  | nil => rfl
  | cons kv rest ih =>
    simp only [List.map_cons, List.mem_cons] at h
    push_neg at h
    rw [aupdate_cons, if_neg (fun hh => h.1 hh.symm), ih h.2]

theorem sumVals_aupdate {l : List (Str × Nat)} {k : Str} (v : Nat)
    (hnd : (l.map Prod.fst).Nodup) (hmem : k ∈ l.map Prod.fst) :
    sumVals (aupdate l k v) + (alookup l k).getD 0 = sumVals l + v := by
  induction l with
  | nil => simp at hmem
  | cons kv rest ih =>
    simp only [List.map_cons, List.nodup_cons] at hnd
    rw [aupdate_cons, alookup_cons]
    by_cases hk : kv.1 = k
    · rw [if_pos hk, if_pos hk]
      rw [aupdate_not_mem v (hk ▸ hnd.1)]
      simp only [sumVals, List.map_cons, List.sum_cons, Option.getD_some]
      omega
    · rw [if_neg hk, if_neg hk]
      simp only [List.map_cons, List.mem_cons] at hmem
      rcases hmem with hmem | hmem
      · exact absurd hmem.symm hk
      · have := ih hnd.2 hmem
        simp only [sumVals, List.map_cons, List.sum_cons] at this ⊢
        omega

theorem processNexts_fst_map_fst (nexts : List Str) (indeg : List (Str × Nat)) :
    ((processNexts nexts indeg).1).map Prod.fst = indeg.map Prod.fst := by
  induction nexts generalizing indeg with
  | nil => rfl
  | cons m ms ih =>
    rw [processNexts]
    simp only
    rw [ih, aupdate_map_fst]

theorem processNexts_alookup (nexts : List Str) (indeg : List (Str × Nat))
    (x : Str) :
    alookup (processNexts nexts indeg).1 x =
      (alookup indeg x).map fun v => v - nexts.count x := by
  induction nexts generalizing indeg with
  | nil => cases hl : alookup indeg x <;> simp [processNexts, hl]
  | cons m ms ih =>
    rw [processNexts]
    simp only
    rw [ih]
    by_cases hx : x = m
    · subst hx
      rw [alookup_aupdate]
      cases hl : alookup indeg x with
      | none => simp
      | some v =>
        simp [List.count_cons_self]
        omega
    · rw [alookup_aupdate_ne _ hx]
      rw [List.count_cons_of_ne hx]

theorem processNexts_ready_length (nexts : List Str) (indeg : List (Str × Nat)) :
    ((processNexts nexts indeg).2).length ≤ nexts.length := by
  induction nexts generalizing indeg with
  | nil => simp [processNexts]
  | cons m ms ih =>
    rw [processNexts]
    simp only [List.length_cons]
    have h1 := ih (aupdate indeg m ((alookup indeg m).getD 0 - 1))
    by_cases hv : (alookup indeg m).getD 0 - 1 = 0
    · simp only [if_pos hv, List.length_append, List.length_cons,
        List.length_nil]
      omega
    · simp only [if_neg hv, List.length_append, List.length_nil]
      omega

theorem processNexts_sumVals (nexts : List Str) (indeg : List (Str × Nat))
    (hnd : (indeg.map Prod.fst).Nodup)
    (hge : ∀ y, nexts.count y ≤ (alookup indeg y).getD 0) :
    sumVals (processNexts nexts indeg).1 + nexts.length = sumVals indeg := by
  induction nexts generalizing indeg with
  | nil => simp [processNexts]
  | cons m ms ih =>
    rw [processNexts]
    simp only [List.length_cons]
    have hv : 1 ≤ (alookup indeg m).getD 0 := by
      have hc := hge m
      rw [List.count_cons_self] at hc
      omega
    have hmem : m ∈ indeg.map Prod.fst := by
      by_contra hmem
      rw [alookup_eq_none_of_not_mem hmem] at hv
      simp at hv
    have hnd2 : ((aupdate indeg m ((alookup indeg m).getD 0 - 1)).map
        Prod.fst).Nodup := by rwa [aupdate_map_fst]
    have hge2 : ∀ y2, ms.count y2 ≤
        (alookup (aupdate indeg m ((alookup indeg m).getD 0 - 1)) y2).getD 0 := by
      intro y2
      by_cases hy : y2 = m
      · subst hy
        rw [alookup_aupdate]
        have hc := hge y2
        rw [List.count_cons_self] at hc
        cases hl : alookup indeg y2 with
        | none => rw [hl] at hc; simp at hc
        | some v =>
          simp at hc ⊢
          have hgv : (alookup indeg y2).getD 0 = v := by rw [hl]; rfl
          omega
      · rw [alookup_aupdate_ne _ hy]
        have hc := hge y2
        rw [List.count_cons_of_ne hy] at hc
        exact hc
    have hsum := sumVals_aupdate ((alookup indeg m).getD 0 - 1) hnd hmem
    have hrec := ih _ hnd2 hge2
    omega

theorem count_le_aupdate_dec (ms : List Str) (indeg : List (Str × Nat))
    (m2 : Str)
    (hge : ∀ y, (m2 :: ms).count y ≤ (alookup indeg y).getD 0) :
    ∀ y, ms.count y ≤
      (alookup (aupdate indeg m2 ((alookup indeg m2).getD 0 - 1)) y).getD 0 := by
  intro y2
  by_cases hy : y2 = m2
  · subst hy
    rw [alookup_aupdate]
    have hc := hge y2
    rw [List.count_cons_self] at hc
    cases hl : alookup indeg y2 with
    | none => rw [hl] at hc; simp at hc
    | some v =>
      simp at hc ⊢
      have hgv : (alookup indeg y2).getD 0 = v := by rw [hl]; rfl
      omega
  · rw [alookup_aupdate_ne _ hy]
    have hc := hge y2
    rw [List.count_cons_of_ne hy] at hc
    exact hc

theorem processNexts_ready_count (nexts : List Str) (indeg : List (Str × Nat))
    (m : Str)
    (hge : ∀ y, nexts.count y ≤ (alookup indeg y).getD 0) :
    ((processNexts nexts indeg).2).count m =
      if m ∈ nexts ∧ (alookup indeg m).getD 0 = nexts.count m then 1 else 0 := by
  induction nexts generalizing indeg with
  | nil => simp [processNexts]
  | cons m2 ms ih =>
    rw [processNexts]
    simp only
    have hge2 := count_le_aupdate_dec ms indeg m2 hge
    have ihr := ih (aupdate indeg m2 ((alookup indeg m2).getD 0 - 1)) hge2
    have hv1 : 1 ≤ (alookup indeg m2).getD 0 := by
      have hc := hge m2
      rw [List.count_cons_self] at hc
      omega
    rw [List.count_append, ihr]
    by_cases hm : m = m2
    · subst hm
      have hup : (alookup (aupdate indeg m ((alookup indeg m).getD 0 - 1))
          m).getD 0 = (alookup indeg m).getD 0 - 1 := by
        rw [alookup_aupdate]
        cases hl : alookup indeg m with
        | none => rw [hl] at hv1; simp at hv1
        | some v => simp
      have hvge : ms.count m + 1 ≤ (alookup indeg m).getD 0 := by
        have hc := hge m
        rwa [List.count_cons_self] at hc
      by_cases hz : (alookup indeg m).getD 0 = ms.count m + 1
      · by_cases hz0 : ms.count m = 0
        · have hnot : m ∉ ms := List.count_eq_zero.mp hz0
          rw [if_pos (show (alookup indeg m).getD 0 - 1 = 0 by omega)]
          rw [if_neg (fun hcon => hnot hcon.1)]
          rw [if_pos ⟨List.mem_cons_self m ms,
            by rw [List.count_cons_self]; omega⟩]
          simp
        · have hmem : m ∈ ms := by
            by_contra hmm
            exact hz0 (List.count_eq_zero.mpr hmm)
          rw [if_neg (show ¬ ((alookup indeg m).getD 0 - 1 = 0) by omega)]
          rw [if_pos ⟨hmem, by rw [hup]; omega⟩]
          rw [if_pos ⟨List.mem_cons_self m ms,
            by rw [List.count_cons_self]; omega⟩]
          simp
      · have hgt : ms.count m + 2 ≤ (alookup indeg m).getD 0 := by omega
        rw [if_neg (show ¬ ((alookup indeg m).getD 0 - 1 = 0) by omega)]
        rw [if_neg (by
          rintro ⟨_, hvv⟩
          rw [hup] at hvv
          omega)]
        rw [if_neg (by
          rintro ⟨_, hvv⟩
          rw [List.count_cons_self] at hvv
          exact hz hvv)]
        simp
    · have hupne : (alookup (aupdate indeg m2 ((alookup indeg m2).getD 0 - 1))
          m).getD 0 = (alookup indeg m).getD 0 := by
        rw [alookup_aupdate_ne _ hm]
      have hfirst : (List.count m (if (alookup indeg m2).getD 0 - 1 = 0
          then [m2] else [])) = 0 := by
        by_cases hz : (alookup indeg m2).getD 0 - 1 = 0
        · rw [if_pos hz, List.count_cons_of_ne hm]
          rfl
        · rw [if_neg hz]
          rfl
      rw [hfirst]
      by_cases hin : m ∈ ms ∧ (alookup (aupdate indeg m2
          ((alookup indeg m2).getD 0 - 1)) m).getD 0 = ms.count m
      · rw [if_pos hin, if_pos ⟨List.mem_cons_of_mem m2 hin.1,
          by rw [List.count_cons_of_ne hm, ← hupne]; exact hin.2⟩]
      · rw [if_neg hin, if_neg (by
          rintro ⟨hmm, hvv⟩
          rcases List.mem_cons.mp hmm with hh | hh
          · exact hm hh
          · rw [List.count_cons_of_ne hm] at hvv
            exact hin ⟨hh, by rw [hupne]; exact hvv⟩)]

theorem str_contains_iff (l : List Str) (x : Str) :
    l.contains x = true ↔ x ∈ l := by
  simp [List.contains_iff_exists_mem_beq]

theorem length_filter_ne (l : List Str) (n : Str) :
    (l.filter fun d => !(d == n)).length + l.count n = l.length := by
  induction l with
  | nil => rfl
  | cons x xs ih =>
    rw [List.filter_cons]
    by_cases hx : x = n
    · subst hx
      have h1 : (!(x == x)) = false := by simp
      rw [h1]
      simp only [Bool.false_eq_true, if_false, List.count_cons_self,
        List.length_cons]
      omega
    · have h1 : (!(x == n)) = true := by simp [hx]
      rw [h1]
      simp only [if_true, List.length_cons,
        List.count_cons_of_ne (fun hh : n = x => hx hh.symm)]
      omega

theorem cnt_eq_zero_iff (nodes : List Str) (dep : List (Str × List Str))
    (out : List Str) (m : Str) :
    cnt nodes dep out m = 0 ↔ ∀ d ∈ cdeps nodes dep m, d ∈ out := by
  unfold cnt
  rw [List.length_eq_zero, List.filter_eq_nil_iff]
  constructor
  · intro h d hd
    have h2 := h d hd
    simp only [Bool.not_eq_true, Bool.not_eq_false'] at h2
    exact (str_contains_iff out d).mp h2
  · intro h d hd
    simp only [Bool.not_eq_true, Bool.not_eq_false']
    exact (str_contains_iff out d).mpr (h d hd)

theorem count_filter_of_pos (p : Str → Bool)
    (l : List Str) (a : Str) (h : p a = true) :
    (l.filter p).count a = l.count a := by
  induction l with
  | nil => rfl
  | cons x xs ih =>
    rw [List.filter_cons]
    by_cases hx : x = a
    · subst hx
      rw [if_pos h, List.count_cons_self, List.count_cons_self, ih]
    · have hne : a ≠ x := fun hh => hx hh.symm
      by_cases hpx : p x = true
      · rw [if_pos hpx, List.count_cons_of_ne hne, List.count_cons_of_ne hne, ih]
      · rw [if_neg hpx, List.count_cons_of_ne hne, ih]

theorem count_le_cnt (nodes : List Str) (dep : List (Str × List Str))
    (out : List Str) (y n : Str) (hn : n ∉ out) :
    (cdeps nodes dep y).count n ≤ cnt nodes dep out y := by
  unfold cnt
  have hp : (!(out.contains n)) = true := by
    simp only [Bool.not_eq_true']
    by_contra hc
    simp only [Bool.not_eq_false] at hc
    exact hn ((str_contains_iff out n).mp hc)
  calc (cdeps nodes dep y).count n
      = ((cdeps nodes dep y).filter fun d => !(out.contains d)).count n :=
        (count_filter_of_pos (fun d => !(out.contains d)) (cdeps nodes dep y) n hp).symm
    _ ≤ _ := List.count_le_length _ _

theorem cnt_append_singleton (nodes : List Str) (dep : List (Str × List Str))
    (out : List Str) (n y : Str) (hn : n ∉ out) :
    cnt nodes dep (out ++ [n]) y =
      cnt nodes dep out y - (cdeps nodes dep y).count n := by
  unfold cnt
  have hcong : ((cdeps nodes dep y).filter fun d => !((out ++ [n]).contains d)) =
      ((cdeps nodes dep y).filter fun d => !(out.contains d)).filter
        fun d => !(d == n) := by
    rw [List.filter_filter]
    apply List.filter_congr
    intro d _
    by_cases hdo : d ∈ out
    · have h1 : (out ++ [n]).contains d = true :=
        (str_contains_iff _ d).mpr (List.mem_append_left _ hdo)
      have h2 : out.contains d = true := (str_contains_iff _ d).mpr hdo
      rw [h1, h2]
      simp
    · by_cases hdn : d = n
      · have h1 : (out ++ [n]).contains d = true :=
          (str_contains_iff _ d).mpr
            (List.mem_append_right _ (by simp [hdn]))
        rw [h1]
        simp [hdn]
      · have h1 : (out ++ [n]).contains d = false := by
          by_contra hc
          simp only [Bool.not_eq_false] at hc
          rcases List.mem_append.mp ((str_contains_iff _ d).mp hc) with h | h
          · exact hdo h
          · simp at h; exact hdn h
        have h2 : out.contains d = false := by
          by_contra hc
          simp only [Bool.not_eq_false] at hc
          exact hdo ((str_contains_iff _ d).mp hc)
        rw [h1, h2]
        simp [hdn]
  rw [hcong]
  have hlen := length_filter_ne
    ((cdeps nodes dep y).filter fun d => !(out.contains d)) n
  have hp : (!(out.contains n)) = true := by
    simp only [Bool.not_eq_true']
    by_contra hc
    simp only [Bool.not_eq_false] at hc
    exact hn ((str_contains_iff out n).mp hc)
  rw [count_filter_of_pos (fun d => !(out.contains d)) (cdeps nodes dep y) n hp] at hlen
  omega

theorem mem_nodes_of_cdeps_count_pos {nodes : List Str}
    {dep : List (Str × List Str)} {m n : Str}
    (hkeys : dep.map Prod.fst = nodes)
    (h : 0 < (cdeps nodes dep m).count n) : m ∈ nodes := by
  by_contra hm
  have hnone : alookup dep m = none :=
    alookup_eq_none_of_not_mem (hkeys ▸ hm)
  unfold cdeps depsOf at h
  rw [hnone] at h
  simp at h

theorem append_singleton_split {α : Type} {out p s2 : List α} {m n : α}
    (h : out ++ [n] = p ++ m :: s2) :
    (∃ s3, out = p ++ m :: s3 ∧ s2 = s3 ++ [n]) ∨
      (p = out ∧ m = n ∧ s2 = []) := by
  rcases List.append_eq_append_iff.mp h with ⟨a2, hp, hn⟩ | ⟨c2, hout, hms⟩
  · cases a2 with
    | nil =>
      right
      simp only [List.nil_append] at hn
      obtain ⟨hm, hs⟩ := List.cons.inj hn
      simp only [List.append_nil] at hp
      exact ⟨hp, hm.symm, hs.symm⟩
    | cons x xs =>
      exfalso
      obtain ⟨_, h2⟩ := List.cons.inj hn
      have h3 := h2.symm
      simp at h3
  · cases c2 with
    | nil =>
      right
      simp only [List.append_nil] at hout
      simp only [List.nil_append] at hms
      obtain ⟨hm, hs⟩ := List.cons.inj hms
      exact ⟨hout.symm, hm, hs⟩
    | cons x xs =>
      left
      obtain ⟨hm, hs⟩ := List.cons.inj hms
      refine ⟨xs, ?_, hs⟩
      rw [hout, hm]

theorem cdeps_eq_nil_of_not_mem {nodes : List Str} {dep : List (Str × List Str)}
    {y : Str} (hkeys : dep.map Prod.fst = nodes) (hy : y ∉ nodes) :
    cdeps nodes dep y = [] := by
  unfold cdeps depsOf
  rw [alookup_eq_none_of_not_mem (hkeys ▸ hy)]
  rfl

theorem alookup_append_single {α : Type} (l : List (Str × α)) (d k : Str)
    (v : α) :
    alookup (l ++ [(d, v)]) k =
      match alookup l k with
      | some w => some w
      | none => if d = k then some v else none := by
  induction l with
  | nil =>
    simp only [List.nil_append]
    rw [alookup_cons]
    by_cases hd : d = k
    · rw [if_pos hd, if_pos hd]
      rfl
    · rw [if_neg hd, if_neg hd]
      rfl
  | cons kv rest ih =>
    rw [List.cons_append, alookup_cons, alookup_cons]
    by_cases hk : kv.1 = k
    · rw [if_pos hk, if_pos hk]
    · rw [if_neg hk, if_neg hk]
      exact ih

theorem outInsert_alookup (outgoing : List (Str × List Str)) (d n d2 : Str) :
    (alookup (outInsert outgoing d n) d2).getD [] =
      if d = d2 then ((alookup outgoing d).getD []) ++ [n]
      else (alookup outgoing d2).getD [] := by
  unfold outInsert
  by_cases hs : (alookup outgoing d).isSome
  · rw [if_pos hs]
    by_cases hd : d = d2
    · subst hd
      rw [if_pos rfl, alookup_aupdate]
      cases hl : alookup outgoing d with
      | none => rw [hl] at hs; simp at hs
      | some w => simp
    · rw [if_neg hd, alookup_aupdate_ne _ (fun hh => hd hh.symm)]
  · rw [if_neg hs]
    rw [alookup_append_single]
    by_cases hd : d = d2
    · subst hd
      cases hl : alookup outgoing d with
      | none => simp
      | some w => rw [hl] at hs; simp at hs
    · cases hl : alookup outgoing d2 with
      | none =>
        simp only [if_neg hd]
      | some w => simp [hd]

theorem alookup_map_val {α β : Type} (l : List (Str × α)) (f : α → β) (k : Str) :
    alookup (l.map fun kv => (kv.1, f kv.2)) k = (alookup l k).map f := by
  induction l with
  | nil => rfl
  | cons kv rest ih =>
    rw [List.map_cons, alookup_cons, alookup_cons]
    by_cases hk : kv.1 = k
    · rw [if_pos hk, if_pos hk]
      rfl
    · rw [if_neg hk, if_neg hk]
      exact ih

theorem count_insSortInsert (x : Str) (l : List Str) (m : Str) :
    (insSortInsert x l).count m = (x :: l).count m := by
  induction l with
  | nil => rfl
  | cons y ys ih =>
    rw [insSortInsert]
    by_cases hle : strLe x y = true
    · rw [if_pos hle]
    · rw [if_neg hle]
      by_cases hm : m = y
      · subst hm
        rw [List.count_cons_self]
        rw [ih]
        by_cases hx : m = x
        · subst hx
          simp [List.count_cons_self]
        · rw [List.count_cons_of_ne hx, List.count_cons_of_ne hx,
            List.count_cons_self]
      · rw [List.count_cons_of_ne hm, ih]
        by_cases hx : m = x
        · subst hx
          rw [List.count_cons_self, List.count_cons_self,
            List.count_cons_of_ne hm]
        · rw [List.count_cons_of_ne hx, List.count_cons_of_ne hx,
            List.count_cons_of_ne hm]

theorem count_sortStrs (l : List Str) (m : Str) :
    (sortStrs l).count m = l.count m := by
  induction l with
  | nil => rfl
  | cons x xs ih =>
    show (insSortInsert x (sortStrs xs)).count m = _
    rw [count_insSortInsert]
    by_cases hx : m = x
    · subst hx
      rw [List.count_cons_self, List.count_cons_self, ih]
    · rw [List.count_cons_of_ne hx, List.count_cons_of_ne hx, ih]

/-- The inner `for d in ds` fold of `buildIndegOut`, in isolation. -/
def innerFold (nodes : List Str) (n : Str) (ds : List Str)
    (indeg : List (Str × Nat)) (outgoing : List (Str × List Str)) :
    List (Str × Nat) × List (Str × List Str) :=
  ds.foldl
    (fun (acc : List (Str × Nat) × List (Str × List Str)) d =>
      if nodes.contains d then
        (aupdate acc.1 n ((alookup acc.1 n).getD 0 + 1),
         outInsert acc.2 d n)
      else acc)
    (indeg, outgoing)

theorem buildIndegOut_cons (nodes : List Str) (n : Str) (ds : List Str)
    (rest : List (Str × List Str)) (indeg : List (Str × Nat))
    (outgoing : List (Str × List Str)) :
    buildIndegOut nodes ((n, ds) :: rest) indeg outgoing =
      buildIndegOut nodes rest (innerFold nodes n ds indeg outgoing).1
        (innerFold nodes n ds indeg outgoing).2 := by
  rw [buildIndegOut]
  rfl

theorem innerFold_cons (nodes : List Str) (n d : Str) (ds : List Str)
    (indeg : List (Str × Nat)) (outgoing : List (Str × List Str)) :
    innerFold nodes n (d :: ds) indeg outgoing =
      if nodes.contains d then
        innerFold nodes n ds
          (aupdate indeg n ((alookup indeg n).getD 0 + 1))
          (outInsert outgoing d n)
      else innerFold nodes n ds indeg outgoing := by
  unfold innerFold
  rw [List.foldl_cons]
  by_cases h : nodes.contains d
  · rw [if_pos h, if_pos h]
  · rw [if_neg h, if_neg h]

theorem innerFold_spec (nodes : List Str) (n : Str) (ds : List Str) :
    ∀ (indeg : List (Str × Nat)) (outgoing : List (Str × List Str)),
    ((innerFold nodes n ds indeg outgoing).1).map Prod.fst =
      indeg.map Prod.fst ∧
    (∀ m, alookup (innerFold nodes n ds indeg outgoing).1 m =
      if m = n then (alookup indeg m).map
        (fun v => v + (ds.filter fun d => nodes.contains d).length)
      else alookup indeg m) ∧
    (∀ d2 m,
      ((alookup (innerFold nodes n ds indeg outgoing).2 d2).getD []).count m =
      ((alookup outgoing d2).getD []).count m +
        (if m = n then (ds.filter fun d => nodes.contains d).count d2
         else 0)) := by
  induction ds with
  | nil =>
    intro indeg outgoing
    refine ⟨rfl, ?_, ?_⟩
    · intro m
      by_cases hm : m = n
      · rw [if_pos hm]
        cases hl : alookup indeg m with
        | none => simp [innerFold, hl]
        | some v => simp [innerFold, hl]
      · rw [if_neg hm]
        rfl
    · intro d2 m
      by_cases hm : m = n
      · rw [if_pos hm]
        simp [innerFold]
      · rw [if_neg hm]
        simp [innerFold]
  | cons d ds ih =>
    intro indeg outgoing
    rw [innerFold_cons]
    by_cases hc : nodes.contains d
    · rw [if_pos hc]
      obtain ⟨ih1, ih2, ih3⟩ :=
        ih (aupdate indeg n ((alookup indeg n).getD 0 + 1))
          (outInsert outgoing d n)
      refine ⟨?_, ?_, ?_⟩
      · rw [ih1, aupdate_map_fst]
      · intro m
        rw [ih2 m]
        by_cases hm : m = n
        · subst hm
          rw [if_pos rfl, if_pos rfl, alookup_aupdate]
          cases hl : alookup indeg m with
          | none => rfl
          | some v =>
            simp only [List.filter_cons, hc, if_true, List.length_cons,
              Option.map_some', Option.getD_some, Option.some.injEq]
            omega
        · rw [if_neg hm, if_neg hm, alookup_aupdate_ne _ hm]
      · intro d2 m
        rw [ih3 d2 m, outInsert_alookup]
        by_cases hd : d = d2
        · subst hd
          rw [if_pos rfl, List.count_append]
          simp only [List.filter_cons, hc, if_true]
          by_cases hm : m = n
          · subst hm
            rw [if_pos rfl, if_pos rfl, List.count_cons_self,
              List.count_cons_self]
            simp only [List.count_nil]
            omega
          · rw [if_neg hm, if_neg hm, List.count_cons_of_ne hm,
              List.count_nil]
        · rw [if_neg hd]
          simp only [List.filter_cons, hc, if_true]
          by_cases hm : m = n
          · subst hm
            rw [if_pos rfl, if_pos rfl,
              List.count_cons_of_ne (fun hh => hd hh.symm)]
          · rw [if_neg hm, if_neg hm]
    · rw [if_neg hc]
      obtain ⟨ih1, ih2, ih3⟩ := ih indeg outgoing
      refine ⟨ih1, ?_, ?_⟩
      · intro m
        rw [ih2 m]
        simp only [List.filter_cons, hc, Bool.false_eq_true, if_false]
      · intro d2 m
        rw [ih3 d2 m]
        simp only [List.filter_cons, hc, Bool.false_eq_true, if_false]

/-- Total indegree contribution of a list of `depends_on` entries to node `m`. -/
def contribI (nodes : List Str) (entries : List (Str × List Str)) (m : Str) :
    Nat :=
  (entries.map fun kv =>
    if kv.1 = m then (kv.2.filter fun d => nodes.contains d).length else 0).sum

/-- Total number of `m` entries appended to `outgoing[d]` by a list of
`depends_on` entries. -/
def contribO (nodes : List Str) (entries : List (Str × List Str)) (d m : Str) :
    Nat :=
  (entries.map fun kv =>
    if kv.1 = m then (kv.2.filter fun x => nodes.contains x).count d
    else 0).sum

theorem contribI_cons (nodes : List Str) (n : Str) (ds : List Str)
    (rest : List (Str × List Str)) (m : Str) :
    contribI nodes ((n, ds) :: rest) m =
      (if n = m then (ds.filter fun d => nodes.contains d).length else 0) +
        contribI nodes rest m := by
  simp [contribI]

theorem contribO_cons (nodes : List Str) (n : Str) (ds : List Str)
    (rest : List (Str × List Str)) (d m : Str) :
    contribO nodes ((n, ds) :: rest) d m =
      (if n = m then (ds.filter fun x => nodes.contains x).count d else 0) +
        contribO nodes rest d m := by
  simp [contribO]

theorem buildIndegOut_spec (nodes : List Str) (entries : List (Str × List Str)) :
    ∀ (indeg : List (Str × Nat)) (outgoing : List (Str × List Str)),
    ((buildIndegOut nodes entries indeg outgoing).1).map Prod.fst =
      indeg.map Prod.fst ∧
    (∀ m, alookup (buildIndegOut nodes entries indeg outgoing).1 m =
      (alookup indeg m).map fun v => v + contribI nodes entries m) ∧
    (∀ d m,
      ((alookup (buildIndegOut nodes entries indeg outgoing).2 d).getD
        []).count m =
      ((alookup outgoing d).getD []).count m + contribO nodes entries d m) := by
  induction entries with
  | nil =>
    intro indeg outgoing
    refine ⟨rfl, ?_, ?_⟩
    · intro m
      cases hl : alookup indeg m with
      | none => simp [buildIndegOut, hl]
      | some v => simp [buildIndegOut, hl, contribI]
    · intro d m
      simp [buildIndegOut, contribO]
  | cons kv rest ih =>
    intro indeg outgoing
    obtain ⟨n, ds⟩ := kv
    rw [buildIndegOut_cons]
    obtain ⟨f1, f2, f3⟩ := innerFold_spec nodes n ds indeg outgoing
    obtain ⟨ih1, ih2, ih3⟩ :=
      ih (innerFold nodes n ds indeg outgoing).1
        (innerFold nodes n ds indeg outgoing).2
    refine ⟨by rw [ih1, f1], ?_, ?_⟩
    · intro m
      rw [ih2 m, f2 m, contribI_cons]
      by_cases hm : m = n
      · rw [if_pos hm, if_pos hm.symm]
        cases hl : alookup indeg m with
        | none => rfl
        | some v =>
          simp only [Option.map_some', Option.some.injEq]
          omega
      · rw [if_neg hm, if_neg (fun hh => hm hh.symm)]
        cases hl : alookup indeg m with
        | none => rfl
        | some v =>
          simp only [Option.map_some', Option.some.injEq]
          omega
    · intro d m
      rw [ih3 d m, f3 d m, contribO_cons]
      by_cases hm : m = n
      · rw [if_pos hm, if_pos hm.symm]
        omega
      · rw [if_neg hm, if_neg (fun hh => hm hh.symm)]
        omega

theorem mem_of_count_pos {l : List Str} {a : Str} (h : 0 < l.count a) :
    a ∈ l := by
  by_contra hx
  rw [List.count_eq_zero.mpr hx] at h
  omega

theorem count_pos_of_mem {l : List Str} {a : Str} (h : a ∈ l) :
    0 < l.count a := by
  by_contra hc
  push_neg at hc
  exact (List.count_eq_zero.mp (by omega)) h

theorem nodup_of_count_le_one {l : List Str} (h : ∀ a, l.count a ≤ 1) :
    l.Nodup := by
  induction l with
  | nil => exact List.nodup_nil
  | cons x xs ih =>
    rw [List.nodup_cons]
    constructor
    · intro hx
      have h1 := h x
      rw [List.count_cons_self] at h1
      have h2 := count_pos_of_mem hx
      omega
    · apply ih
      intro a
      have h1 := h a
      by_cases hax : a = x
      · subst hax
        rw [List.count_cons_self] at h1
        omega
      · rw [List.count_cons_of_ne hax] at h1
        omega

theorem kahnLoop_nil (outgoing : List (Str × List Str)) (fuel : Nat)
    (indeg : List (Str × Nat)) (out : List Str) :
    kahnLoop outgoing (fuel + 1) indeg [] out = out := rfl

theorem kahnLoop_consEq (outgoing : List (Str × List Str)) (fuel : Nat)
    (indeg : List (Str × Nat)) (n : Str) (qrest out : List Str) :
    kahnLoop outgoing (fuel + 1) indeg (n :: qrest) out =
      kahnLoop outgoing fuel
        (processNexts ((alookup outgoing n).getD []) indeg).1
        (qrest ++ (processNexts ((alookup outgoing n).getD []) indeg).2)
        (out ++ [n]) := rfl

theorem kahnLoop_spec (nodes : List Str) (dep : List (Str × List Str))
    (outgoing : List (Str × List Str))
    (hnodup : nodes.Nodup)
    (hkeys : dep.map Prod.fst = nodes)
    (hOG : ∀ d m, ((alookup outgoing d).getD []).count m =
      (cdeps nodes dep m).count d) :
    ∀ (fuel : Nat) (indeg : List (Str × Nat)) (queue out : List Str),
    indeg.map Prod.fst = nodes →
    (∀ m ∈ nodes, (alookup indeg m).getD 0 = cnt nodes dep out m) →
    (out ++ queue).Nodup →
    (∀ m ∈ out ++ queue, m ∈ nodes) →
    (∀ m ∈ nodes, cnt nodes dep out m = 0 → m ∈ out ++ queue) →
    (∀ m ∈ out ++ queue, cnt nodes dep out m = 0) →
    (∀ p m s2, out = p ++ m :: s2 → ∀ d ∈ cdeps nodes dep m, d ∈ p) →
    queue.length + sumVals indeg < fuel →
    (kahnLoop outgoing fuel indeg queue out).Nodup ∧
    (∀ m ∈ kahnLoop outgoing fuel indeg queue out, m ∈ nodes) ∧
    (∀ p m s2, kahnLoop outgoing fuel indeg queue out = p ++ m :: s2 →
      ∀ d ∈ cdeps nodes dep m, d ∈ p) ∧
    (∀ m ∈ nodes,
      cnt nodes dep (kahnLoop outgoing fuel indeg queue out) m = 0 →
      m ∈ kahnLoop outgoing fuel indeg queue out) ∧
    (∃ t, kahnLoop outgoing fuel indeg queue out = out ++ t) := by
  intro fuel
  induction fuel with
  | zero =>
    intro indeg queue out _ _ _ _ _ _ _ hfuel
    exact absurd hfuel (Nat.not_lt_zero _)
  | succ fuel ih =>
    intro indeg queue out hI1 hI2 hI3 hI4 hI5 hI6 hI7 hfuel
    cases queue with
    | nil =>
      rw [kahnLoop_nil]
      refine ⟨by simpa using hI3, ?_, hI7, ?_, ⟨[], by simp⟩⟩
      · intro m hm
        exact hI4 m (by simp [hm])
      · intro m hm hz
        have := hI5 m hm hz
        simpa using this
    | cons n qrest =>
      set nexts : List Str := (alookup outgoing n).getD [] with hnexts
      set step : List (Str × Nat) × List Str := processNexts nexts indeg
        with hstep
      have hnout : n ∉ out := by
        intro hn
        have hdisj := (List.nodup_append.mp hI3).2.2
        exact hdisj hn (List.mem_cons_self n qrest)
      have hnnodes : n ∈ nodes :=
        hI4 n (List.mem_append_right _ (List.mem_cons_self n qrest))
      have hnextsCount : ∀ y, nexts.count y = (cdeps nodes dep y).count n := by
        intro y
        rw [hnexts]
        exact hOG n y
      have hge : ∀ y, nexts.count y ≤ (alookup indeg y).getD 0 := by
        intro y
        by_cases hy : y ∈ nodes
        · rw [hI2 y hy, hnextsCount y]
          exact count_le_cnt nodes dep out y n hnout
        · rw [alookup_eq_none_of_not_mem (l := indeg) (by rw [hI1]; exact hy)]
          rw [hnextsCount y, cdeps_eq_nil_of_not_mem hkeys hy]
          simp
      have hcntn : cnt nodes dep out n = 0 :=
        hI6 n (List.mem_append_right _ (List.mem_cons_self n qrest))
      have hreadyCount : ∀ m, step.2.count m =
          if m ∈ nexts ∧ (alookup indeg m).getD 0 = nexts.count m then 1
          else 0 := by
        intro m
        rw [hstep]
        exact processNexts_ready_count nexts indeg m hge
      have hreadyNodes : ∀ m ∈ step.2, m ∈ nodes := by
        intro m hmr
        have hpos := count_pos_of_mem hmr
        rw [hreadyCount m] at hpos
        by_cases hcond : m ∈ nexts ∧ (alookup indeg m).getD 0 = nexts.count m
        · have hmn := count_pos_of_mem hcond.1
          rw [hnextsCount m] at hmn
          exact mem_nodes_of_cdeps_count_pos hkeys hmn
        · rw [if_neg hcond] at hpos
          omega
      have hreadyZero : ∀ m ∈ step.2, cnt nodes dep (out ++ [n]) m = 0 := by
        intro m hmr
        have hpos := count_pos_of_mem hmr
        rw [hreadyCount m] at hpos
        by_cases hcond : m ∈ nexts ∧ (alookup indeg m).getD 0 = nexts.count m
        · obtain ⟨hmn, hcnd⟩ := hcond
          have h2 := hI2 m (hreadyNodes m hmr)
          have h3 := (hnextsCount m).symm
          rw [cnt_append_singleton nodes dep out n m hnout]
          omega
        · rw [if_neg hcond] at hpos
          omega
      have hreadyNotIn : ∀ m ∈ step.2, m ∉ out ++ n :: qrest := by
        intro m hmr hmA
        have h0 := hI6 m hmA
        have hpos := count_pos_of_mem hmr
        rw [hreadyCount m] at hpos
        by_cases hcond : m ∈ nexts ∧ (alookup indeg m).getD 0 = nexts.count m
        · obtain ⟨hmn, hcnd⟩ := hcond
          have h2 := hI2 m (hI4 m hmA)
          have hnc := count_pos_of_mem hmn
          omega
        · rw [if_neg hcond] at hpos
          omega
      have hreadyNodup : step.2.Nodup := by
        apply nodup_of_count_le_one
        intro a
        rw [hreadyCount a]
        split <;> omega
      have hshape : (out ++ [n]) ++ (qrest ++ step.2) =
          (out ++ n :: qrest) ++ step.2 := by simp
      have nI1 : (step.1).map Prod.fst = nodes := by
        rw [hstep, processNexts_fst_map_fst]
        exact hI1
      have nI2 : ∀ m ∈ nodes,
          (alookup step.1 m).getD 0 = cnt nodes dep (out ++ [n]) m := by
        intro m hm
        rw [hstep, processNexts_alookup]
        have hsome := alookup_isSome_of_mem (l := indeg) (k := m)
          (by rw [hI1]; exact hm)
        obtain ⟨v, hv⟩ := Option.isSome_iff_exists.mp hsome
        have h2 := hI2 m hm
        rw [hv] at h2 ⊢
        simp only [Option.getD_some, Option.map_some'] at h2 ⊢
        rw [h2, hnextsCount m]
        exact (cnt_append_singleton nodes dep out n m hnout).symm
      have nI3 : ((out ++ [n]) ++ (qrest ++ step.2)).Nodup := by
        rw [hshape, List.nodup_append]
        exact ⟨hI3, hreadyNodup, fun a ha har => hreadyNotIn a har ha⟩
      have nI4 : ∀ m ∈ (out ++ [n]) ++ (qrest ++ step.2), m ∈ nodes := by
        intro m hm
        rw [hshape, List.mem_append] at hm
        rcases hm with hm | hm
        · exact hI4 m hm
        · exact hreadyNodes m hm
      have nI5 : ∀ m ∈ nodes, cnt nodes dep (out ++ [n]) m = 0 →
          m ∈ (out ++ [n]) ++ (qrest ++ step.2) := by
        intro m hm hz
        rw [hshape, List.mem_append]
        by_cases hz0 : cnt nodes dep out m = 0
        · left
          exact hI5 m hm hz0
        · right
          rw [cnt_append_singleton nodes dep out n m hnout] at hz
          have hle := count_le_cnt nodes dep out m n hnout
          have heq : (cdeps nodes dep m).count n = cnt nodes dep out m := by
            omega
          have hmemnx : m ∈ nexts := by
            apply mem_of_count_pos
            rw [hnextsCount m, heq]
            omega
          have hcondition : (alookup indeg m).getD 0 = nexts.count m := by
            rw [hI2 m hm, hnextsCount m, heq]
          have hc := hreadyCount m
          rw [if_pos ⟨hmemnx, hcondition⟩] at hc
          exact mem_of_count_pos (by omega)
      have nI6 : ∀ m ∈ (out ++ [n]) ++ (qrest ++ step.2),
          cnt nodes dep (out ++ [n]) m = 0 := by
        intro m hm
        rw [hshape, List.mem_append] at hm
        rcases hm with hm | hm
        · have := hI6 m hm
          rw [cnt_append_singleton nodes dep out n m hnout]
          omega
        · exact hreadyZero m hm
      have nI7 : ∀ p m s2, out ++ [n] = p ++ m :: s2 →
          ∀ d ∈ cdeps nodes dep m, d ∈ p := by
        intro p m s2 hsplit d hd
        rcases append_singleton_split hsplit with ⟨s3, ho, _⟩ | ⟨hp, hm, _⟩
        · exact hI7 p m s3 ho d hd
        · rw [hp]
          exact (cnt_eq_zero_iff nodes dep out n).mp hcntn d (hm ▸ hd)
      have hndk : (indeg.map Prod.fst).Nodup := by
        rw [hI1]
        exact hnodup
      have hsum : sumVals step.1 + nexts.length = sumVals indeg := by
        rw [hstep]
        exact processNexts_sumVals nexts indeg hndk hge
      have hrl : step.2.length ≤ nexts.length := by
        rw [hstep]
        exact processNexts_ready_length nexts indeg
      have nfuel : (qrest ++ step.2).length + sumVals step.1 < fuel := by
        simp only [List.length_cons] at hfuel
        simp only [List.length_append]
        omega
      obtain ⟨c1, c2, c3, c4, c5⟩ := ih step.1 (qrest ++ step.2) (out ++ [n])
        nI1 nI2 nI3 nI4 nI5 nI6 nI7 nfuel
      rw [kahnLoop_consEq, ← hnexts, ← hstep]
      refine ⟨c1, c2, c3, c4, ?_⟩
      obtain ⟨t, ht⟩ := c5
      exact ⟨n :: t, by rw [ht, List.append_assoc]; rfl⟩

theorem contribI_eq_zero_of_not_mem {nodes : List Str}
    {entries : List (Str × List Str)} {m : Str}
    (h : m ∉ entries.map Prod.fst) : contribI nodes entries m = 0 := by
  induction entries with
  | nil => rfl
  | cons kv rest ih =>
    simp only [List.map_cons, List.mem_cons] at h
    push_neg at h
    obtain ⟨n, ds⟩ := kv
    rw [contribI_cons, if_neg (fun hh => h.1 hh.symm), ih h.2]

theorem contribO_eq_zero_of_not_mem {nodes : List Str}
    {entries : List (Str × List Str)} {d m : Str}
    (h : m ∉ entries.map Prod.fst) : contribO nodes entries d m = 0 := by
  induction entries with
  | nil => rfl
  | cons kv rest ih =>
    simp only [List.map_cons, List.mem_cons] at h
    push_neg at h
    obtain ⟨n, ds⟩ := kv
    rw [contribO_cons, if_neg (fun hh => h.1 hh.symm), ih h.2]

theorem alookup_cons_pair {α : Type} (n : Str) (v : α)
    (rest : List (Str × α)) (k : Str) :
    alookup ((n, v) :: rest) k = if n = k then some v else alookup rest k := by
  rw [alookup_cons]

theorem contribI_eq (nodes : List Str) (entries : List (Str × List Str))
    (hnd : (entries.map Prod.fst).Nodup) (m : Str) :
    contribI nodes entries m = (cdeps nodes entries m).length := by
  induction entries with
  | nil => simp [contribI, cdeps, depsOf, alookup]
  | cons kv rest ih =>
    obtain ⟨n, ds⟩ := kv
    simp only [List.map_cons, List.nodup_cons] at hnd
    rw [contribI_cons]
    unfold cdeps depsOf
    rw [alookup_cons_pair]
    by_cases hn : n = m
    · rw [if_pos hn, if_pos hn, contribI_eq_zero_of_not_mem (hn ▸ hnd.1)]
      simp
    · rw [if_neg hn, if_neg hn]
      have h2 := ih hnd.2
      unfold cdeps depsOf at h2
      omega

theorem contribO_eq (nodes : List Str) (entries : List (Str × List Str))
    (hnd : (entries.map Prod.fst).Nodup) (d m : Str) :
    contribO nodes entries d m = (cdeps nodes entries m).count d := by
  induction entries with
  | nil => simp [contribO, cdeps, depsOf, alookup]
  | cons kv rest ih =>
    obtain ⟨n, ds⟩ := kv
    simp only [List.map_cons, List.nodup_cons] at hnd
    rw [contribO_cons]
    unfold cdeps depsOf
    rw [alookup_cons_pair]
    by_cases hn : n = m
    · rw [if_pos hn, if_pos hn, contribO_eq_zero_of_not_mem (hn ▸ hnd.1)]
      simp
    · rw [if_neg hn, if_neg hn]
      have h2 := ih hnd.2
      unfold cdeps depsOf at h2
      omega

theorem alookup_const_zero (nodes : List Str) (m : Str) :
    alookup (nodes.map fun n => (n, (0 : Nat))) m =
      if m ∈ nodes then some 0 else none := by
  induction nodes with
  | nil => simp [alookup]
  | cons x xs ih =>
    rw [List.map_cons, alookup_cons]
    by_cases hx : x = m
    · rw [if_pos hx, if_pos (by rw [← hx]; exact List.mem_cons_self x xs)]
    · rw [if_neg hx, ih]
      by_cases hm : m ∈ xs
      · rw [if_pos hm, if_pos (List.mem_cons_of_mem _ hm)]
      · rw [if_neg hm, if_neg (by
          intro h
          rcases List.mem_cons.mp h with h | h
          · exact hx h.symm
          · exact hm h)]

theorem indeg0_keys (nodes : List Str) :
    (nodes.map fun n => (n, (0 : Nat))).map Prod.fst = nodes := by
  induction nodes with
  | nil => rfl
  | cons x xs ih => simp only [List.map_cons, ih]

theorem sumVals_indeg0 (nodes : List Str) :
    sumVals (nodes.map fun n => (n, (0 : Nat))) = 0 := by
  induction nodes with
  | nil => rfl
  | cons x xs ih => simp [sumVals] at ih ⊢; exact ih

theorem cnt_nil (nodes : List Str) (dep : List (Str × List Str)) (m : Str) :
    cnt nodes dep [] m = (cdeps nodes dep m).length := by
  unfold cnt
  congr 1
  apply List.filter_eq_self.mpr
  intro a _
  rfl

theorem sumVals_aupdate_succ {l : List (Str × Nat)} {k : Str}
    (hnd : (l.map Prod.fst).Nodup) :
    sumVals (aupdate l k ((alookup l k).getD 0 + 1)) ≤ sumVals l + 1 := by
  by_cases hk : k ∈ l.map Prod.fst
  · have := sumVals_aupdate ((alookup l k).getD 0 + 1) hnd hk
    omega
  · rw [aupdate_not_mem _ hk]
    omega

theorem innerFold_sumVals (nodes : List Str) (n : Str) (ds : List Str) :
    ∀ (indeg : List (Str × Nat)) (outgoing : List (Str × List Str)),
    (indeg.map Prod.fst).Nodup →
    sumVals (innerFold nodes n ds indeg outgoing).1 ≤
      sumVals indeg + ds.length := by
  induction ds with
  | nil =>
    intro indeg outgoing _
    simp [innerFold]
  | cons d ds ih =>
    intro indeg outgoing hnd
    rw [innerFold_cons]
    by_cases hc : nodes.contains d
    · rw [if_pos hc]
      have h1 := sumVals_aupdate_succ (l := indeg) (k := n) hnd
      have hnd2 : ((aupdate indeg n ((alookup indeg n).getD 0 + 1)).map
          Prod.fst).Nodup := by rwa [aupdate_map_fst]
      have h2 := ih (aupdate indeg n ((alookup indeg n).getD 0 + 1))
        (outInsert outgoing d n) hnd2
      simp only [List.length_cons]
      omega
    · rw [if_neg hc]
      have := ih indeg outgoing hnd
      simp only [List.length_cons]
      omega

theorem buildIndegOut_sumVals (nodes : List Str)
    (entries : List (Str × List Str)) :
    ∀ (indeg : List (Str × Nat)) (outgoing : List (Str × List Str)),
    (indeg.map Prod.fst).Nodup →
    sumVals (buildIndegOut nodes entries indeg outgoing).1 ≤
      sumVals indeg + (entries.map fun kv => kv.2.length).sum := by
  induction entries with
  | nil =>
    intro indeg outgoing _
    simp [buildIndegOut]
  | cons kv rest ih =>
    intro indeg outgoing hnd
    obtain ⟨n, ds⟩ := kv
    rw [buildIndegOut_cons]
    have h1 := innerFold_sumVals nodes n ds indeg outgoing hnd
    have hnd2 : (((innerFold nodes n ds indeg outgoing).1).map
        Prod.fst).Nodup := by
      rw [(innerFold_spec nodes n ds indeg outgoing).1]
      exact hnd
    have h2 := ih (innerFold nodes n ds indeg outgoing).1
      (innerFold nodes n ds indeg outgoing).2 hnd2
    simp only [List.map_cons, List.sum_cons]
    omega

/-- The initial indegree map of `topo_sort` (all nodes at 0). -/
def tsIndeg0 (nodes : List Str) : List (Str × Nat) :=
  nodes.map fun n => (n, 0)

/-- The indegree/outgoing maps `topo_sort` builds. -/
def tsBuilt (nodes : List Str) (dep : List (Str × List Str)) :
    List (Str × Nat) × List (Str × List Str) :=
  buildIndegOut nodes dep (tsIndeg0 nodes) []

/-- The sorted outgoing adjacency of `topo_sort`. -/
def tsOut (nodes : List Str) (dep : List (Str × List Str)) :
    List (Str × List Str) :=
  (tsBuilt nodes dep).2.map fun kv => (kv.1, sortStrs kv.2)

/-- The initial ready queue of `topo_sort`. -/
def tsQueue0 (nodes : List Str) (dep : List (Str × List Str)) : List Str :=
  nodes.filter fun n => (alookup (tsBuilt nodes dep).1 n).getD 0 = 0

/-- The loop fuel `topo_sort` supplies. -/
def tsFuel (nodes : List Str) (dep : List (Str × List Str)) : Nat :=
  nodes.length + (dep.map fun kv => kv.2.length).sum + 1

/-- The emitted order of `topo_sort`, before the length check. -/
def tsRes (nodes : List Str) (dep : List (Str × List Str)) : List Str :=
  kahnLoop (tsOut nodes dep) (tsFuel nodes dep) (tsBuilt nodes dep).1
    (tsQueue0 nodes dep) []

theorem topo_sort_eq (nodes : List Str) (dep : List (Str × List Str)) :
    topo_sort nodes dep =
      if (tsRes nodes dep).length ≠ nodes.length then
        .error "cycle detected in step dependency graph".data
      else .ok (tsRes nodes dep) := rfl

theorem tsRes_spec (nodes : List Str) (dep : List (Str × List Str))
    (hnodup : nodes.Nodup) (hkeys : dep.map Prod.fst = nodes) :
    (tsRes nodes dep).Nodup ∧
    (∀ m ∈ tsRes nodes dep, m ∈ nodes) ∧
    (∀ p m s2, tsRes nodes dep = p ++ m :: s2 →
      ∀ d ∈ cdeps nodes dep m, d ∈ p) ∧
    (∀ m ∈ nodes, cnt nodes dep (tsRes nodes dep) m = 0 →
      m ∈ tsRes nodes dep) := by
  unfold tsRes tsOut tsQueue0 tsFuel tsBuilt tsIndeg0
  set b := buildIndegOut nodes dep (nodes.map fun n => (n, (0 : Nat))) []
    with hbdef
  obtain ⟨b1, b2, b3⟩ :=
    buildIndegOut_spec nodes dep (nodes.map fun n => (n, (0 : Nat))) []
  rw [← hbdef] at b1 b2 b3
  have hdepnd : (dep.map Prod.fst).Nodup := by
    rw [hkeys]
    exact hnodup
  have hkeys1 : b.1.map Prod.fst = nodes := by
    rw [b1, indeg0_keys]
  have hlook : ∀ m ∈ nodes,
      (alookup b.1 m).getD 0 = (cdeps nodes dep m).length := by
    intro m hm
    rw [b2 m, alookup_const_zero, if_pos hm, Option.map_some',
      Option.getD_some, contribI_eq nodes dep hdepnd m]
    omega
  have hOG : ∀ d m,
      ((alookup (b.2.map fun kv => (kv.1, sortStrs kv.2)) d).getD []).count m =
      (cdeps nodes dep m).count d := by
    intro d m
    rw [alookup_map_val]
    have h3 := b3 d m
    rw [contribO_eq nodes dep hdepnd d m] at h3
    have h0 : ((alookup ([] : List (Str × List Str)) d).getD []).count m = 0 :=
      rfl
    rw [h0] at h3
    cases hl : alookup b.2 d with
    | none =>
      rw [hl] at h3
      simp only [Option.getD_none, List.count_nil] at h3
      simp only [Option.map_none', Option.getD_none, List.count_nil]
      omega
    | some w =>
      rw [hl] at h3
      simp only [Option.getD_some] at h3
      simp only [Option.map_some', Option.getD_some]
      rw [count_sortStrs]
      omega
  set q0 := nodes.filter fun n => (alookup b.1 n).getD 0 = 0 with hq0def
  have hI2 : ∀ m ∈ nodes, (alookup b.1 m).getD 0 = cnt nodes dep [] m := by
    intro m hm
    rw [hlook m hm, cnt_nil]
  have hmemq0 : ∀ m, m ∈ q0 ↔
      (m ∈ nodes ∧ (alookup b.1 m).getD 0 = 0) := by
    intro m
    rw [hq0def, List.mem_filter]
    constructor
    · intro ⟨h1, h2⟩
      exact ⟨h1, of_decide_eq_true h2⟩
    · intro ⟨h1, h2⟩
      exact ⟨h1, decide_eq_true h2⟩
  have hI3 : (([] : List Str) ++ q0).Nodup := by
    simp only [List.nil_append, hq0def]
    exact hnodup.filter _
  have hI4 : ∀ m ∈ ([] : List Str) ++ q0, m ∈ nodes := by
    intro m hm
    simp only [List.nil_append] at hm
    exact ((hmemq0 m).mp hm).1
  have hI5 : ∀ m ∈ nodes, cnt nodes dep [] m = 0 →
      m ∈ ([] : List Str) ++ q0 := by
    intro m hm hz
    simp only [List.nil_append]
    exact (hmemq0 m).mpr ⟨hm, by rw [hI2 m hm]; exact hz⟩
  have hI6 : ∀ m ∈ ([] : List Str) ++ q0, cnt nodes dep [] m = 0 := by
    intro m hm
    simp only [List.nil_append] at hm
    obtain ⟨h1, h2⟩ := (hmemq0 m).mp hm
    rw [← hI2 m h1]
    exact h2
  have hI7 : ∀ p m s2, ([] : List Str) = p ++ m :: s2 →
      ∀ d ∈ cdeps nodes dep m, d ∈ p := by
    intro p m s2 h
    exact absurd h (by simp)
  have hfuel : q0.length + sumVals b.1 <
      nodes.length + (dep.map fun kv => kv.2.length).sum + 1 := by
    have h1 : q0.length ≤ nodes.length := by
      rw [hq0def]
      exact List.length_filter_le _ _
    have h2 := buildIndegOut_sumVals nodes dep
      (nodes.map fun n => (n, (0 : Nat))) []
      (by rw [indeg0_keys]; exact hnodup)
    rw [← hbdef, sumVals_indeg0] at h2
    omega
  obtain ⟨c1, c2, c3, c4, _⟩ :=
    kahnLoop_spec nodes dep (b.2.map fun kv => (kv.1, sortStrs kv.2)) hnodup
      hkeys hOG (nodes.length + (dep.map fun kv => kv.2.length).sum + 1)
      b.1 q0 [] hkeys1 hI2 hI3 hI4 hI5 hI6 hI7 hfuel
  exact ⟨c1, c2, c3, c4⟩

/-- A linear order of the nodes that lists every (in-graph) dependency of a
node strictly before the node. -/
def IsTopoOrder (nodes : List Str) (dep : List (Str × List Str))
    (order : List Str) : Prop :=
  order.Perm nodes ∧
  ∀ p m s2, order = p ++ m :: s2 → ∀ d ∈ cdeps nodes dep m, d ∈ p

theorem topo_sort_correct (nodes : List Str) (dep : List (Str × List Str))
    (hnodup : nodes.Nodup) (hkeys : dep.map Prod.fst = nodes) :
    (∀ order, topo_sort nodes dep = .ok order →
      IsTopoOrder nodes dep order) ∧
    ((∃ order, IsTopoOrder nodes dep order) ↔
      (∃ order, topo_sort nodes dep = .ok order)) ∧
    ((¬ ∃ order, IsTopoOrder nodes dep order) →
      topo_sort nodes dep =
        .error "cycle detected in step dependency graph".data) := by
  obtain ⟨rN, rSub, rTopo, rComp⟩ := tsRes_spec nodes dep hnodup hkeys
  have heq := topo_sort_eq nodes dep
  have hok_topo : ∀ order, topo_sort nodes dep = .ok order →
      IsTopoOrder nodes dep order := by
    intro order hok
    rw [heq] at hok
    by_cases hlen : (tsRes nodes dep).length ≠ nodes.length
    · rw [if_pos hlen] at hok
      simp at hok
    · rw [if_neg hlen] at hok
      push_neg at hlen
      injection hok with hinj
      subst hinj
      constructor
      · have hsp := rN.subperm (fun x hx => rSub x hx)
        exact hsp.perm_of_length_le (by omega)
      · exact rTopo
  refine ⟨hok_topo, ⟨?_, ?_⟩, ?_⟩
  · rintro ⟨ord, hperm, htopo⟩
    have main : ∀ suf pre, ord = pre ++ suf →
        (∀ x ∈ pre, x ∈ tsRes nodes dep) →
        ∀ x ∈ suf, x ∈ tsRes nodes dep := by
      intro suf
      induction suf with
      | nil =>
        intro pre _ _ x hx
        simp at hx
      | cons m suf2 ih =>
        intro pre hsplit hpre x hx
        have hmres : m ∈ tsRes nodes dep := by
          have hdeps := htopo pre m suf2 hsplit
          have hmnodes : m ∈ nodes := by
            apply hperm.mem_iff.mp
            rw [hsplit]
            exact List.mem_append_right _ (List.mem_cons_self _ _)
          apply rComp m hmnodes
          apply (cnt_eq_zero_iff nodes dep (tsRes nodes dep) m).mpr
          intro d hd
          exact hpre d (hdeps d hd)
        rcases List.mem_cons.mp hx with hx | hx
        · rw [hx]
          exact hmres
        · refine ih (pre ++ [m]) ?_ ?_ x hx
          · rw [hsplit, List.append_assoc]
            rfl
          · intro y hy
            rcases List.mem_append.mp hy with hy | hy
            · exact hpre y hy
            · simp at hy
              rw [hy]
              exact hmres
    have hall : ∀ x ∈ nodes, x ∈ tsRes nodes dep := by
      intro x hxn
      exact main ord [] rfl (by intro y hy; simp at hy) x
        (hperm.mem_iff.mpr hxn)
    have hlen : (tsRes nodes dep).length = nodes.length := by
      have h1 := (rN.subperm (fun x hx => rSub x hx)).length_le
      have h2 := (hnodup.subperm (fun x hx => hall x hx)).length_le
      omega
    refine ⟨tsRes nodes dep, ?_⟩
    rw [heq, if_neg (by omega)]
  · rintro ⟨order, hok2⟩
    exact ⟨order, hok_topo order hok2⟩
  · intro hno
    rw [heq]
    by_cases hlen : (tsRes nodes dep).length ≠ nodes.length
    · rw [if_pos hlen]
    · exfalso
      apply hno
      exact ⟨tsRes nodes dep,
        hok_topo (tsRes nodes dep) (by rw [heq, if_neg hlen])⟩

theorem strLt_asymm : ∀ {a b : Str}, strLt a b = true → strLt b a = false := by
  intro a
  induction a with
  | nil =>
    intro b h
    cases b with
    | nil => simp [strLt] at h
    | cons y ys => rfl
  | cons x xs ih =>
    intro b h
    cases b with
    | nil => simp [strLt] at h
    | cons y ys =>
      rw [strLt] at h ⊢
      by_cases hxy : x = y
      · rw [if_pos hxy] at h
        rw [if_pos hxy.symm]
        exact ih h
      · rw [if_neg hxy] at h
        rw [if_neg (fun hh => hxy hh.symm)]
        exact decide_eq_false (lt_asymm (of_decide_eq_true h))

theorem strLt_trans : ∀ {a b c : Str}, strLt a b = true → strLt b c = true →
    strLt a c = true := by
  intro a
  induction a with
  | nil =>
    intro b c hab hbc
    cases c with
    | nil =>
      cases b with
      | nil => simp [strLt] at hbc
      | cons y ys => simp [strLt] at hbc
    | cons z zs => rfl
  | cons x xs ih =>
    intro b c hab hbc
    cases b with
    | nil => simp [strLt] at hab
    | cons y ys =>
      cases c with
      | nil => simp [strLt] at hbc
      | cons z zs =>
        rw [strLt] at hab hbc ⊢
        by_cases hxy : x = y
        · rw [if_pos hxy] at hab
          by_cases hyz : y = z
          · rw [if_pos hyz] at hbc
            rw [if_pos (hxy.trans hyz)]
            exact ih hab hbc
          · rw [if_neg hyz] at hbc
            rw [if_neg (fun (hh : x = z) => hyz (hxy.symm.trans hh))]
            rw [hxy]
            exact hbc
        · rw [if_neg hxy] at hab
          have hltxy : x < y := of_decide_eq_true hab
          by_cases hyz : y = z
          · rw [if_neg (fun (hh : x = z) => hxy (hh.trans hyz.symm))]
            exact decide_eq_true (hyz ▸ hltxy)
          · rw [if_neg hyz] at hbc
            have hxz : x < z := lt_trans hltxy (of_decide_eq_true hbc)
            rw [if_neg (fun (hh : x = z) => absurd (hh ▸ hxz) (lt_irrefl z))]
            exact decide_eq_true hxz

theorem strLt_connex : ∀ {a b : Str}, strLt a b = false → strLt b a = false →
    a = b := by
  intro a
  induction a with
  | nil =>
    intro b hab _
    cases b with
    | nil => rfl
    | cons y ys => simp [strLt] at hab
  | cons x xs ih =>
    intro b hab hba
    cases b with
    | nil => simp [strLt] at hba
    | cons y ys =>
      rw [strLt] at hab hba
      by_cases hxy : x = y
      · rw [if_pos hxy] at hab
        rw [if_pos hxy.symm] at hba
        rw [hxy, ih hab hba]
      · rw [if_neg hxy] at hab
        rw [if_neg (fun hh => hxy hh.symm)] at hba
        exact absurd
          (le_antisymm (le_of_not_lt (of_decide_eq_false hba))
            (le_of_not_lt (of_decide_eq_false hab))) hxy

theorem strLe_total_of_not {x y : Str} (h : ¬ strLe x y = true) :
    strLe y x = true := by
  unfold strLe at h ⊢
  have h2 : strLt y x = true := by
    revert h
    cases strLt y x <;> simp
  rw [strLt_asymm h2]
  rfl

theorem strLe_trans {a b c : Str} (h1 : strLe a b = true)
    (h2 : strLe b c = true) : strLe a c = true := by
  unfold strLe at h1 h2 ⊢
  have hba : strLt b a = false := by
    revert h1
    cases strLt b a <;> simp
  have hcb : strLt c b = false := by
    revert h2
    cases strLt c b <;> simp
  have hca : strLt c a = false := by
    by_cases hca : strLt c a = true
    · by_cases hab : strLt a b = true
      · have h3 := strLt_trans hca hab
        rw [h3] at hcb
        exact absurd hcb (by simp)
      · have hab2 : strLt a b = false := by
          revert hab
          cases strLt a b <;> simp
        have heq : a = b := strLt_connex hab2 hba
        rw [heq] at hca
        rw [hca] at hcb
        exact absurd hcb (by simp)
    · revert hca
      cases strLt c a <;> simp
  rw [hca]
  rfl

theorem mem_insSortInsert {x z : Str} {l : List Str} :
    z ∈ insSortInsert x l ↔ z ∈ x :: l := by
  constructor
  · intro h
    exact mem_of_count_pos
      (by rw [← count_insSortInsert]; exact count_pos_of_mem h)
  · intro h
    exact mem_of_count_pos
      (by rw [count_insSortInsert]; exact count_pos_of_mem h)

theorem pairwise_insSortInsert (x : Str) (l : List Str)
    (h : l.Pairwise fun a b => strLe a b = true) :
    (insSortInsert x l).Pairwise fun a b => strLe a b = true := by
  induction l with
  | nil => simp [insSortInsert]
  | cons y ys ih =>
    rw [List.pairwise_cons] at h
    obtain ⟨hy, hys⟩ := h
    rw [insSortInsert]
    by_cases hle : strLe x y = true
    · rw [if_pos hle]
      apply List.pairwise_cons.mpr
      refine ⟨?_, List.pairwise_cons.mpr ⟨hy, hys⟩⟩
      intro z hz
      rcases List.mem_cons.mp hz with hz | hz
      · rw [hz]
        exact hle
      · exact strLe_trans hle (hy z hz)
    · rw [if_neg hle]
      apply List.pairwise_cons.mpr
      refine ⟨?_, ih hys⟩
      intro z hz
      rcases List.mem_cons.mp (mem_insSortInsert.mp hz) with hz | hz
      · rw [hz]
        exact strLe_total_of_not hle
      · exact hy z hz

theorem sortStrs_pairwise (xs : List Str) :
    (sortStrs xs).Pairwise fun a b => strLe a b = true := by
  induction xs with
  | nil => exact List.Pairwise.nil
  | cons x xs ih => exact pairwise_insSortInsert x (sortStrs xs) ih

theorem processNexts_ready_sublist (ms : List Str) :
    ∀ indeg : List (Str × Nat), (processNexts ms indeg).2.Sublist ms := by
  induction ms with
  | nil =>
    intro indeg
    exact List.Sublist.refl _
  | cons m ms ih =>
    intro indeg
    rw [processNexts]
    simp only
    by_cases hv : (alookup indeg m).getD 0 - 1 = 0
    · rw [if_pos hv]
      exact (ih _).cons₂ m
    · rw [if_neg hv]
      exact (ih _).cons m

end Planner

/-- C5: for every dependency graph handed to the planner (distinct node ids,
one `depends_on` entry per node), `topo_sort` is a pure function whose result
is fully determined by its input; when it returns an order, that order is a
permutation of the nodes listing every in-graph dependency strictly before
its dependent; it returns some order exactly when such a topological order
exists, and otherwise returns the `cycle detected` error. Ties are broken
alphabetically: every adjacency list is sorted with `sortStrs` (whose output
is pairwise `strLe`-ordered) and each ready frontier appended to the queue is
an order-preserving selection from that sorted list. For the three-step chain
`login → createOrder → fetchOrder` the planner produces
`topo_order = [login, createOrder, fetchOrder]` and
`levels = [[login], [createOrder], [fetchOrder]]`. -/
theorem topo_sort_deterministic_and_chain :
    (∀ (nodes : List Str) (dep : List (Str × List Str)),
      nodes.Nodup → dep.map Prod.fst = nodes →
      ((∀ order, Planner.topo_sort nodes dep = .ok order →
          Planner.IsTopoOrder nodes dep order) ∧
       ((∃ order, Planner.IsTopoOrder nodes dep order) ↔
          (∃ order, Planner.topo_sort nodes dep = .ok order)) ∧
       ((¬ ∃ order, Planner.IsTopoOrder nodes dep order) →
          Planner.topo_sort nodes dep =
            .error "cycle detected in step dependency graph".data))) ∧
    (∀ xs, (Planner.sortStrs xs).Pairwise fun a b =>
      Planner.strLe a b = true) ∧
    (∀ (ms : List Str) (indeg : List (Str × Nat)),
      ((Planner.processNexts ms indeg).2).Sublist ms) ∧
    (Planner.build_step_dependency_graph chainWorkflow
        (Planner.scan_workflow_deps chainWorkflow) =
      .ok ⟨[("createOrder".data, ["login".data]),
            ("fetchOrder".data, ["createOrder".data]),
            ("login".data, [])],
           [["login".data], ["createOrder".data], ["fetchOrder".data]],
           ["login".data, "createOrder".data, "fetchOrder".data]⟩) := by
  refine ⟨?_, ?_, ?_, ?_⟩
  · intro nodes dep hnd hkeys
    exact Planner.topo_sort_correct nodes dep hnd hkeys
  · intro xs
    exact Planner.sortStrs_pairwise xs
  · intro ms indeg
    exact Planner.processNexts_ready_sublist ms indeg
  · rw [Planner.build_step_dependency_graph, chainWorkflow_scan]
    rfl

/-- Witness: the two-node chain `a → b` has distinct node ids and matching
keys, `topo_sort` returns `[a, b]`, and the claim theorem therefore yields
that `[a, b]` is a topological order of that graph. -/
theorem topo_sort_deterministic_and_chain_witness :
    Planner.IsTopoOrder ["a".data, "b".data]
      [("a".data, []), ("b".data, ["a".data])] ["a".data, "b".data] :=
  (topo_sort_deterministic_and_chain.1 ["a".data, "b".data]
    [("a".data, []), ("b".data, ["a".data])] (by decide) (by decide)).1
    ["a".data, "b".data] rfl

namespace Store

/-- `run_steps.status` values. -/
inductive StepStatus where
  | pending
  | running
  | succeeded
  | failed
  | skipped
  deriving DecidableEq, Repr

/-- `status IN ('succeeded', 'failed', 'skipped')`. -/
def isTerminal : StepStatus → Bool
  | .succeeded => true
  | .failed => true
  | .skipped => true
  | _ => false

/-- One `run_steps` row of a run (id, status, error payload). -/
structure StepRow where
  step_id : Str
  status : StepStatus
  error : Option Str
  deriving DecidableEq, Repr

/-- The first UPDATE of `mark_step_failed`: set the named step failed with
the error. -/
def markFailedRows (rows : List StepRow) (sid : Str) (err : Str) :
    List StepRow :=
  rows.map fun r =>
    if r.step_id = sid then { r with status := .failed, error := some err }
    else r

/-- The CTE's `NOT EXISTS` subquery: some row of that step is terminal. -/
def hasTerminalRow (rows : List StepRow) (sid : Str) : Bool :=
  rows.any fun r => r.step_id == sid && isTerminal r.status

/-- The non-recursive arm of `to_skip`: targets of edges out of the failed
step (no status filter), deduplicated as the `UNION` does. -/
def skipBase (edges : List (Str × Str)) (sid : Str) : List Str :=
  edges.foldl
    (fun acc e =>
      if e.1 = sid ∧ ¬ acc.contains e.2 = true then acc ++ [e.2] else acc) []

/-- One evaluation of the recursive arm against the set `s`: add each edge
target reached from `s` whose step has no terminal row. -/
def skipRound (rows : List StepRow) (edges : List (Str × Str))
    (s : List Str) : List Str :=
  edges.foldl
    (fun acc e =>
      if s.contains e.1 ∧ hasTerminalRow rows e.2 = false ∧
          ¬ acc.contains e.2 = true then acc ++ [e.2]
      else acc) s

/-- Iterate the recursive arm to its fixpoint (the fuel passed by
`to_skip` always suffices). -/
def toSkipIter (rows : List StepRow) (edges : List (Str × Str)) :
    Nat → List Str → List Str
  | 0, s => s
  | fuel + 1, s =>
    let s2 := skipRound rows edges s
    if s2.length = s.length then s else toSkipIter rows edges fuel s2

/-- The `WITH RECURSIVE to_skip` set. -/
def to_skip (rows : List StepRow) (edges : List (Str × Str)) (sid : Str) :
    List Str :=
  toSkipIter rows edges (edges.length + 1) (skipBase edges sid)

/-- `mark_step_failed` as a transform of the run's step rows: the named step
is failed with the error, then every still-`pending` row in `to_skip`
(computed against the updated table) is skipped with the same error. -/
def mark_step_failed (rows : List StepRow) (edges : List (Str × Str))
    (sid : Str) (err : Str) : List StepRow :=
  let rows1 := markFailedRows rows sid err
  let skip := to_skip rows1 edges sid
  rows1.map fun r =>
    if skip.contains r.step_id ∧ r.status = .pending then
      { r with status := .skipped, error := some err }
    else r

/-- Transitive reachability along `run_step_edges` (the spec's
"descendant"). -/
inductive Reach (edges : List (Str × Str)) : Str → Str → Prop where
  | base {a b : Str} : (a, b) ∈ edges → Reach edges a b
  | step {a b c : Str} : Reach edges a b → (b, c) ∈ edges → Reach edges a c

/-- The least set containing the failed step's direct edge targets
(unfiltered) and closed under following edges into steps with no terminal
row — the semantics of the recursive CTE. -/
inductive SkipSet (rows : List StepRow) (edges : List (Str × Str))
    (sid : Str) : Str → Prop where
  | base {t : Str} : (sid, t) ∈ edges → SkipSet rows edges sid t
  | step {t u : Str} : SkipSet rows edges sid t → (t, u) ∈ edges →
      hasTerminalRow rows u = false → SkipSet rows edges sid u

end Store

namespace Store

theorem skipRound_go_append (rows : List StepRow) (s : List Str) :
    ∀ (es : List (Str × Str)) (acc : List Str),
    ∃ t, es.foldl
      (fun acc e =>
        if s.contains e.1 ∧ hasTerminalRow rows e.2 = false ∧
            ¬ acc.contains e.2 = true then acc ++ [e.2]
        else acc) acc = acc ++ t := by
  intro es
  induction es with
  | nil =>
    intro acc
    exact ⟨[], by simp⟩
  | cons e es ih =>
    intro acc
    rw [List.foldl_cons]
    by_cases hc : s.contains e.1 ∧ hasTerminalRow rows e.2 = false ∧
        ¬ acc.contains e.2 = true
    · rw [if_pos hc]
      obtain ⟨t2, ht2⟩ := ih (acc ++ [e.2])
      exact ⟨[e.2] ++ t2, by rw [ht2, List.append_assoc]⟩
    · rw [if_neg hc]
      exact ih acc

theorem skipRound_go_mem (rows : List StepRow) (s : List Str) :
    ∀ (es : List (Str × Str)) (acc : List Str) (m : Str),
    (m ∈ es.foldl
      (fun acc e =>
        if s.contains e.1 ∧ hasTerminalRow rows e.2 = false ∧
            ¬ acc.contains e.2 = true then acc ++ [e.2]
        else acc) acc) ↔
    (m ∈ acc ∨ ∃ e ∈ es, e.1 ∈ s ∧ e.2 = m ∧
      hasTerminalRow rows m = false) := by
  intro es
  induction es with
  | nil =>
    intro acc m
    simp
  | cons e es ih =>
    intro acc m
    rw [List.foldl_cons]
    by_cases hc : s.contains e.1 ∧ hasTerminalRow rows e.2 = false ∧
        ¬ acc.contains e.2 = true
    · rw [if_pos hc, ih]
      constructor
      · rintro (hm | hm)
        · rcases List.mem_append.mp hm with hm | hm
          · exact Or.inl hm
          · simp only [List.mem_singleton] at hm
            refine Or.inr ⟨e, List.mem_cons_self _ _,
              (Planner.str_contains_iff s e.1).mp hc.1, hm.symm, ?_⟩
            rw [hm]
            exact hc.2.1
        · obtain ⟨e2, he2, h1, h2, h3⟩ := hm
          exact Or.inr ⟨e2, List.mem_cons_of_mem _ he2, h1, h2, h3⟩
      · rintro (hm | hm)
        · exact Or.inl (List.mem_append_left _ hm)
        · obtain ⟨e2, he2, h1, h2, h3⟩ := hm
          rcases List.mem_cons.mp he2 with he2 | he2
          · subst he2
            exact Or.inl (List.mem_append_right _
              (by simp only [List.mem_singleton]; exact h2.symm))
          · exact Or.inr ⟨e2, he2, h1, h2, h3⟩
    · rw [if_neg hc, ih]
      push_neg at hc
      constructor
      · rintro (hm | hm)
        · exact Or.inl hm
        · obtain ⟨e2, he2, h1, h2, h3⟩ := hm
          exact Or.inr ⟨e2, List.mem_cons_of_mem _ he2, h1, h2, h3⟩
      · rintro (hm | hm)
        · exact Or.inl hm
        · obtain ⟨e2, he2, h1, h2, h3⟩ := hm
          rcases List.mem_cons.mp he2 with he2 | he2
          · subst he2
            have hacc := hc ((Planner.str_contains_iff s e2.1).mpr h1)
              (by rw [h2]; exact h3)
            exact Or.inl (h2 ▸ (Planner.str_contains_iff acc e2.2).mp hacc)
          · exact Or.inr ⟨e2, he2, h1, h2, h3⟩

end Store

namespace Store

theorem nodup_append_singleton {acc : List Str} {x : Str}
    (hacc : acc.Nodup) (hx : x ∉ acc) : (acc ++ [x]).Nodup := by
  rw [List.nodup_append]
  refine ⟨hacc, List.nodup_singleton x, ?_⟩
  intro a ha hax
  simp only [List.mem_singleton] at hax
  rw [hax] at ha
  exact hx ha

theorem skipRound_go_nodup (rows : List StepRow) (s : List Str) :
    ∀ (es : List (Str × Str)) (acc : List Str), acc.Nodup →
    (es.foldl
      (fun acc e =>
        if s.contains e.1 ∧ hasTerminalRow rows e.2 = false ∧
            ¬ acc.contains e.2 = true then acc ++ [e.2]
        else acc) acc).Nodup := by
  intro es
  induction es with
  | nil =>
    intro acc hacc
    exact hacc
  | cons e es ih =>
    intro acc hacc
    rw [List.foldl_cons]
    by_cases hc : s.contains e.1 ∧ hasTerminalRow rows e.2 = false ∧
        ¬ acc.contains e.2 = true
    · rw [if_pos hc]
      refine ih _ (nodup_append_singleton hacc ?_)
      intro hmem
      exact hc.2.2 ((Planner.str_contains_iff acc e.2).mpr hmem)
    · rw [if_neg hc]
      exact ih acc hacc

theorem skipRound_go_subset (rows : List StepRow) (s : List Str)
    (P : Str → Prop) :
    ∀ (es : List (Str × Str)) (acc : List Str), (∀ x ∈ acc, P x) →
    (∀ e ∈ es, P e.2) →
    ∀ x ∈ es.foldl
      (fun acc e =>
        if s.contains e.1 ∧ hasTerminalRow rows e.2 = false ∧
            ¬ acc.contains e.2 = true then acc ++ [e.2]
        else acc) acc, P x := by
  intro es
  induction es with
  | nil =>
    intro acc hacc _ x hx
    exact hacc x hx
  | cons e es ih =>
    intro acc hacc hes x hx
    rw [List.foldl_cons] at hx
    by_cases hc : s.contains e.1 ∧ hasTerminalRow rows e.2 = false ∧
        ¬ acc.contains e.2 = true
    · rw [if_pos hc] at hx
      refine ih _ ?_ (fun e2 he2 => hes e2 (List.mem_cons_of_mem _ he2)) x hx
      intro y hy
      rcases List.mem_append.mp hy with hy | hy
      · exact hacc y hy
      · simp only [List.mem_singleton] at hy
        rw [hy]
        exact hes e (List.mem_cons_self _ _)
    · rw [if_neg hc] at hx
      exact ih acc hacc (fun e2 he2 => hes e2 (List.mem_cons_of_mem _ he2)) x hx

theorem skipRound_append (rows : List StepRow) (edges : List (Str × Str))
    (s : List Str) : ∃ t, skipRound rows edges s = s ++ t :=
  skipRound_go_append rows s edges s

theorem skipRound_mem (rows : List StepRow) (edges : List (Str × Str))
    (s : List Str) (m : Str) :
    m ∈ skipRound rows edges s ↔
    (m ∈ s ∨ ∃ e ∈ edges, e.1 ∈ s ∧ e.2 = m ∧
      hasTerminalRow rows m = false) :=
  skipRound_go_mem rows s edges s m

theorem skipRound_nodup (rows : List StepRow) (edges : List (Str × Str))
    {s : List Str} (hs : s.Nodup) : (skipRound rows edges s).Nodup :=
  skipRound_go_nodup rows s edges s hs

theorem skipBase_go_mem (sid : Str) :
    ∀ (es : List (Str × Str)) (acc : List Str) (m : Str),
    (m ∈ es.foldl
      (fun acc e =>
        if e.1 = sid ∧ ¬ acc.contains e.2 = true then acc ++ [e.2]
        else acc) acc) ↔
    (m ∈ acc ∨ ∃ e ∈ es, e.1 = sid ∧ e.2 = m) := by
  intro es
  induction es with
  | nil =>
    intro acc m
    simp
  | cons e es ih =>
    intro acc m
    rw [List.foldl_cons]
    by_cases hc : e.1 = sid ∧ ¬ acc.contains e.2 = true
    · rw [if_pos hc, ih]
      constructor
      · rintro (hm | hm)
        · rcases List.mem_append.mp hm with hm | hm
          · exact Or.inl hm
          · simp only [List.mem_singleton] at hm
            exact Or.inr ⟨e, List.mem_cons_self _ _, hc.1, hm.symm⟩
        · obtain ⟨e2, he2, h1, h2⟩ := hm
          exact Or.inr ⟨e2, List.mem_cons_of_mem _ he2, h1, h2⟩
      · rintro (hm | hm)
        · exact Or.inl (List.mem_append_left _ hm)
        · obtain ⟨e2, he2, h1, h2⟩ := hm
          rcases List.mem_cons.mp he2 with he2 | he2
          · subst he2
            exact Or.inl (List.mem_append_right _
              (by simp only [List.mem_singleton]; exact h2.symm))
          · exact Or.inr ⟨e2, he2, h1, h2⟩
    · rw [if_neg hc, ih]
      push_neg at hc
      constructor
      · rintro (hm | hm)
        · exact Or.inl hm
        · obtain ⟨e2, he2, h1, h2⟩ := hm
          exact Or.inr ⟨e2, List.mem_cons_of_mem _ he2, h1, h2⟩
      · rintro (hm | hm)
        · exact Or.inl hm
        · obtain ⟨e2, he2, h1, h2⟩ := hm
          rcases List.mem_cons.mp he2 with he2 | he2
          · subst he2
            have hacc := hc h1
            exact Or.inl (h2 ▸ (Planner.str_contains_iff acc e2.2).mp hacc)
          · exact Or.inr ⟨e2, he2, h1, h2⟩

theorem skipBase_go_nodup (sid : Str) :
    ∀ (es : List (Str × Str)) (acc : List Str), acc.Nodup →
    (es.foldl
      (fun acc e =>
        if e.1 = sid ∧ ¬ acc.contains e.2 = true then acc ++ [e.2]
        else acc) acc).Nodup := by
  intro es
  induction es with
  | nil =>
    intro acc hacc
    exact hacc
  | cons e es ih =>
    intro acc hacc
    rw [List.foldl_cons]
    by_cases hc : e.1 = sid ∧ ¬ acc.contains e.2 = true
    · rw [if_pos hc]
      refine ih _ (nodup_append_singleton hacc ?_)
      intro hmem
      exact hc.2 ((Planner.str_contains_iff acc e.2).mpr hmem)
    · rw [if_neg hc]
      exact ih acc hacc

theorem skipBase_go_subset (sid : Str) (P : Str → Prop) :
    ∀ (es : List (Str × Str)) (acc : List Str), (∀ x ∈ acc, P x) →
    (∀ e ∈ es, P e.2) →
    ∀ x ∈ es.foldl
      (fun acc e =>
        if e.1 = sid ∧ ¬ acc.contains e.2 = true then acc ++ [e.2]
        else acc) acc, P x := by
  intro es
  induction es with
  | nil =>
    intro acc hacc _ x hx
    exact hacc x hx
  | cons e es ih =>
    intro acc hacc hes x hx
    rw [List.foldl_cons] at hx
    by_cases hc : e.1 = sid ∧ ¬ acc.contains e.2 = true
    · rw [if_pos hc] at hx
      refine ih _ ?_ (fun e2 he2 => hes e2 (List.mem_cons_of_mem _ he2)) x hx
      intro y hy
      rcases List.mem_append.mp hy with hy | hy
      · exact hacc y hy
      · simp only [List.mem_singleton] at hy
        rw [hy]
        exact hes e (List.mem_cons_self _ _)
    · rw [if_neg hc] at hx
      exact ih acc hacc (fun e2 he2 => hes e2 (List.mem_cons_of_mem _ he2)) x hx

theorem skipBase_mem (edges : List (Str × Str)) (sid : Str) (m : Str) :
    m ∈ skipBase edges sid ↔ ∃ e ∈ edges, e.1 = sid ∧ e.2 = m := by
  rw [skipBase, skipBase_go_mem]
  simp

theorem skipBase_nodup (edges : List (Str × Str)) (sid : Str) :
    (skipBase edges sid).Nodup :=
  skipBase_go_nodup sid edges [] List.nodup_nil

theorem skipBase_subset (edges : List (Str × Str)) (sid : Str) :
    ∀ x ∈ skipBase edges sid, x ∈ edges.map Prod.snd := by
  refine skipBase_go_subset sid (fun x => x ∈ edges.map Prod.snd) edges []
    (by intro x hx; simp at hx) ?_
  intro e he
  exact List.mem_map.mpr ⟨e, he, rfl⟩

end Store

namespace Store

theorem toSkipIter_succ (rows : List StepRow) (edges : List (Str × Str))
    (fuel : Nat) (s : List Str) :
    toSkipIter rows edges (fuel + 1) s =
      if (skipRound rows edges s).length = s.length then s
      else toSkipIter rows edges fuel (skipRound rows edges s) := rfl

theorem toSkipIter_append (rows : List StepRow) (edges : List (Str × Str)) :
    ∀ (fuel : Nat) (s : List Str),
    ∃ t, toSkipIter rows edges fuel s = s ++ t := by
  intro fuel
  induction fuel with
  | zero =>
    intro s
    exact ⟨[], by simp [toSkipIter]⟩
  | succ fuel ih =>
    intro s
    rw [toSkipIter_succ]
    by_cases hl : (skipRound rows edges s).length = s.length
    · rw [if_pos hl]
      exact ⟨[], by simp⟩
    · rw [if_neg hl]
      obtain ⟨t1, ht1⟩ := skipRound_append rows edges s
      obtain ⟨t2, ht2⟩ := ih (skipRound rows edges s)
      exact ⟨t1 ++ t2, by rw [ht2, ht1, List.append_assoc]⟩

theorem toSkipIter_sound (rows : List StepRow) (edges : List (Str × Str))
    (sid : Str) :
    ∀ (fuel : Nat) (s : List Str),
    (∀ x ∈ s, SkipSet rows edges sid x) →
    ∀ x ∈ toSkipIter rows edges fuel s, SkipSet rows edges sid x := by
  intro fuel
  induction fuel with
  | zero =>
    intro s hs x hx
    exact hs x hx
  | succ fuel ih =>
    intro s hs x hx
    rw [toSkipIter_succ] at hx
    by_cases hl : (skipRound rows edges s).length = s.length
    · rw [if_pos hl] at hx
      exact hs x hx
    · rw [if_neg hl] at hx
      refine ih (skipRound rows edges s) ?_ x hx
      intro y hy
      rcases (skipRound_mem rows edges s y).mp hy with hy | hy
      · exact hs y hy
      · obtain ⟨e, he, h1, h2, h3⟩ := hy
        exact .step (hs e.1 h1) (by rw [← h2]; exact he) h3

theorem toSkipIter_fix (rows : List StepRow) (edges : List (Str × Str)) :
    ∀ (fuel : Nat) (s : List Str), s.Nodup →
    (∀ x ∈ s, x ∈ edges.map Prod.snd) →
    edges.length < fuel + s.length →
    skipRound rows edges (toSkipIter rows edges fuel s) =
      toSkipIter rows edges fuel s := by
  intro fuel
  induction fuel with
  | zero =>
    intro s hnd hsub hlen
    have h1 := (hnd.subperm (fun x hx => hsub x hx)).length_le
    rw [List.length_map] at h1
    omega
  | succ fuel ih =>
    intro s hnd hsub hlen
    rw [toSkipIter_succ]
    by_cases hl : (skipRound rows edges s).length = s.length
    · rw [if_pos hl]
      obtain ⟨t, ht⟩ := skipRound_append rows edges s
      have hlt : t.length = 0 := by
        have := congrArg List.length ht
        rw [List.length_append] at this
        omega
      rw [ht, List.length_eq_zero.mp hlt, List.append_nil]
    · rw [if_neg hl]
      obtain ⟨t, ht⟩ := skipRound_append rows edges s
      refine ih (skipRound rows edges s) (skipRound_nodup rows edges hnd)
        ?_ ?_
      · refine skipRound_go_subset rows s
          (fun x => x ∈ edges.map Prod.snd) edges s hsub ?_
        intro e he
        exact List.mem_map.mpr ⟨e, he, rfl⟩
      · have hgrow : s.length < (skipRound rows edges s).length := by
          have := congrArg List.length ht
          rw [List.length_append] at this
          rcases Nat.eq_zero_or_pos t.length with hz | hp
          · exfalso
            apply hl
            omega
          · omega
        omega

theorem to_skip_iff (rows : List StepRow) (edges : List (Str × Str))
    (sid : Str) (m : Str) :
    m ∈ to_skip rows edges sid ↔ SkipSet rows edges sid m := by
  constructor
  · intro hm
    refine toSkipIter_sound rows edges sid (edges.length + 1)
      (skipBase edges sid) ?_ m hm
    intro y hy
    obtain ⟨e, he, h1, h2⟩ := (skipBase_mem edges sid y).mp hy
    refine .base ?_
    have : e = (sid, y) := by
      obtain ⟨e1, e2⟩ := e
      simp only at h1 h2
      rw [h1, h2]
    rw [← this]
    exact he
  · intro hm
    induction hm with
    | base hbase =>
      obtain ⟨t2, ht2⟩ := toSkipIter_append rows edges (edges.length + 1)
        (skipBase edges sid)
      rw [to_skip, ht2]
      refine List.mem_append_left _ ?_
      exact (skipBase_mem edges sid _).mpr ⟨_, hbase, rfl, rfl⟩
    | step hset hedge hterm ih =>
      have hfix := toSkipIter_fix rows edges (edges.length + 1)
        (skipBase edges sid) (skipBase_nodup edges sid)
        (skipBase_subset edges sid) (by omega)
      rw [to_skip] at ih ⊢
      rw [← hfix]
      refine (skipRound_mem rows edges _ _).mpr (Or.inr ?_)
      exact ⟨_, hedge, ih, rfl, hterm⟩

end Store

theorem map_congr_fn {α β : Type} (l : List α) (f g : α → β)
    (h : ∀ a ∈ l, f a = g a) : l.map f = l.map g := by
  induction l with
  | nil => rfl
  | cons x xs ih =>
    simp only [List.map_cons]
    rw [h x (List.mem_cons_self _ _),
      ih (fun a ha => h a (List.mem_cons_of_mem _ ha))]

/-- C2 (amended): `mark_step_failed` sets the named step's row to `failed`
with the error; it then sets to `skipped` (with the same error) exactly the
still-`pending` rows whose step id lies in the recursive CTE's set, and that
set is precisely the least set containing the failed step's direct edge
targets (with no status filter) and closed under following an edge out of a
member into a step with no terminal (`succeeded`/`failed`/`skipped`) row,
statuses being read after the step was marked failed. All other rows are
unchanged. It is not the set of all pending transitive descendants: the
traversal does not continue past a terminal step. -/
theorem mark_step_failed_skip_closure
    (rows : List Store.StepRow) (edges : List (Str × Str)) (sid err : Str) :
    (∀ m, m ∈ Store.to_skip (Store.markFailedRows rows sid err) edges sid ↔
      Store.SkipSet (Store.markFailedRows rows sid err) edges sid m) ∧
    Store.mark_step_failed rows edges sid err =
      rows.map (fun r =>
        if r.step_id = sid then
          { r with status := .failed, error := some err }
        else if (Store.to_skip (Store.markFailedRows rows sid err) edges
            sid).contains r.step_id ∧ r.status = .pending then
          { r with status := .skipped, error := some err }
        else r) := by
  refine ⟨fun m => Store.to_skip_iff _ edges sid m, ?_⟩
  show ((rows.map fun r =>
      if r.step_id = sid then { r with status := .failed, error := some err }
      else r).map fun r =>
        if (Store.to_skip (Store.markFailedRows rows sid err) edges
            sid).contains r.step_id ∧ r.status = .pending then
          { r with status := .skipped, error := some err }
        else r) = _
  rw [List.map_map]
  apply map_congr_fn
  intro r _
  simp only [Function.comp_apply]
  by_cases hid : r.step_id = sid
  · rw [if_pos hid, if_pos hid]
    rw [if_neg ?_]
    rintro ⟨_, hst⟩
    simp at hst
  · rw [if_neg hid, if_neg hid]

/-- C2 counterexample: in the chain `a → b → c → d` with `b` and `d` pending
and `c` already succeeded, `mark_step_failed` on `a` fails `a` and skips `b`,
but `d` — a pending transitive descendant of `a` along `run_step_edges` —
stays `pending`, because the recursive CTE does not traverse past the
terminal step `c`. -/
theorem mark_step_failed_deep_descendant_counterexample :
    Store.Reach [("a".data, "b".data), ("b".data, "c".data),
      ("c".data, "d".data)] "a".data "d".data ∧
    Store.mark_step_failed
      [⟨"a".data, .running, none⟩, ⟨"b".data, .pending, none⟩,
       ⟨"c".data, .succeeded, none⟩, ⟨"d".data, .pending, none⟩]
      [("a".data, "b".data), ("b".data, "c".data), ("c".data, "d".data)]
      "a".data "boom".data =
      [⟨"a".data, .failed, some "boom".data⟩,
       ⟨"b".data, .skipped, some "boom".data⟩,
       ⟨"c".data, .succeeded, none⟩,
       ⟨"d".data, .pending, none⟩] := by
  refine ⟨?_, ?_⟩
  · exact Store.Reach.step (b := "c".data)
      (Store.Reach.step (b := "b".data)
        (Store.Reach.base (by decide)) (by decide))
      (by decide)
  · rfl

namespace Exec

/-- Error payloads the worker attaches (the `json!({"type": ...})` tags). -/
inductive ErrV where
  | build (msg : Str)
  | policy (msg : Str)
  | store (msg : Str)
  | http (status : Nat)
  | network (msg : Str)
  deriving DecidableEq, Repr

/-- `worker::StepResult`. -/
inductive StepResult where
  | Succeeded (outputs : Str)
  | Retry (delay_ms : Int) (error : ErrV)
  | Failed (error : ErrV) (end_run : Bool)
  deriving DecidableEq, Repr

/-- The executor events relevant to a step attempt (`events::Event`),
including the `PolicyDenied` variant the events module defines. -/
inductive Event where
  | StepStarted (step_id : Str)
  | AttemptStarted (step_id : Str) (attempt_no : Int)
  | AttemptFinished (step_id : Str) (attempt_no : Int) (succeeded : Bool)
  | StepSucceeded (step_id : Str)
  | StepRetryScheduled (step_id : Str) (delay_ms : Int)
  | StepFailed (step_id : Str)
  | PolicyDenied (step_id : Str) (reason : Str)
  deriving DecidableEq, Repr

/-- The observable side effects of a step attempt, in program order. -/
inductive Action where
  | insertAttempt (request : Str)
  | httpSend (request : Str)
  | finishAttempt (succeeded : Bool)
  | computeOutputs
  | markStepSucceeded
  | scheduleRetry (delay_ms : Int)
  | markStepFailed (error : ErrV)
  | markRunFinished (failed : Bool)
  | emit (e : Event)
  deriving DecidableEq, Repr

/-- The outcomes of the calls `execute_step_attempt` makes, supplied as
oracles: request building, the policy gate's request and response paths, the
store insert, the HTTP send, criteria evaluation and the two failure
deciders. -/
structure Env where
  buildRequest : Except Str Str
  applyRequest : Str → Except Str Str
  insertAttempt : Except Str Int
  httpSend : Except Str Str
  applyResponse : Str → Except Str Str
  evaluateSuccess : Bool
  computeOutputs : Str
  decideFailure : StepResult
  decideNetworkFailure : StepResult

/-- `execute_step_attempt`, with its ordered side-effect trace. -/
def execute_step_attempt (env : Env) (step_id : Str) :
    StepResult × List Action :=
  match env.buildRequest with
  | .error e => (.Failed (.build e) true, [])
  | .ok req =>
    match env.applyRequest req with
    | .error e => (.Failed (.policy e) true, [])
    | .ok sanitized =>
      match env.insertAttempt with
      | .error e => (.Failed (.store e) true, [.insertAttempt sanitized])
      | .ok attempt_no =>
        let t0 : List Action :=
          [.insertAttempt sanitized,
           .emit (.AttemptStarted step_id attempt_no),
           .httpSend req]
        match env.httpSend with
        | .error _ =>
          (env.decideNetworkFailure,
           t0 ++ [.finishAttempt false,
                  .emit (.AttemptFinished step_id attempt_no false)])
        | .ok resp =>
          match env.applyResponse resp with
          | .error e =>
            (.Failed (.policy e) true,
             t0 ++ [.finishAttempt false,
                    .emit (.AttemptFinished step_id attempt_no false)])
          | .ok _ =>
            if env.evaluateSuccess then
              (.Succeeded env.computeOutputs,
               t0 ++ [.computeOutputs, .finishAttempt true])
            else
              (env.decideFailure, t0 ++ [.finishAttempt false])

/-- The store/event actions of `step_runner::apply_result`. -/
def apply_result_actions (res : StepResult) (step_id : Str) : List Action :=
  match res with
  | .Succeeded _ =>
    [.markStepSucceeded, .emit (.StepSucceeded step_id)]
  | .Retry d _ =>
    [.scheduleRetry d, .emit (.StepRetryScheduled step_id d)]
  | .Failed e endr =>
    [.markStepFailed e, .emit (.StepFailed step_id)] ++
      (if endr then [.markRunFinished true] else [])

/-- `step_runner::run_step`: StepStarted, the attempt, then `apply_result`. -/
def run_step (env : Env) (step_id : Str) : StepResult × List Action :=
  let r := execute_step_attempt env step_id
  (r.1, [.emit (.StepStarted step_id)] ++ r.2 ++
    apply_result_actions r.1 step_id)

end Exec

namespace Exec

theorem no_policy_denied_exec (env : Env) (sid2 sid reason : Str) :
    Action.emit (.PolicyDenied sid reason) ∉
      (execute_step_attempt env sid2).2 := by
  obtain ⟨hbr, har, hia, hhs, harr, hes, hco, hdf, hdn⟩ := env
  cases hbr with
  | error e => simp [execute_step_attempt]
  | ok req =>
    cases h2 : har req with
    | error e => simp [execute_step_attempt, h2]
    | ok s =>
      cases hia with
      | error e => simp [execute_step_attempt, h2]
      | ok no =>
        cases hhs with
        | error err => simp [execute_step_attempt, h2]
        | ok resp =>
          cases h3 : harr resp with
          | error e => simp [execute_step_attempt, h2, h3]
          | ok s2 =>
            cases hes <;> simp [execute_step_attempt, h2, h3]

theorem no_policy_denied_apply (res : StepResult) (sid2 sid reason : Str) :
    Action.emit (.PolicyDenied sid reason) ∉ apply_result_actions res sid2 := by
  cases res with
  | Succeeded o => simp [apply_result_actions]
  | Retry d e => simp [apply_result_actions]
  | Failed e endr => cases endr <;> simp [apply_result_actions]

end Exec

/-- C3: when the policy gate denies the built request, the worker returns
`Failed` with the policy error and `end_run = true` before inserting an
attempt row, before emitting `attempt.started`, and before any HTTP send;
`apply_result` then marks the step failed, emits `StepFailed`, and marks the
run failed. However, no `PolicyDenied` event is emitted — the `Event` variant
exists and the sinks handle it, but no execution path ever produces it, so
the spec's "deny → emit PolicyDenied" does not happen. -/
theorem policy_denied_no_attempt_no_event
    (env : Exec.Env) (step_id req e : Str)
    (hbuild : env.buildRequest = .ok req)
    (hdeny : env.applyRequest req = .error e) :
    (Exec.run_step env step_id).1 = .Failed (.policy e) true ∧
    (Exec.run_step env step_id).2 =
      [.emit (.StepStarted step_id),
       .markStepFailed (.policy e),
       .emit (.StepFailed step_id),
       .markRunFinished true] ∧
    (∀ q, Exec.Action.insertAttempt q ∉ (Exec.run_step env step_id).2) ∧
    (∀ q, Exec.Action.httpSend q ∉ (Exec.run_step env step_id).2) ∧
    (∀ sid no, Exec.Action.emit (.AttemptStarted sid no) ∉
      (Exec.run_step env step_id).2) ∧
    (∀ (env2 : Exec.Env) (sid2 sid reason : Str),
      Exec.Action.emit (.PolicyDenied sid reason) ∉
        (Exec.run_step env2 sid2).2) := by
  have hrun : Exec.run_step env step_id =
      (.Failed (.policy e) true,
       [.emit (.StepStarted step_id),
        .markStepFailed (.policy e),
        .emit (.StepFailed step_id),
        .markRunFinished true]) := by
    simp [Exec.run_step, Exec.execute_step_attempt, hbuild, hdeny,
      Exec.apply_result_actions]
  refine ⟨by rw [hrun], by rw [hrun], ?_, ?_, ?_, ?_⟩
  · intro q
    rw [hrun]
    simp
  · intro q
    rw [hrun]
    simp
  · intro sid no
    rw [hrun]
    simp
  · intro env2 sid2 sid reason hmem
    unfold Exec.run_step at hmem
    simp only [List.mem_append, List.mem_singleton] at hmem
    rcases hmem with (hmem | hmem) | hmem
    · simp at hmem
    · exact Exec.no_policy_denied_exec env2 sid2 sid reason hmem
    · exact Exec.no_policy_denied_apply _ sid2 sid reason hmem

/-- Witness: a concrete environment whose policy gate denies the request;
the worker's result is the policy failure with `end_run = true`. -/
theorem policy_denied_no_attempt_no_event_witness :
    (Exec.run_step
      ⟨.ok "R".data, fun _ => .error "denied: private IP literal".data,
       .ok 1, .ok "resp".data, fun r => .ok r, false, "".data,
       .Failed (.http 500) false, .Failed (.network "x".data) false⟩
      "s1".data).1 =
      .Failed (.policy "denied: private IP literal".data) true :=
  (policy_denied_no_attempt_no_event
    ⟨.ok "R".data, fun _ => .error "denied: private IP literal".data,
     .ok 1, .ok "resp".data, fun r => .ok r, false, "".data,
     .Failed (.http 500) false, .Failed (.network "x".data) false⟩
    "s1".data "R".data "denied: private IP literal".data rfl rfl).1

namespace Policy

/-- `char::to_digit(radix)` for radix ≤ 16. -/
def hexDigitVal (c : Char) : Option Nat :=
  if '0' ≤ c ∧ c ≤ '9' then some (c.toNat - 48)
  else if 'a' ≤ c ∧ c ≤ 'f' then some (c.toNat - 97 + 10)
  else if 'A' ≤ c ∧ c ≤ 'F' then some (c.toNat - 65 + 10)
  else none

def digitVal (radix : Nat) (c : Char) : Option Nat :=
  match hexDigitVal c with
  | some v => if v < radix then some v else none
  | none => none

/-- The maximal run of radix digits at the head of the input. -/
def takeDigits (radix : Nat) : Str → (List Nat × Str)
  | [] => ([], [])
  | c :: rest =>
    match digitVal radix c with
    | some v =>
      let r := takeDigits radix rest
      (v :: r.1, r.2)
    | none => ([], c :: rest)

/-- `Parser::read_number`: consume all consecutive digits, then reject an
empty run, too many digits, a forbidden leading zero, or a value the
checked arithmetic of the target integer type would overflow. -/
def read_number (radix maxDigits maxVal : Nat) (allowZeroPrefix : Bool)
    (s : Str) : Option (Nat × Str) :=
  let dr := takeDigits radix s
  if dr.1.length = 0 then none
  else if maxDigits < dr.1.length then none
  else if allowZeroPrefix = false ∧ dr.1.head? = some 0 ∧ 1 < dr.1.length then
    none
  else
    let v := dr.1.foldl (fun a d => a * radix + d) 0
    if maxVal < v then none else some (v, dr.2)

def read_given_char (c : Char) : Str → Option Str
  | [] => none
  | x :: rest => if x = c then some rest else none

/-- `Parser::read_ipv4_addr`: four decimal octets (≤ 3 digits, no leading
zeros, value ≤ 255) separated by dots. -/
def read_ipv4_addr (s : Str) : Option ((Nat × Nat × Nat × Nat) × Str) := do
  let (a, s1) ← read_number 10 3 255 false s
  let s2 ← read_given_char '.' s1
  let (b, s3) ← read_number 10 3 255 false s2
  let s4 ← read_given_char '.' s3
  let (c, s5) ← read_number 10 3 255 false s4
  let s6 ← read_given_char '.' s5
  let (d, s7) ← read_number 10 3 255 false s6
  pure ((a, b, c, d), s7)

/-- `read_separator(':', i, read_ipv4_addr)`. -/
def read_sep_v4 (i : Nat) (s : Str) : Option ((Nat × Nat × Nat × Nat) × Str) :=
  if i = 0 then read_ipv4_addr s
  else
    match read_given_char ':' s with
    | some s2 => read_ipv4_addr s2
    | none => none

/-- `read_separator(':', i, read_number(16, Some(4), true))`. -/
def read_sep_group (i : Nat) (s : Str) : Option (Nat × Str) :=
  if i = 0 then read_number 16 4 65535 true s
  else
    match read_given_char ':' s with
    | some s2 => read_number 16 4 65535 true s2
    | none => none

/-- `read_groups`: fill up to `limit` 16-bit groups; a trailing embedded
IPv4 address may supply the last two groups when at least two slots
remain. Returns the groups read, whether they ended in an embedded IPv4
address, and the remaining input. -/
def read_groups_go (limit : Nat) :
    Nat → Nat → List Nat → Str → (List Nat × Bool × Str)
  | 0, _, acc, s => (acc, false, s)
  | fuel + 1, i, acc, s =>
    if i < limit then
      match (if i + 1 < limit then read_sep_v4 i s else none) with
      | some ((a, b, c, d), rest) =>
        (acc ++ [a * 256 + b, c * 256 + d], true, rest)
      | none =>
        match read_sep_group i s with
        | some (g, rest) => read_groups_go limit fuel (i + 1) (acc ++ [g]) rest
        | none => (acc, false, s)
    else (acc, false, s)

def read_groups (limit : Nat) (s : Str) : List Nat × Bool × Str :=
  read_groups_go limit limit 0 [] s

/-- `Parser::read_ipv6_addr`: a head of groups, then — unless all eight
groups were read — a `::` followed by a tail, the gap filled with zero
groups; an embedded IPv4 address may not appear before the `::`. -/
def read_ipv6_addr (s : Str) : Option (List Nat × Str) :=
  let hr := read_groups 8 s
  if hr.1.length = 8 then some (hr.1, hr.2.2)
  else if hr.2.1 then none
  else
    match read_given_char ':' hr.2.2 with
    | none => none
    | some s2 =>
      match read_given_char ':' s2 with
      | none => none
      | some s3 =>
        let limit := 8 - (hr.1.length + 1)
        let tr := read_groups limit s3
        some (hr.1 ++ List.replicate (8 - hr.1.length - tr.1.length) 0 ++
          tr.1, tr.2.2)

inductive IpAddr where
  | v4 (a b c d : Nat)
  | v6 (groups : List Nat)
  deriving DecidableEq, Repr

/-- `host.parse::<std::net::IpAddr>()`: IPv4 first, else IPv6, and the
entire input must be consumed. -/
def parse_ip (host : Str) : Option IpAddr :=
  match read_ipv4_addr host with
  | some ((a, b, c, d), rest) =>
    if rest = [] then some (.v4 a b c d) else none
  | none =>
    match read_ipv6_addr host with
    | some (gs, rest) => if rest = [] then some (.v6 gs) else none
    | none => none

/-- `Ipv6Addr::is_loopback` (`::1`). -/
def is_loopback_v6 (gs : List Nat) : Bool := gs == [0, 0, 0, 0, 0, 0, 0, 1]

/-- `network::is_private_ip_literal`. -/
def is_private_ip_literal (host : Str) : Bool :=
  match parse_ip host with
  | none => false
  | some (.v4 a b _ _) =>
    if a = 10 then true
    else if a = 127 then true
    else if a = 192 ∧ b = 168 then true
    else if a = 172 ∧ 16 ≤ b ∧ b ≤ 31 then true
    else if a = 169 ∧ b = 254 then true
    else false
  | some (.v6 gs) =>
    is_loopback_v6 gs || ((gs.headD 0) &&& 65472 == 65152) ||
      ((gs.headD 0) &&& 65024 == 64512)

end Policy

namespace Policy

theorem read_number_le {radix maxDigits maxVal : Nat} {azp : Bool} {s : Str}
    {v : Nat} {rest : Str}
    (h : read_number radix maxDigits maxVal azp s = some (v, rest)) :
    v ≤ maxVal := by
  unfold read_number at h
  dsimp only at h
  split_ifs at h with h1 h2 h3 h4 <;>
    first
      | (simp at h
         done)
      | (simp only [Option.some.injEq, Prod.mk.injEq] at h
         omega)

theorem read_ipv4_bounds {s : Str} {a b c d : Nat} {rest : Str}
    (h : read_ipv4_addr s = some ((a, b, c, d), rest)) :
    a ≤ 255 ∧ b ≤ 255 ∧ c ≤ 255 ∧ d ≤ 255 := by
  unfold read_ipv4_addr at h
  cases h1 : read_number 10 3 255 false s with
  | none => rw [h1] at h; simp at h
  | some p1 =>
    obtain ⟨a1, s1⟩ := p1
    rw [h1] at h
    simp only [Option.bind_eq_bind, Option.some_bind] at h
    cases h2 : read_given_char '.' s1 with
    | none => rw [h2] at h; simp at h
    | some s2 =>
      rw [h2] at h
      simp only [Option.some_bind] at h
      cases h3 : read_number 10 3 255 false s2 with
      | none => rw [h3] at h; simp at h
      | some p2 =>
        obtain ⟨b1, s3⟩ := p2
        rw [h3] at h
        simp only [Option.some_bind] at h
        cases h4 : read_given_char '.' s3 with
        | none => rw [h4] at h; simp at h
        | some s4 =>
          rw [h4] at h
          simp only [Option.some_bind] at h
          cases h5 : read_number 10 3 255 false s4 with
          | none => rw [h5] at h; simp at h
          | some p3 =>
            obtain ⟨c1, s5⟩ := p3
            rw [h5] at h
            simp only [Option.some_bind] at h
            cases h6 : read_given_char '.' s5 with
            | none => rw [h6] at h; simp at h
            | some s6 =>
              rw [h6] at h
              simp only [Option.some_bind] at h
              cases h7 : read_number 10 3 255 false s6 with
              | none => rw [h7] at h; simp at h
              | some p4 =>
                obtain ⟨d1, s7⟩ := p4
                rw [h7] at h
                simp only [Option.some_bind, Option.some.injEq,
                  Prod.mk.injEq] at h
                have e1 := read_number_le h1
                have e3 := read_number_le h3
                have e5 := read_number_le h5
                have e7 := read_number_le h7
                obtain ⟨h8, _⟩ := h
                omega

theorem read_sep_group_le {i : Nat} {s : Str} {g : Nat} {rest : Str}
    (h : read_sep_group i s = some (g, rest)) : g ≤ 65535 := by
  unfold read_sep_group at h
  split_ifs at h
  · exact read_number_le h
  · cases hg : read_given_char ':' s with
    | none => rw [hg] at h; simp at h
    | some s2 =>
      rw [hg] at h
      exact read_number_le h

theorem read_sep_v4_bounds {i : Nat} {s : Str} {a b c d : Nat} {rest : Str}
    (h : read_sep_v4 i s = some ((a, b, c, d), rest)) :
    a ≤ 255 ∧ b ≤ 255 ∧ c ≤ 255 ∧ d ≤ 255 := by
  unfold read_sep_v4 at h
  split_ifs at h
  · exact read_ipv4_bounds h
  · cases hg : read_given_char ':' s with
    | none => rw [hg] at h; simp at h
    | some s2 =>
      rw [hg] at h
      exact read_ipv4_bounds h

theorem read_groups_go_bound (limit : Nat) :
    ∀ (fuel i : Nat) (acc : List Nat) (s : Str),
    (∀ g ∈ acc, g < 65536) →
    ∀ g ∈ (read_groups_go limit fuel i acc s).1, g < 65536 := by
  intro fuel
  induction fuel with
  | zero =>
    intro i acc s hacc g hg
    exact hacc g hg
  | succ fuel ih =>
    intro i acc s hacc g hg
    rw [read_groups_go] at hg
    by_cases hil : i < limit
    · by_cases hil2 : i + 1 < limit
      · cases hv4 : read_sep_v4 i s with
        | some p =>
          obtain ⟨⟨a, b, c, d⟩, rest⟩ := p
          simp only [hil, hil2, hv4, if_true] at hg
          rcases List.mem_append.mp hg with hg | hg
          · exact hacc g hg
          · obtain ⟨ha, hb, hc, hd⟩ := read_sep_v4_bounds hv4
            rcases List.mem_cons.mp hg with hg | hg
            · omega
            · simp only [List.mem_singleton] at hg
              omega
        | none =>
          simp only [hil, hil2, hv4, if_true] at hg
          cases hsg : read_sep_group i s with
          | some p =>
            obtain ⟨g2, rest⟩ := p
            rw [hsg] at hg
            refine ih (i + 1) (acc ++ [g2]) rest ?_ g hg
            intro y hy
            rcases List.mem_append.mp hy with hy | hy
            · exact hacc y hy
            · simp only [List.mem_singleton] at hy
              have := read_sep_group_le hsg
              omega
          | none =>
            rw [hsg] at hg
            exact hacc g hg
      · simp only [hil, hil2, if_true] at hg
        cases hsg : read_sep_group i s with
        | some p =>
          obtain ⟨g2, rest⟩ := p
          rw [hsg] at hg
          refine ih (i + 1) (acc ++ [g2]) rest ?_ g hg
          intro y hy
          rcases List.mem_append.mp hy with hy | hy
          · exact hacc y hy
          · simp only [List.mem_singleton] at hy
            have := read_sep_group_le hsg
            omega
        | none =>
          rw [hsg] at hg
          exact hacc g hg
    · simp only [hil] at hg
      exact hacc g hg

theorem read_ipv6_bound {s : Str} {gs : List Nat} {rest : Str}
    (h : read_ipv6_addr s = some (gs, rest)) : ∀ g ∈ gs, g < 65536 := by
  unfold read_ipv6_addr at h
  dsimp only at h
  have hhead := read_groups_go_bound 8 8 0 [] s (by intro g hg; simp at hg)
  split_ifs at h with h1 h2
  · simp only [Option.some.injEq, Prod.mk.injEq] at h
    intro g hg
    exact hhead g (h.1 ▸ hg)
  · cases hc1 : read_given_char ':' (read_groups 8 s).2.2 with
    | none =>
      rw [hc1] at h
      simp at h
    | some s2 =>
      rw [hc1] at h
      dsimp only at h
      cases hc2 : read_given_char ':' s2 with
      | none =>
        rw [hc2] at h
        simp at h
      | some s3 =>
        rw [hc2] at h
        dsimp only at h
        simp only [Option.some.injEq, Prod.mk.injEq] at h
        have htail := read_groups_go_bound (8 - ((read_groups 8 s).1.length + 1))
          (8 - ((read_groups 8 s).1.length + 1)) 0 [] s3
          (by intro g hg; simp at hg)
        intro g hg
        rw [← h.1] at hg
        rcases List.mem_append.mp hg with hg | hg
        · rcases List.mem_append.mp hg with hg | hg
          · exact hhead g hg
          · rw [List.eq_of_mem_replicate hg]
            omega
        · exact htail g hg

theorem parse_ip_v6_bound {host : Str} {gs : List Nat}
    (h : parse_ip host = some (.v6 gs)) : ∀ g ∈ gs, g < 65536 := by
  unfold parse_ip at h
  cases h1 : read_ipv4_addr host with
  | some p =>
    obtain ⟨⟨a, b, c, d⟩, rest⟩ := p
    rw [h1] at h
    by_cases hr : rest = [] <;> simp [hr] at h
  | none =>
    rw [h1] at h
    cases h2 : read_ipv6_addr host with
    | some p =>
      obtain ⟨gs2, rest⟩ := p
      rw [h2] at h
      by_cases hr : rest = []
      · simp [hr] at h
        subst h
        exact read_ipv6_bound h2
      · simp [hr] at h
    | none =>
      rw [h2] at h
      simp at h

end Policy

namespace Policy

theorem and_div_two_pow (a b : Nat) :
    ∀ k, (a &&& b) / 2 ^ k = a / 2 ^ k &&& b / 2 ^ k := by
  intro k
  induction k generalizing a b with
  | zero => simp
  | succ k ih =>
    have h1 : (a &&& b) / 2 ^ (k + 1) = ((a &&& b) / 2) / 2 ^ k := by
      rw [Nat.div_div_eq_div_mul, pow_succ, Nat.mul_comm (2 ^ k) 2,
        Nat.mul_comm 2 (2 ^ k)]
    rw [h1, Nat.and_div_two, ih]
    congr 1 <;> rw [Nat.div_div_eq_div_mul, Nat.mul_comm 2 (2 ^ k), ← pow_succ]

theorem and_mask_high (n mask k : Nat) (hmod : mask % 2 ^ k = 0)
    (hdiv : mask / 2 ^ k = 2 ^ (16 - k) - 1) (hn : n < 65536) (hk : k ≤ 16) :
    n &&& mask = 2 ^ k * (n / 2 ^ k) := by
  have hlow : (n &&& mask) % 2 ^ k = 0 := by
    rw [← Nat.and_pow_two_sub_one_eq_mod, Nat.and_assoc,
      Nat.and_pow_two_sub_one_eq_mod, hmod, Nat.and_zero]
  have hhigh : (n &&& mask) / 2 ^ k = n / 2 ^ k := by
    rw [and_div_two_pow, hdiv]
    apply Nat.and_pow_two_sub_one_of_lt_two_pow
    rw [Nat.div_lt_iff_lt_mul (Nat.pos_pow_of_pos k (by norm_num))]
    calc n < 65536 := hn
      _ = 2 ^ 16 := by norm_num
      _ ≤ 2 ^ (16 - k) * 2 ^ k := by rw [← pow_add, Nat.sub_add_cancel hk]
  calc n &&& mask
      = 2 ^ k * ((n &&& mask) / 2 ^ k) + (n &&& mask) % 2 ^ k := by
        rw [Nat.div_add_mod]
    _ = 2 ^ k * (n / 2 ^ k) := by rw [hhigh, hlow]; omega

/-- `seg0 & 0xffc0 == 0xfe80` is exactly the `fe80::/10` range. -/
theorem land_ffc0_iff (n : Nat) (hn : n < 65536) :
    (n &&& 65472 = 65152) ↔ (65152 ≤ n ∧ n ≤ 65215) := by
  have h := and_mask_high n 65472 6 (by norm_num) (by norm_num) hn
    (by norm_num)
  rw [h]
  have h64 : (2 : Nat) ^ 6 = 64 := by norm_num
  rw [h64]
  omega

/-- `seg0 & 0xfe00 == 0xfc00` is exactly the `fc00::/7` range. -/
theorem land_fe00_iff (n : Nat) (hn : n < 65536) :
    (n &&& 65024 = 64512) ↔ (64512 ≤ n ∧ n ≤ 65023) := by
  have h := and_mask_high n 65024 9 (by norm_num) (by norm_num) hn
    (by norm_num)
  rw [h]
  have h512 : (2 : Nat) ^ 9 = 512 := by norm_num
  rw [h512]
  omega

/-- The spec's denied IPv4 ranges: 10/8, 127/8, 169.254/16, 172.16/12,
192.168/16. -/
def SpecPrivateV4 (a b : Nat) : Prop :=
  a = 10 ∨ a = 127 ∨ (a = 169 ∧ b = 254) ∨ (a = 172 ∧ 16 ≤ b ∧ b ≤ 31) ∨
    (a = 192 ∧ b = 168)

/-- The spec's denied addresses: the IPv4 ranges, IPv6 loopback `::1`,
link-local `fe80::/10` and unique-local `fc00::/7`. -/
def SpecPrivate : IpAddr → Prop
  | .v4 a b _ _ => SpecPrivateV4 a b
  | .v6 gs =>
    gs = [0, 0, 0, 0, 0, 0, 0, 1] ∨
      (∃ g0, gs.head? = some g0 ∧
        ((65152 ≤ g0 ∧ g0 ≤ 65215) ∨ (64512 ≤ g0 ∧ g0 ≤ 65023)))

end Policy

/-- C8: `is_private_ip_literal` returns true exactly when the host string
parses as an IP address (per the Rust standard library's strict parser: no
DNS lookup, dotted-quad octets without leading zeros, IPv6 groups with an
optional `::` and trailing embedded IPv4) lying in 10/8, 127/8,
169.254/16, 172.16/12 or 192.168/16, or equal to `::1`, or in `fe80::/10`
or `fc00::/7` (the first IPv6 group masked with `0xffc0`/`0xfe00` matches
exactly those CIDR ranges); a host that is not an IP literal is never
classified as private. -/
theorem is_private_ip_literal_spec (host : Str) :
    (Policy.is_private_ip_literal host = true ↔
      ∃ ip, Policy.parse_ip host = some ip ∧ Policy.SpecPrivate ip) ∧
    (Policy.parse_ip host = none →
      Policy.is_private_ip_literal host = false) := by
  constructor
  · unfold Policy.is_private_ip_literal
    cases hp : Policy.parse_ip host with
    | none => simp
    | some ip =>
      cases ip with
      | v4 a b c d =>
        simp only [Option.some.injEq]
        constructor
        · intro hh
          refine ⟨.v4 a b c d, rfl, ?_⟩
          split_ifs at hh with hh1 hh2 hh3 hh4 hh5 <;>
            simp only [Policy.SpecPrivate, Policy.SpecPrivateV4] <;> omega
        · rintro ⟨ip, hip, hspec⟩
          rw [← hip] at hspec
          simp only [Policy.SpecPrivate, Policy.SpecPrivateV4] at hspec
          split_ifs with hh1 hh2 hh3 hh4 hh5 <;> first | rfl | omega
      | v6 gs =>
        have hb := Policy.parse_ip_v6_bound hp
        cases gs with
        | nil => simp [Policy.is_loopback_v6, Policy.SpecPrivate]
        | cons g0 gtl =>
          have hg0 : g0 < 65536 := hb g0 (List.mem_cons_self _ _)
          simp only [Policy.is_loopback_v6, List.headD_cons,
            Bool.or_eq_true, beq_iff_eq, Option.some.injEq,
            Policy.SpecPrivate, List.head?_cons, exists_eq_left,
            exists_eq_left']
          rw [Policy.land_ffc0_iff g0 hg0, Policy.land_fe00_iff g0 hg0]
          tauto
  · intro hp
    unfold Policy.is_private_ip_literal
    rw [hp]

/-- Witness: `example.com` is not an IP literal, so it is never denied by
this rule. -/
theorem is_private_ip_literal_spec_witness :
    Policy.is_private_ip_literal "example.com".data = false :=
  (is_private_ip_literal_spec "example.com".data).2 rfl
